import Mathlib

/-!
# DataStructureProject: indexed min-priority queue over a quadratic-probing hash table

A shallow embedding of `hash_table.hpp` and `priority_queue.hpp`.

* `unsigned` is a natural number below `2 ^ 32`; every arithmetic step of the
  source is reduced modulo `2 ^ 32` where it is performed.
* Heap storage is a list of cells.  Storage obtained with `new[]` is not
  initialised by the source; its initial contents are a parameter (`junk` for
  the queue's array, `hjunk` for a table's array).  A read or a write of an
  array outside its bounds is a fault.
* A pointer returned by `HashTable::get` is the index of the slot it points
  into; `none` is the null pointer.
* Loops that the source writes as `while (true)` run on fuel.  The probe
  loops get `2 ^ 32` steps: the probe counter is a 32-bit value, so a loop
  that has not stopped after `2 ^ 32` steps revisits its first state and
  never stops.
-/

instance instDecidableEqExcept {ε α : Type} [DecidableEq ε] [DecidableEq α] :
    (a b : Except ε α) → Decidable (a = b)
  | .ok a, .ok b => if h : a = b then isTrue (by rw [h]) else isFalse (by intro h1; cases h1; exact h rfl)
  | .error a, .error b =>
    if h : a = b then isTrue (by rw [h]) else isFalse (by intro h1; cases h1; exact h rfl)
  | .ok _, .error _ => isFalse (by intro h; cases h)
  | .error _, .ok _ => isFalse (by intro h; cases h)

namespace DSP

/-- What can go wrong while the source runs. -/
inductive Fault where
  | runtimeError
  | nullDeref
  | outOfBounds
  | divByZero
  | useAfterFree
  | diverges
  deriving DecidableEq, Repr

/-- The modulus of `unsigned`. -/
def U32 : Nat := 4294967296

/-- Unsigned addition. -/
def uadd (a b : Nat) : Nat := (a + b) % U32

/-- Unsigned subtraction of values below `2 ^ 32`. -/
def usub (a b : Nat) : Nat := (a % U32 + U32 - b % U32) % U32

/-- Unsigned multiplication. -/
def umul (a b : Nat) : Nat := (a * b) % U32

/-! ## hash_table.hpp -/

/-- A bucket of the table: `struct Slot`. -/
structure Slot (V : Type) where
  key : Nat
  value : V
  is_empty : Bool
  is_deleted : Bool
  deriving DecidableEq, Repr

/-- The fields of `class HashTable`. -/
structure HashTable (V : Type) where
  slot : List (Slot V)
  size_table : Nat
  num_element : Nat
  deriving DecidableEq, Repr

namespace HashTable

variable {V : Type}

/-- The array made by `new Slot<ValueType>[n]`: flags take their default
member initialisers, `key` and `value` are whatever the storage held. -/
def freshSlots (hjunk : Nat → Nat → Nat × V) (n : Nat) : List (Slot V) :=
  (List.range n).map fun i =>
    { key := (hjunk n i).1, value := (hjunk n i).2, is_empty := true, is_deleted := false }

/-- The divisor loop of the constructor: `for (i = 2; i < tableSize / 2; i++)`. -/
def ctorHasDivisor (tableSize : Nat) : Bool :=
  (List.range (tableSize / 2)).any fun i => decide (2 ≤ i) && tableSize % i == 0

/-- The constructor `HashTable(unsigned tableSize)`. -/
def new (hjunk : Nat → Nat → Nat × V) (tableSize : Nat) : Except Fault (HashTable V) :=
  if tableSize = 0 then .error .runtimeError
  else if ctorHasDivisor tableSize then .error .runtimeError
  else .ok { slot := freshSlots hjunk tableSize, size_table := tableSize, num_element := 0 }

/-- The bucket visited at probe `q`: `(key + (quadratic * quadratic)) % size_table`. -/
def probeIndex (t : HashTable V) (key q : Nat) : Nat :=
  uadd key (umul q q) % t.size_table

/-- The loop of `get`, started at probe `q`.  The result is the address of the
slot that holds `key`, or `none` for the null pointer. -/
def getLoop (t : HashTable V) (key : Nat) : Nat → Nat → Except Fault (Option Nat)
  | 0, _ => .error .diverges
  | fuel + 1, q =>
    if t.size_table = 0 then .error .divByZero
    else
      match t.slot[probeIndex t key q]? with
      | none => .error .outOfBounds
      | some s =>
        if !s.is_empty && s.key == key then .ok (some (probeIndex t key q))
        else if s.is_empty && !s.is_deleted then .ok none
        else getLoop t key fuel (q + 1)

/-- The member `get(unsigned key)`. -/
def get (t : HashTable V) (key : Nat) : Except Fault (Option Nat) :=
  getLoop t key U32 0

/-- Reading through a pointer returned by `get`. -/
def readValue (t : HashTable V) (p : Nat) : Except Fault V :=
  match t.slot[p]? with
  | none => .error .outOfBounds
  | some s => .ok s.value

/-- Writing through a pointer returned by `get`: `*(get(k)) = v`. -/
def writeValue (t : HashTable V) (p : Nat) (v : V) : HashTable V :=
  match t.slot[p]? with
  | none => t
  | some s => { t with slot := t.slot.set p { s with value := v } }

/-- The argument `const ValueType& value` of `insert` and `rehash`: a value of
the caller, a reference to the `value` field of a slot of this very table, or
such a reference after the array it pointed into has been deleted. -/
inductive ValueRef (V : Type) where
  | direct (v : V)
  | intoSlot (p : Nat)
  | dangling
  deriving DecidableEq, Repr

/-- Reading the referenced value. -/
def ValueRef.read (t : HashTable V) : ValueRef V → Except Fault V
  | .direct v => .ok v
  | .intoSlot p => readValue t p
  | .dangling => .error .useAfterFree

/-- The reference once `delete[] slot` has run. -/
def ValueRef.afterDelete : ValueRef V → ValueRef V
  | .direct v => .direct v
  | _ => .dangling

/-- The loop of `insert`, started at probe `q` with the current `flag_unique`
and `slot_insert_index`.  `none`: the key was met (`return false`);
`some i`: the loop was left by `break` with `slot_insert_index = i`. -/
def insertLoop (t : HashTable V) (key : Nat) : Nat → Nat → Bool → Nat → Except Fault (Option Nat)
  | 0, _, _, _ => .error .diverges
  | fuel + 1, q, flag_unique, slot_insert_index =>
    if t.size_table = 0 then .error .divByZero
    else
      match t.slot[probeIndex t key q]? with
      | none => .error .outOfBounds
      | some tmp =>
        if !tmp.is_empty && tmp.key == key then .ok none
        else
          let idx := if tmp.is_empty && !flag_unique then probeIndex t key q else slot_insert_index
          if tmp.is_empty && !tmp.is_deleted then .ok (some idx)
          else insertLoop t key fuel (q + 1) (flag_unique || tmp.is_empty) idx

/-- The test `((double)(num_element + 1) / (double)size_table) >= 0.5`.  Both
operands are integers below `2 ^ 32`, exactly representable, and a quotient
below one half is below it by more than `2 ^ (-34)`, so the rounded quotient
compares with `0.5` as the exact one does. -/
def growNeeded (t : HashTable V) : Bool :=
  decide (t.size_table ≤ 2 * uadd t.num_element 1)

/-- The trial division of `rehash` (and of the queue's constructor):
`for (i = 2; i < n; ++i) if (n % i == 0) flag_prime = false`. -/
def isPrimeTrial (n : Nat) : Bool :=
  (List.range n).all fun i => decide (i < 2) || n % i != 0

/-- The loop `while (!is_prime) { n++; ... }`, entered with `n = s`. -/
def nextPrimeLoop : Nat → Nat → Except Fault Nat
  | 0, _ => .error .diverges
  | fuel + 1, s =>
    if isPrimeTrial (uadd s 1) then .ok (uadd s 1) else nextPrimeLoop fuel (uadd s 1)

/-- The pairs copied out by `rehash`, in ascending bucket order. -/
def liveEntries (t : HashTable V) : List (Nat × V) :=
  (t.slot.take t.size_table).filterMap fun s =>
    if !s.is_empty && !s.is_deleted then some (s.key, s.value) else none

/-- The final branch of `insert`: the entry is written at `slot_insert_index`. -/
def store (t : HashTable V) (idx key : Nat) (value : V) : HashTable V :=
  { t with
    slot := t.slot.set idx { key := key, value := value, is_empty := false, is_deleted := false }
    num_element := uadd t.num_element 1 }

/-- The member `rehash(key, value)`, given the `insert` it calls back. -/
def rehash (hjunk : Nat → Nat → Nat × V)
    (ins : HashTable V → Nat → ValueRef V → Except Fault (Bool × HashTable V))
    (t : HashTable V) (key : Nat) (value : ValueRef V) : Except Fault (HashTable V) :=
  if growNeeded t then do
    let size ← nextPrimeLoop U32 (umul t.size_table 2)
    let copy := liveEntries t
    let t0 : HashTable V := { slot := freshSlots hjunk size, size_table := size, num_element := 0 }
    let t1 ← copy.foldlM (fun acc kv => (ins acc kv.1 (.direct kv.2)).map Prod.snd) t0
    let r ← ins t1 key value.afterDelete
    pure r.2
  else pure t

/-- The member `insert(key, value)`; the first argument bounds how deep
`insert` and `rehash` may call each other. -/
def insertAux (hjunk : Nat → Nat → Nat × V) :
    Nat → HashTable V → Nat → ValueRef V → Except Fault (Bool × HashTable V)
  | 0, _, _, _ => .error .diverges
  | depth + 1, t, key, value => do
    let r ← insertLoop t key U32 0 false (probeIndex t key 0)
    match r with
    | none => pure (false, t)
    | some idx =>
      if growNeeded t then do
        let t1 ← rehash hjunk (insertAux hjunk depth) t key value
        pure (true, t1)
      else do
        let v ← value.read t
        pure (true, store t idx key v)

/-- The nesting allowed to `insert`/`rehash`.  While doubling the capacity
does not wrap around `2 ^ 32` a grow re-inserts at most as many pairs as the
old capacity, so only the closing `insert` of a `rehash` can grow again, and
that only once. -/
def insertDepth : Nat := 8

/-- The member `insert(key, value)` called with a value of the caller. -/
def insert (hjunk : Nat → Nat → Nat × V) (t : HashTable V) (key : Nat) (value : V) :
    Except Fault (Bool × HashTable V) :=
  insertAux hjunk insertDepth t key (.direct value)

/-- The loop of `remove`, started at probe `q`. -/
def removeLoop (t : HashTable V) (key : Nat) : Nat → Nat → Except Fault (Bool × HashTable V)
  | 0, _ => .error .diverges
  | fuel + 1, q =>
    if t.size_table = 0 then .error .divByZero
    else
      match t.slot[probeIndex t key q]? with
      | none => .error .outOfBounds
      | some s =>
        if s.key == key then
          .ok (true,
            { t with
              slot := t.slot.set (probeIndex t key q) { s with is_deleted := true, is_empty := true }
              num_element := usub t.num_element 1 })
        else if s.is_empty then .ok (false, t)
        else removeLoop t key fuel (q + 1)

/-- The member `remove(key)`. -/
def remove (t : HashTable V) (key : Nat) : Except Fault (Bool × HashTable V) :=
  removeLoop t key U32 0

end HashTable

/-! ## priority_queue.hpp -/

/-- A cell of the queue's array: `struct Slot_queue`. -/
structure Slot_queue (V : Type) where
  key : Nat
  value : V
  deriving DecidableEq, Repr

/-- The fields of `class PriorityQueue`; `mapping` is the table the pointer
member points to. -/
structure PriorityQueue (V : Type) where
  slot : List (Slot_queue V)
  mapping : HashTable Nat
  num_element : Nat
  size_max : Nat
  deriving DecidableEq, Repr

namespace PriorityQueue

variable {V : Type}

/-- The constructor `PriorityQueue(unsigned maxSize)`. -/
def new (junk : Nat → Slot_queue V) (hjunk : Nat → Nat → Nat × Nat) (maxSize : Nat) :
    Except Fault (PriorityQueue V) :=
  if maxSize = 0 then .error .runtimeError
  else do
    let prime_num ← HashTable.nextPrimeLoop U32 (usub (umul 2 maxSize) 1)
    let mapping ← HashTable.new hjunk prime_num
    pure { slot := (List.range maxSize).map junk, mapping := mapping, num_element := 0,
           size_max := maxSize }

/-- The member `numElements()`. -/
def numElements (pq : PriorityQueue V) : Nat := pq.num_element

/-- The member `maxSize()`. -/
def maxSize (pq : PriorityQueue V) : Nat := pq.size_max

/-- The entry at position `i` of the queue's array.  The members read the
array through `readCell`; statements use `cell` for positions of the array
(for a position the array does not have it stands for `junk i`). -/
def cell (junk : Nat → Slot_queue V) (pq : PriorityQueue V) (i : Nat) : Slot_queue V :=
  pq.slot.getD i (junk i)

/-- The read `slot[i]`: outside the array it is a fault. -/
def readCell (junk : Nat → Slot_queue V) (pq : PriorityQueue V) (i : Nat) :
    Except Fault (Slot_queue V) :=
  if i < pq.slot.length then .ok (cell junk pq i) else .error .outOfBounds

/-- The write `slot[i] = c`. -/
def setCell (pq : PriorityQueue V) (i : Nat) (c : Slot_queue V) : Except Fault (PriorityQueue V) :=
  if i < pq.slot.length then .ok { pq with slot := pq.slot.set i c } else .error .outOfBounds

/-- The member `swap(index1, index2)`. -/
def swap (junk : Nat → Slot_queue V) (pq : PriorityQueue V) (index1 index2 : Nat) :
    Except Fault (PriorityQueue V) := do
  let c1 ← readCell junk pq index1
  let a ← pq.mapping.get c1.key
  match a with
  | none => .error .nullDeref
  | some pa =>
    let m1 := pq.mapping.writeValue pa index2
    let c2 ← readCell junk pq index2
    let b ← m1.get c2.key
    match b with
    | none => .error .nullDeref
    | some pb =>
      let pq1 : PriorityQueue V := { pq with mapping := m1.writeValue pb index1 }
      let tmp ← readCell junk pq1 index1
      let c ← readCell junk pq1 index2
      let pq2 ← setCell pq1 index1 c
      setCell pq2 index2 tmp

/-- The position `((index + 1) / 2) - 1`. -/
def parentOf (index : Nat) : Nat := usub (uadd index 1 / 2) 1

/-- The position `2 * (index + 1) - 1`. -/
def leftOf (index : Nat) : Nat := usub (umul 2 (uadd index 1)) 1

/-- The position `(2 * (index + 1)) + 1 - 1`. -/
def rightOf (index : Nat) : Nat := usub (uadd (umul 2 (uadd index 1)) 1) 1

/-- The loop of `up`, entered with `index` and `parent`. -/
def upLoop (junk : Nat → Slot_queue V) :
    Nat → PriorityQueue V → Nat → Nat → Except Fault (PriorityQueue V)
  | 0, _, _, _ => .error .diverges
  | fuel + 1, pq, index, parent => do
    let p ← readCell junk pq parent
    let c ← readCell junk pq index
    if p.key > c.key then do
      let pq1 ← swap junk pq parent index
      if parent = 0 then pure pq1
      else upLoop junk fuel pq1 parent (parentOf parent)
    else pure pq

/-- The member `up(index)`.  Every pass of the loop lowers `index`, so
`index + 1` passes are never used up. -/
def up (junk : Nat → Slot_queue V) (pq : PriorityQueue V) (index : Nat) :
    Except Fault (PriorityQueue V) :=
  if index = 0 then pure pq
  else upLoop junk (index + 1) pq index (parentOf index)

/-- The choice `if (slot[left_child].key < slot[right_child].key)`. -/
def smallerOf (junk : Nat → Slot_queue V) (pq : PriorityQueue V) (left_child right_child : Nat) :
    Except Fault Nat := do
  let l ← readCell junk pq left_child
  let r ← readCell junk pq right_child
  pure (if l.key < r.key then left_child else right_child)

/-- The loop of `down`, entered with `index` and `small_child`. -/
def downLoop (junk : Nat → Slot_queue V) :
    Nat → PriorityQueue V → Nat → Nat → Except Fault (PriorityQueue V)
  | 0, _, _, _ => .error .diverges
  | fuel + 1, pq, index, small_child =>
    if small_child < pq.num_element then do
      let a ← readCell junk pq index
      let b ← readCell junk pq small_child
      if a.key > b.key then do
        let pq1 ← swap junk pq index small_child
        let left_child := leftOf small_child
        let right_child := rightOf small_child
        if left_child ≥ pq1.num_element ∧ right_child ≥ pq1.num_element then pure pq1
        else if left_child ≥ pq1.num_element ∧ right_child < pq1.num_element then
          downLoop junk fuel pq1 small_child right_child
        else if left_child < pq1.num_element ∧ right_child ≥ pq1.num_element then
          downLoop junk fuel pq1 small_child left_child
        else do
          let s ← smallerOf junk pq1 left_child right_child
          downLoop junk fuel pq1 small_child s
      else pure pq
    else pure pq

/-- The member `down(index)`.  While child positions do not wrap around
`2 ^ 32` every pass of the loop raises `index`, which stays below
`num_element`, so `num_element + 1` passes are never used up. -/
def down (junk : Nat → Slot_queue V) (pq : PriorityQueue V) (index : Nat) :
    Except Fault (PriorityQueue V) := do
  let small_child ← smallerOf junk pq (leftOf index) (rightOf index)
  downLoop junk (pq.num_element + 1) pq index small_child

/-- The member `insert(key, value)`. -/
def insert (junk : Nat → Slot_queue V) (hjunk : Nat → Nat → Nat × Nat)
    (pq : PriorityQueue V) (key : Nat) (value : V) : Except Fault (Bool × PriorityQueue V) :=
  if pq.num_element = pq.size_max then pure (false, pq)
  else do
    let value_address ← pq.mapping.get key
    match value_address with
    | some _ => pure (false, pq)
    | none =>
      let pq1 ← setCell pq pq.num_element { key := key, value := value }
      let r ← HashTable.insert hjunk pq1.mapping key pq1.num_element
      let pq2 : PriorityQueue V := { pq1 with mapping := r.2 }
      let pq3 ← up junk pq2 pq2.num_element
      pure (true, { pq3 with num_element := uadd pq3.num_element 1 })

/-- The member `getMinKey()`: what the returned pointer `&slot[0].key` points
at; `none` is the null pointer. -/
def getMinKey (junk : Nat → Slot_queue V) (pq : PriorityQueue V) : Option Nat :=
  if pq.num_element = 0 then none else some (cell junk pq 0).key

/-- The member `getMinValue()`: what the returned pointer `&slot[0].value`
points at; `none` is the null pointer. -/
def getMinValue (junk : Nat → Slot_queue V) (pq : PriorityQueue V) : Option V :=
  if pq.num_element = 0 then none else some (cell junk pq 0).value

/-- The member `deleteMin()`. -/
def deleteMin (junk : Nat → Slot_queue V) (pq : PriorityQueue V) :
    Except Fault (Bool × PriorityQueue V) :=
  if pq.num_element = 0 then pure (false, pq)
  else do
    let last ← readCell junk pq (usub pq.num_element 1)
    let pq1 ← setCell pq 0 { cell junk pq 0 with key := last.key }
    let last1 ← readCell junk pq1 (usub pq1.num_element 1)
    let pq2 ← setCell pq1 0 { cell junk pq1 0 with value := last1.value }
    let pq3 : PriorityQueue V := { pq2 with num_element := usub pq2.num_element 1 }
    let pq4 ← down junk pq3 0
    pure (true, pq4)

/-- The member `get(key)`: the value the returned pointer points at, `none`
for the null pointer. -/
def get (junk : Nat → Slot_queue V) (pq : PriorityQueue V) (key : Nat) :
    Except Fault (Option V) := do
  let mp ← pq.mapping.get key
  match mp with
  | some p =>
    let pos ← pq.mapping.readValue p
    let c ← readCell junk pq pos
    pure (some c.value)
  | none => pure none

/-- The member `decreaseKey(key, change)`. -/
def decreaseKey (junk : Nat → Slot_queue V) (hjunk : Nat → Nat → Nat × Nat)
    (pq : PriorityQueue V) (key change : Nat) : Except Fault (Bool × PriorityQueue V) := do
  let mp1 ← pq.mapping.get key
  match mp1 with
  | none => pure (false, pq)
  | some p1 =>
    if change = 0 ∨ key < change then pure (false, pq)
    else do
      let mp2 ← pq.mapping.get (usub key change)
      match mp2 with
      | some _ => pure (false, pq)
      | none =>
        let r ← HashTable.insertAux hjunk HashTable.insertDepth pq.mapping (usub key change)
          (.intoSlot p1)
        let freed := r.1 && pq.mapping.growNeeded
        let pq1 : PriorityQueue V := { pq with mapping := r.2 }
        let pos ← if freed then .error .useAfterFree else pq1.mapping.readValue p1
        let pq2 ← setCell pq1 pos { cell junk pq1 pos with key := usub key change }
        let pos2 ← pq2.mapping.readValue p1
        let pq3 ← up junk pq2 pos2
        let r2 ← pq3.mapping.remove key
        pure (true, { pq3 with mapping := r2.2 })

/-- The member `increaseKey(key, change)`. -/
def increaseKey (junk : Nat → Slot_queue V) (hjunk : Nat → Nat → Nat × Nat)
    (pq : PriorityQueue V) (key change : Nat) : Except Fault (Bool × PriorityQueue V) := do
  let mp1 ← pq.mapping.get key
  match mp1 with
  | none => pure (false, pq)
  | some p1 =>
    if change = 0 then pure (false, pq)
    else do
      let mp2 ← pq.mapping.get (usub key change)
      match mp2 with
      | some _ => pure (false, pq)
      | none =>
        let r ← HashTable.insertAux hjunk HashTable.insertDepth pq.mapping (uadd key change)
          (.intoSlot p1)
        let freed := r.1 && pq.mapping.growNeeded
        let pq1 : PriorityQueue V := { pq with mapping := r.2 }
        let pos ← if freed then .error .useAfterFree else pq1.mapping.readValue p1
        let pq2 ← setCell pq1 pos { cell junk pq1 pos with key := uadd key change }
        let pos2 ← pq2.mapping.readValue p1
        let pq3 ← down junk pq2 pos2
        let r2 ← pq3.mapping.remove key
        pure (true, { pq3 with mapping := r2.2 })

/-- The member `remove(key)`. -/
def remove (junk : Nat → Slot_queue V) (pq : PriorityQueue V) (key : Nat) :
    Except Fault (Bool × PriorityQueue V) := do
  let mp ← pq.mapping.get key
  match mp with
  | none => pure (false, pq)
  | some p =>
    let pos ← pq.mapping.readValue p
    let last ← readCell junk pq (usub pq.num_element 1)
    let pq1 ← setCell pq pos { cell junk pq pos with key := last.key }
    let pos1 ← pq1.mapping.readValue p
    let last1 ← readCell junk pq1 (usub pq1.num_element 1)
    let pq2 ← setCell pq1 pos1 { cell junk pq1 pos1 with value := last1.value }
    let pq3 : PriorityQueue V := { pq2 with num_element := usub pq2.num_element 1 }
    let r ← pq3.mapping.remove key
    let pq4 : PriorityQueue V := { pq3 with mapping := r.2 }
    let pos2 ← pq4.mapping.readValue p
    let pq5 ← up junk pq4 pos2
    let pos3 ← pq5.mapping.readValue p
    let pq6 ← down junk pq5 pos3
    pure (true, pq6)

/-- A call of one of the five mutating members. -/
inductive Op (V : Type) where
  | insert (key : Nat) (value : V)
  | deleteMin
  | remove (key : Nat)
  | decreaseKey (key change : Nat)
  | increaseKey (key change : Nat)
  deriving DecidableEq, Repr

/-- Performing one call. -/
def step (junk : Nat → Slot_queue V) (hjunk : Nat → Nat → Nat × Nat)
    (pq : PriorityQueue V) : Op V → Except Fault (Bool × PriorityQueue V)
  | .insert key value => insert junk hjunk pq key value
  | .deleteMin => deleteMin junk pq
  | .remove key => remove junk pq key
  | .decreaseKey key change => decreaseKey junk hjunk pq key change
  | .increaseKey key change => increaseKey junk hjunk pq key change

/-- Performing a sequence of calls, whatever each returns. -/
def run (junk : Nat → Slot_queue V) (hjunk : Nat → Nat → Nat × Nat) :
    PriorityQueue V → List (Op V) → Except Fault (PriorityQueue V)
  | pq, [] => pure pq
  | pq, op :: ops => do
    let r ← step junk hjunk pq op
    run junk hjunk r.2 ops

/-- The values returned by a sequence of calls, with the state they end in. -/
def results (junk : Nat → Slot_queue V) (hjunk : Nat → Nat → Nat × Nat) :
    PriorityQueue V → List (Op V) → Except Fault (List Bool × PriorityQueue V)
  | pq, [] => pure ([], pq)
  | pq, op :: ops => do
    let r ← step junk hjunk pq op
    let rest ← results junk hjunk r.2 ops
    pure (r.1 :: rest.1, rest.2)

/-- The states a program can bring a queue of capacity `maxSize` into. -/
def Reachable (junk : Nat → Slot_queue V) (hjunk : Nat → Nat → Nat × Nat) (maxSize : Nat)
    (pq : PriorityQueue V) : Prop :=
  ∃ pq0 ops, new junk hjunk maxSize = .ok pq0 ∧ run junk hjunk pq0 ops = .ok pq

/-- The keys at positions `[0, num_element)`. -/
def liveKeys (junk : Nat → Slot_queue V) (pq : PriorityQueue V) : List Nat :=
  (List.range pq.num_element).map fun i => (cell junk pq i).key

/-- The pairs at positions `[0, num_element)`. -/
def live (junk : Nat → Slot_queue V) (pq : PriorityQueue V) : List (Nat × V) :=
  (List.range pq.num_element).map fun i => ((cell junk pq i).key, (cell junk pq i).value)

/-- Storage that holds zeros before it is written. -/
def zeroJunk : Nat → Slot_queue Nat := fun _ => { key := 0, value := 0 }

/-- Table storage that holds zeros before it is written. -/
def zeroHJunk : Nat → Nat → Nat × Nat := fun _ _ => (0, 0)

end PriorityQueue

end DSP


/-! ## The invariants of the queue -/

namespace DSP

namespace HashTable

variable {V : Type}

/-- What the table answers for `key`: the value `get` points at, or `none`. -/
def lookup (t : HashTable V) (key : Nat) : Except Fault (Option V) := do
  let mp ← t.get key
  match mp with
  | none => pure none
  | some p =>
    let v ← t.readValue p
    pure (some v)

/-- The keys held in Occupied slots, in bucket order. -/
def occupiedKeys (t : HashTable V) : List Nat :=
  t.slot.filterMap fun s => if s.is_empty then none else some s.key

end HashTable

namespace PriorityQueue

variable {V : Type}

/-- The key at position `i`. -/
def keyAt (junk : Nat → Slot_queue V) (pq : PriorityQueue V) (i : Nat) : Nat :=
  (cell junk pq i).key

/-- The order invariant: below `num_element`, no child has a smaller key than
its parent. -/
def OrderInv (junk : Nat → Slot_queue V) (pq : PriorityQueue V) : Prop :=
  ∀ i < pq.num_element,
    (2 * i + 1 < pq.num_element → keyAt junk pq i ≤ keyAt junk pq (2 * i + 1)) ∧
    (2 * i + 2 < pq.num_element → keyAt junk pq i ≤ keyAt junk pq (2 * i + 2))

/-- The uniqueness invariant: no key sits at two positions below `num_element`. -/
def UniqueInv (junk : Nat → Slot_queue V) (pq : PriorityQueue V) : Prop :=
  ∀ i < pq.num_element, ∀ j < pq.num_element, keyAt junk pq i = keyAt junk pq j → i = j

/-- The first half of index consistency: the index answers every live key with
its position. -/
def IndexFinds (junk : Nat → Slot_queue V) (pq : PriorityQueue V) : Prop :=
  ∀ i < pq.num_element, pq.mapping.lookup (keyAt junk pq i) = .ok (some i)

/-- The second half of index consistency: the index holds live keys only. -/
def IndexOnlyLive (junk : Nat → Slot_queue V) (pq : PriorityQueue V) : Prop :=
  ∀ k ∈ pq.mapping.occupiedKeys, k ∈ liveKeys junk pq

/-- The index-consistency invariant. -/
def IndexInv (junk : Nat → Slot_queue V) (pq : PriorityQueue V) : Prop :=
  IndexFinds junk pq ∧ IndexOnlyLive junk pq

/-- The three invariants together. -/
def Invariants (junk : Nat → Slot_queue V) (pq : PriorityQueue V) : Prop :=
  OrderInv junk pq ∧ UniqueInv junk pq ∧ IndexInv junk pq

/-- Min correctness: the key at position 0 is at most every live key. -/
def MinCorrect (junk : Nat → Slot_queue V) (pq : PriorityQueue V) : Prop :=
  ∀ i < pq.num_element, keyAt junk pq 0 ≤ keyAt junk pq i

instance (junk : Nat → Slot_queue V) (pq : PriorityQueue V) : Decidable (OrderInv junk pq) := by
  unfold OrderInv; infer_instance

instance (junk : Nat → Slot_queue V) (pq : PriorityQueue V) : Decidable (UniqueInv junk pq) := by
  unfold UniqueInv; infer_instance

instance (junk : Nat → Slot_queue V) (pq : PriorityQueue V) : Decidable (IndexFinds junk pq) := by
  unfold IndexFinds; infer_instance

instance (junk : Nat → Slot_queue V) (pq : PriorityQueue V) : Decidable (IndexOnlyLive junk pq) := by
  unfold IndexOnlyLive; infer_instance

instance (junk : Nat → Slot_queue V) (pq : PriorityQueue V) : Decidable (IndexInv junk pq) := by
  unfold IndexInv; infer_instance

instance (junk : Nat → Slot_queue V) (pq : PriorityQueue V) : Decidable (Invariants junk pq) := by
  unfold Invariants; infer_instance

instance (junk : Nat → Slot_queue V) (pq : PriorityQueue V) : Decidable (MinCorrect junk pq) := by
  unfold MinCorrect; infer_instance

/-- A queue of capacity `maxSize` on zeroed storage after the calls `ops`. -/
def fromFresh (maxSize : Nat) (ops : List (Op Nat)) : Except Fault (PriorityQueue Nat) := do
  let pq ← new zeroJunk zeroHJunk maxSize
  run zeroJunk zeroHJunk pq ops

/-- The queue of the demonstration program after its seven inserts. -/
def demoQueue : PriorityQueue Nat :=
  match fromFresh 20 [.insert 10 0, .insert 13 1, .insert 8 2, .insert 5 3, .insert 3 4,
      .insert 1 5, .insert 7 6] with
  | .ok pq => pq
  | .error _ => { slot := [], mapping := { slot := [], size_table := 0, num_element := 0 },
                  num_element := 0, size_max := 0 }

/-- The calls `demo_priority_queue.cpp` makes on its queue `p3` (capacity 15,
`int` values), in program order. -/
def demoP3 : List (Op Int) :=
  [.insert 1 (-3), .insert 10 10, .insert 12 15, .insert 13 20, .insert 2 (-4), .insert 3 (-5),
   .insert 12 120, .remove 2, .remove 12, .remove 12, .remove 20, .decreaseKey 13 4,
   .decreaseKey 55 4, .decreaseKey 20 4, .increaseKey 13 4, .increaseKey 35 4, .increaseKey 3 4]

/-- The values the calls of `demoP3` return on zeroed storage. -/
def demoP3Results : Except Fault (List Bool) := do
  let pq ← new (fun _ => { key := 0, value := (0 : Int) }) zeroHJunk 15
  let r ← results (fun _ => { key := 0, value := (0 : Int) }) zeroHJunk pq demoP3
  pure r.1

/-- The queue `insert(10, 9)` leaves behind when called on `demoQueue`. -/
def demoAfterRejected : PriorityQueue Nat :=
  match step zeroJunk zeroHJunk demoQueue (.insert 10 9) with
  | .ok r => r.2
  | .error _ => { slot := [], mapping := { slot := [], size_table := 0, num_element := 0 },
                  num_element := 0, size_max := 0 }

/-! ### What `down` and `deleteMin` rely on and hand back -/

/-- The state `swap(i, j)` leaves behind. -/
def swapped (junk : Nat → Slot_queue V) (pq : PriorityQueue V) (i j pa pb : Nat) :
    PriorityQueue V :=
  { slot := (pq.slot.set i (cell junk pq j)).set j (cell junk pq i)
    mapping := (pq.mapping.writeValue pa j).writeValue pb i
    num_element := pq.num_element
    size_max := pq.size_max }

/-- What `down` relies on when it stands at position `i`: the live region lies
in the array, child positions do not wrap, the index finds every live key, and
the order invariant holds everywhere except between `i` and its children,
while the parent of `i` is not above the children of `i`. -/
structure DownInv (junk : Nat → Slot_queue V) (pq : PriorityQueue V) (i : Nat) : Prop where
  inside : pq.num_element ≤ pq.slot.length
  range : 2 * pq.num_element < U32
  found : ∀ k < pq.num_element, ∃ p, pq.mapping.get (keyAt junk pq k) = .ok (some p)
  heap : ∀ j < pq.num_element, j ≠ i →
    (2 * j + 1 < pq.num_element → keyAt junk pq j ≤ keyAt junk pq (2 * j + 1)) ∧
    (2 * j + 2 < pq.num_element → keyAt junk pq j ≤ keyAt junk pq (2 * j + 2))
  bridge : ∀ j, i = 2 * j + 1 ∨ i = 2 * j + 2 →
    (2 * i + 1 < pq.num_element → keyAt junk pq j ≤ keyAt junk pq (2 * i + 1)) ∧
    (2 * i + 2 < pq.num_element → keyAt junk pq j ≤ keyAt junk pq (2 * i + 2))

/-- The candidate `s` that `down` holds for position `i`: a live child of `i`
that is least among the live children, or a position outside the live region
when no live child of `i` is below `i`. -/
def Cand (junk : Nat → Slot_queue V) (pq : PriorityQueue V) (i s : Nat) : Prop :=
  (s < pq.num_element →
    (s = 2 * i + 1 ∨ s = 2 * i + 2) ∧
    (2 * i + 1 < pq.num_element → keyAt junk pq s ≤ keyAt junk pq (2 * i + 1)) ∧
    (2 * i + 2 < pq.num_element → keyAt junk pq s ≤ keyAt junk pq (2 * i + 2))) ∧
  (pq.num_element ≤ s →
    (2 * i + 1 < pq.num_element → keyAt junk pq i ≤ keyAt junk pq (2 * i + 1)) ∧
    (2 * i + 2 < pq.num_element → keyAt junk pq i ≤ keyAt junk pq (2 * i + 2)))

/-- What `down` hands back. -/
structure DownResult (junk : Nat → Slot_queue V) (pq pq' : PriorityQueue V) : Prop where
  order : OrderInv junk pq'
  count : pq'.num_element = pq.num_element
  size : pq'.size_max = pq.size_max
  length : pq'.slot.length = pq.slot.length
  perm : (live junk pq').Perm (live junk pq)
  sameGet : ∀ key, pq'.mapping.get key = pq.mapping.get key
  outside : ∀ k, pq.num_element ≤ k → cell junk pq' k = cell junk pq k

/-- The state of `deleteMin` when it calls `down(0)`: the last live entry has
been copied over the root and the counter lowered. -/
def rootReplaced (junk : Nat → Slot_queue V) (pq : PriorityQueue V) : PriorityQueue V :=
  { pq with
    slot := pq.slot.set 0 (cell junk pq (pq.num_element - 1))
    num_element := pq.num_element - 1 }

end PriorityQueue

end DSP

/-! ## The remaining members of hash_table.hpp and runs of a table -/

namespace DSP

/-- A computation that, when it returns, returns true. -/
def OnlyTrue {α : Type} (c : Except Fault (Bool × α)) : Prop :=
  ∀ r, c = .ok r → r.1 = true

/-- Modular exponentiation by repeated squaring, `a ^ e % m` for `e < 2 ^ fuel`;
it serves to certify that a capacity is prime. -/
def powMod (m : Nat) : Nat → Nat → Nat → Nat
  | 0, _, _ => 1 % m
  | fuel + 1, a, e =>
    if e = 0 then 1 % m
    else if e % 2 = 1 then a * powMod m fuel (a * a % m) (e / 2) % m
    else powMod m fuel (a * a % m) (e / 2)

namespace HashTable

variable {V : Type}

/-- The loop of `update`, started at probe `q`: the table with the value
replaced, or `none` when the loop is left by `break`. -/
def updateLoop (t : HashTable V) (key : Nat) (newValue : V) :
    Nat → Nat → Except Fault (Option (HashTable V))
  | 0, _ => .error .diverges
  | fuel + 1, q =>
    if t.size_table = 0 then .error .divByZero
    else
      match t.slot[probeIndex t key q]? with
      | none => .error .outOfBounds
      | some s =>
        if !s.is_empty && s.key == key then
          .ok (some { t with slot := t.slot.set (probeIndex t key q) { s with value := newValue } })
        else if s.is_empty && !s.is_deleted then .ok none
        else updateLoop t key newValue fuel (q + 1)

/-- The member `update(key, newValue)`. -/
def update (t : HashTable V) (key : Nat) (newValue : V) : Except Fault (Bool × HashTable V) := do
  let r ← updateLoop t key newValue U32 0
  match r with
  | some t1 => pure (true, t1)
  | none => pure (false, t)

/-- The member `removeAllByValue(value)`: the number of deleted elements and
the table left behind. -/
def removeAllByValue [DecidableEq V] (t : HashTable V) (value : V) : Nat × HashTable V :=
  let hit : Slot V → Bool := fun s => !s.is_empty && decide (s.value = value)
  let num_deleted := ((t.slot.take t.size_table).filter hit).length
  (num_deleted,
    { t with
      slot := (t.slot.take t.size_table).map
          (fun s => if hit s then { s with is_empty := true, is_deleted := true } else s)
        ++ t.slot.drop t.size_table
      num_element := usub t.num_element num_deleted })

/-- The copy constructor `HashTable(const HashTable& rhs)`. -/
def copy (rhs : HashTable V) : HashTable V :=
  { slot := rhs.slot.take rhs.size_table, size_table := rhs.size_table,
    num_element := rhs.num_element }

/-- The loop of `operator==` over the buckets of the left table that are still
to be visited. -/
def eqLoop [DecidableEq V] (rhs : HashTable V) : List (Slot V) → Except Fault Bool
  | [] => .ok true
  | s :: rest =>
    if s.is_empty then eqLoop rhs rest
    else do
      let value ← rhs.get s.key
      match value with
      | none => pure false
      | some p =>
        let v ← rhs.readValue p
        if v ≠ s.value then pure false else eqLoop rhs rest

/-- The member `operator==(rhs)`. -/
def opEq [DecidableEq V] (t rhs : HashTable V) : Except Fault Bool :=
  if t.num_element ≠ rhs.num_element then .ok false
  else eqLoop rhs (t.slot.take t.size_table)

/-- The loop of `operator!=` over the buckets of the left table that are still
to be visited. -/
def neLoop [DecidableEq V] (rhs : HashTable V) : List (Slot V) → Except Fault Bool
  | [] => .ok false
  | s :: rest =>
    if s.is_empty then neLoop rhs rest
    else do
      let value ← rhs.get s.key
      match value with
      | none => pure true
      | some p =>
        let v ← rhs.readValue p
        if v ≠ s.value then pure true else neLoop rhs rest

/-- The member `operator!=(rhs)`. -/
def opNe [DecidableEq V] (t rhs : HashTable V) : Except Fault Bool :=
  if t.num_element ≠ rhs.num_element then .ok true
  else neLoop rhs (t.slot.take t.size_table)

/-- The member `operator+(rhs)`. -/
def opAdd (hjunk : Nat → Nat → Nat × V) (t rhs : HashTable V) : Except Fault (HashTable V) :=
  (rhs.slot.take rhs.size_table).foldlM
    (fun hash_table s =>
      if s.is_empty then pure hash_table
      else (insert hjunk hash_table s.key s.value).map Prod.snd)
    (copy t)

/-- The pairs held in Occupied slots, in bucket order. -/
def occupiedPairs (t : HashTable V) : List (Nat × V) :=
  t.slot.filterMap fun s => if s.is_empty then none else some (s.key, s.value)

/-- A call of one of the four mutating members of the table. -/
inductive TableOp (V : Type) where
  | insert (key : Nat) (value : V)
  | update (key : Nat) (value : V)
  | remove (key : Nat)
  | removeAllByValue (value : V)
  deriving DecidableEq, Repr

/-- Performing one call: what it returns (a count for `removeAllByValue`,
otherwise 1 for true and 0 for false) and the table left behind. -/
def tstep [DecidableEq V] (hjunk : Nat → Nat → Nat × V) (t : HashTable V) :
    TableOp V → Except Fault (Nat × HashTable V)
  | .insert key value => (insert hjunk t key value).map fun r => (r.1.toNat, r.2)
  | .update key value => (update t key value).map fun r => (r.1.toNat, r.2)
  | .remove key => (remove t key).map fun r => (r.1.toNat, r.2)
  | .removeAllByValue value => pure (removeAllByValue t value)

/-- Performing a sequence of calls, whatever each returns. -/
def trun [DecidableEq V] (hjunk : Nat → Nat → Nat × V) :
    HashTable V → List (TableOp V) → Except Fault (HashTable V)
  | t, [] => pure t
  | t, op :: ops => do
    let r ← tstep hjunk t op
    trun hjunk r.2 ops

/-- A table of `tableSize` buckets on zeroed storage after the calls `ops`. -/
def tableFrom (tableSize : Nat) (ops : List (TableOp Nat)) : Except Fault (HashTable Nat) := do
  let t ← new PriorityQueue.zeroHJunk tableSize
  trun PriorityQueue.zeroHJunk t ops

/-- Every bucket is a tombstone or holds another key: no probe for `key` can stop. -/
def Blocked (t : HashTable V) (key : Nat) : Prop :=
  0 < t.size_table ∧ t.size_table ≤ t.slot.length ∧
  ∀ s ∈ t.slot.take t.size_table,
    (!s.is_empty && s.key == key) = false ∧ (s.is_empty && !s.is_deleted) = false

instance (t : HashTable V) (key : Nat) : Decidable (Blocked t key) := by
  unfold Blocked; infer_instance

/-- The first Occupied bucket of a list of buckets. -/
def firstOccupied : List (Slot V) → Option (Slot V)
  | [] => none
  | s :: rest => if s.is_empty then firstOccupied rest else some s

/-- The counter equals the number of Occupied buckets. -/
def CountAccurate (t : HashTable V) : Prop :=
  t.num_element = t.occupiedKeys.length

/-- Every Occupied bucket is the one `get` finds for its key. -/
def OccupiedFound (t : HashTable V) : Prop :=
  ∀ p ∈ t.slot.enum, p.2.is_empty = false → t.get p.2.key = .ok (some p.1)

instance (t : HashTable V) : Decidable (CountAccurate t) := by
  unfold CountAccurate; infer_instance

instance (t : HashTable V) : Decidable (OccupiedFound t) := by
  unfold OccupiedFound; infer_instance

/-- The calls other than `removeAllByValue`. -/
def TableOp.plain : TableOp V → Bool
  | .removeAllByValue _ => false
  | _ => true

/-- The calls `insert` and `remove`. -/
def TableOp.insertOrRemove : TableOp V → Bool
  | .insert _ _ => true
  | .remove _ => true
  | _ => false

/-- The states a program can bring a table of `tableSize` buckets into with
calls taken from `allowed`. -/
def TableReachable [DecidableEq V] (hjunk : Nat → Nat → Nat × V) (tableSize : Nat)
    (allowed : TableOp V → Prop) (t : HashTable V) : Prop :=
  ∃ t0 ops, new hjunk tableSize = .ok t0 ∧ (∀ op ∈ ops, allowed op) ∧ trun hjunk t0 ops = .ok t

/-- A table of 5 buckets holding the keys 1 and 2. -/
def loadDemo : HashTable Nat :=
  { slot := [{ key := 0, value := 0, is_empty := true, is_deleted := false },
             { key := 1, value := 10, is_empty := false, is_deleted := false },
             { key := 2, value := 20, is_empty := false, is_deleted := false },
             { key := 0, value := 0, is_empty := true, is_deleted := false },
             { key := 0, value := 0, is_empty := true, is_deleted := false }],
    size_table := 5,
    num_element := 2 }

/-- The table of 11 buckets that `insert(3, 30)` makes of `loadDemo`. -/
def loadDemoGrown : HashTable Nat :=
  { slot := [{ key := 0, value := 0, is_empty := true, is_deleted := false },
             { key := 1, value := 10, is_empty := false, is_deleted := false },
             { key := 2, value := 20, is_empty := false, is_deleted := false },
             { key := 3, value := 30, is_empty := false, is_deleted := false }] ++
            List.replicate 7 { key := 0, value := 0, is_empty := true, is_deleted := false },
    size_table := 11,
    num_element := 3 }

/-- No bucket is a tombstone. -/
def NoTomb (t : HashTable V) : Prop := ∀ s ∈ t.slot, s.is_deleted = false

/-- The state of a table that has only ever been inserted into. -/
structure Clean (t : HashTable V) : Prop where
  len : t.slot.length = t.size_table
  small : t.size_table < U32
  noTomb : NoTomb t
  found : ∀ i s, t.slot[i]? = some s → s.is_empty = false → t.get s.key = .ok (some i)
  count : t.num_element = t.slot.countP (fun s => !s.is_empty)
  load : 2 * t.num_element < t.size_table

/-- What a successful `insert(k, v)` makes of a table. -/
structure Added (t t' : HashTable V) (k : Nat) (v : V) : Prop where
  clean : Clean t'
  absent : t.get k = .ok none
  here : t'.lookup k = .ok (some v)
  kept : ∀ κ w, t.lookup κ = .ok (some w) → t'.lookup κ = .ok (some w)
  only : ∀ κ ∈ occupiedKeys t', κ = k ∨ κ ∈ occupiedKeys t
  count : t'.num_element = t.num_element + 1

/-- A table being refilled by a grow holds exactly the pairs re-inserted so far. -/
structure Refilled (acc : HashTable V) (done : List (Nat × V)) : Prop where
  clean : Clean acc
  count : acc.num_element = done.length
  has : ∀ kv ∈ done, acc.lookup kv.1 = .ok (some kv.2)
  only : ∀ κ ∈ occupiedKeys acc, κ ∈ done.map Prod.fst

/-- The keys for which the search in a table of `p` buckets is shown to end:
those whose first `p / 2` probes do not wrap around `2 ^ 32`, and every key
when `p` is at most `2 ^ 15`. -/
def InRange (p key : Nat) : Prop :=
  key + (p / 2) * (p / 2) < U32 ∨ (key < U32 ∧ p ≤ 32768)

/-- The calls `insert`. -/
def TableOp.isInsert : TableOp V → Bool
  | .insert _ _ => true
  | _ => false

/-- The array of `c` buckets in which the keys `0 .. m - 1` sit in the buckets
of the same number, each with the value 0, and the other buckets were never
used. -/
@[irreducible]
def packedSlots (c m : Nat) : List (Slot Nat) :=
  (List.range c).map fun i =>
    if i < m then { key := i, value := 0, is_empty := false, is_deleted := false }
    else { key := 0, value := 0, is_empty := true, is_deleted := false }

/-- The table of `c` buckets that holds the keys `0 .. m - 1`. -/
def packed (c m : Nat) : HashTable Nat :=
  { slot := packedSlots c m, size_table := c, num_element := m }

/-- The table of 3136000001 buckets that holds the keys `0 .. 1567999999`. -/
def wrappingTable : HashTable Nat := packed 3136000001 1568000000

/-- The number of buckets that are not Empty, that is Occupied or Tombstone. -/
def nonEmptyCount (t : HashTable V) : Nat :=
  (t.slot.take t.size_table).countP fun s => !(s.is_empty && !s.is_deleted)

/-- The table of 11 buckets that holds the keys 3, 0, 8, 4 and 2. -/
def halfProbed : Except Fault (HashTable Nat) :=
  tableFrom 11 [.insert 3 0, .insert 0 0, .insert 8 0, .insert 4 0, .insert 2 0]

end HashTable

namespace PriorityQueue

variable {V : Type}

/-- Storage that holds the key 100 before it is written. -/
def hundredJunk : Nat → Slot_queue Nat := fun _ => { key := 100, value := 0 }

/-! ### What `up`, `insert` and `deleteMin` rely on and keep -/

/-- What `up` relies on when it stands at position `i`: the live region lies
in the array, the index finds every live key, and the order invariant holds
everywhere except between `i` and its parent, while the parent of `i` is not
above the children of `i`. -/
structure UpInv (junk : Nat → Slot_queue V) (pq : PriorityQueue V) (i : Nat) : Prop where
  inside : pq.num_element ≤ pq.slot.length
  range : pq.num_element < U32
  found : ∀ k < pq.num_element, ∃ p, pq.mapping.get (keyAt junk pq k) = .ok (some p)
  heap : ∀ j < pq.num_element,
    (2 * j + 1 < pq.num_element → 2 * j + 1 ≠ i → keyAt junk pq j ≤ keyAt junk pq (2 * j + 1)) ∧
    (2 * j + 2 < pq.num_element → 2 * j + 2 ≠ i → keyAt junk pq j ≤ keyAt junk pq (2 * j + 2))
  bridge : ∀ j, i = 2 * j + 1 ∨ i = 2 * j + 2 →
    (2 * i + 1 < pq.num_element → keyAt junk pq j ≤ keyAt junk pq (2 * i + 1)) ∧
    (2 * i + 2 < pq.num_element → keyAt junk pq j ≤ keyAt junk pq (2 * i + 2))

/-- The calls `insert` and `deleteMin`. -/
def Op.plain : Op V → Bool
  | .insert _ _ => true
  | .deleteMin => true
  | _ => false

/-- The states a program can bring a queue of capacity `maxSize` into with
calls of `insert` and `deleteMin` only. -/
def PlainReachable (junk : Nat → Slot_queue V) (hjunk : Nat → Nat → Nat × Nat) (maxSize : Nat)
    (pq : PriorityQueue V) : Prop :=
  ∃ pq0 ops, new junk hjunk maxSize = .ok pq0 ∧ (∀ op ∈ ops, op.plain = true) ∧
    run junk hjunk pq0 ops = .ok pq

/-- What calls of `insert` and `deleteMin` keep: the index has only been
inserted into and finds every live key, the live region lies in the array and
is no larger than the index, the live keys are distinct and in heap order. -/
structure PlainInv (junk : Nat → Slot_queue V) (pq : PriorityQueue V) : Prop where
  clean : HashTable.Clean pq.mapping
  length : pq.slot.length = pq.size_max
  inside : pq.num_element ≤ pq.size_max
  bound : pq.num_element ≤ pq.mapping.num_element
  order : OrderInv junk pq
  unique : UniqueInv junk pq
  found : ∀ k < pq.num_element, ∃ p, pq.mapping.get (keyAt junk pq k) = .ok (some p)

/-- What every call keeps of the counter: it counts no more than the capacity,
and the array has as many cells as the capacity. -/
def CountInv (pq : PriorityQueue V) : Prop :=
  pq.num_element ≤ pq.size_max ∧ pq.slot.length = pq.size_max

/-- The counter, the capacity and the length of the array. -/
def Shape (pq : PriorityQueue V) (n sz len : Nat) : Prop :=
  pq.num_element = n ∧ pq.size_max = sz ∧ pq.slot.length = len

/-- Calls of all five members on a queue. -/
def countDemoOps : List (Op Nat) :=
  [.insert 4 40, .insert 2 20, .insert 6 60, .remove 2, .decreaseKey 6 1, .increaseKey 4 3,
   .deleteMin]

/-- A queue of capacity 20 on zeroed storage after the calls `countDemoOps`. -/
def countDemo : PriorityQueue Nat :=
  match fromFresh 20 countDemoOps with
  | .ok pq => pq
  | .error _ => { slot := [], mapping := { slot := [], size_table := 0, num_element := 0 },
                  num_element := 0, size_max := 0 }

/-- Two inserts. -/
def smallDemoOps : List (Op Nat) := [.insert 2 20, .insert 1 10]

/-- A client that reads `getMinKey()` and calls `deleteMin()`, at most `n`
times and until the queue is empty: the keys it read, in the order it read
them, and the queue it leaves. -/
def takeMins (junk : Nat → Slot_queue V) : Nat → PriorityQueue V →
    Except Fault (List Nat × PriorityQueue V)
  | 0, pq => pure ([], pq)
  | n + 1, pq =>
    match getMinKey junk pq with
    | none => pure ([], pq)
    | some k => do
      let r ← deleteMin junk pq
      let rest ← takeMins junk n r.2
      pure (k :: rest.1, rest.2)

/-- Four inserts with a `deleteMin` between them. -/
def plainDemoOps : List (Op Nat) :=
  [.insert 5 50, .insert 3 30, .insert 8 80, .deleteMin, .insert 1 10]

/-- A queue of capacity 20 on zeroed storage after the calls `plainDemoOps`. -/
def plainDemo : PriorityQueue Nat :=
  match fromFresh 20 plainDemoOps with
  | .ok pq => pq
  | .error _ => { slot := [], mapping := { slot := [], size_table := 0, num_element := 0 },
                  num_element := 0, size_max := 0 }

end PriorityQueue

end DSP

/-! ## Facts about the embedding -/

namespace DSP

theorem ok_bind {ε α β : Type} (a : α) (f : α → Except ε β) : (Except.ok a >>= f) = f a := rfl

theorem bind_eq_ok {ε α β : Type} {x : Except ε α} {f : α → Except ε β} {b : β}
    (h : (x >>= f) = .ok b) : ∃ a, x = .ok a ∧ f a = .ok b := by
  cases x with
  | error e => cases h
  | ok a => exact ⟨a, rfl, h⟩

theorem bind_pure_eq_map {ε α β : Type} (x : Except ε α) (f : α → β) :
    (x >>= fun a => pure (f a)) = x.map f := by
  cases x <;> rfl

theorem leftOf_eq {i : Nat} (h : 2 * i + 2 < U32) : PriorityQueue.leftOf i = 2 * i + 1 := by
  unfold U32 at h
  simp only [PriorityQueue.leftOf, usub, umul, uadd, U32]
  omega

theorem rightOf_eq {i : Nat} (h : 2 * i + 2 < U32) : PriorityQueue.rightOf i = 2 * i + 2 := by
  unfold U32 at h
  simp only [PriorityQueue.rightOf, usub, umul, uadd, U32]
  omega

theorem usub_one_eq {n : Nat} (h0 : 0 < n) (h : n ≤ U32) : usub n 1 = n - 1 := by
  unfold U32 at h
  simp only [usub, U32]
  omega

namespace HashTable

variable {V : Type}

theorem size_table_writeValue (t : HashTable V) (p : Nat) (v : V) :
    (t.writeValue p v).size_table = t.size_table := by
  unfold writeValue
  split <;> rfl

theorem probeIndex_writeValue (t : HashTable V) (p : Nat) (v : V) (key q : Nat) :
    probeIndex (t.writeValue p v) key q = probeIndex t key q := by
  simp [probeIndex, size_table_writeValue]

/-- Writing a value through a pointer changes neither a key nor a flag. -/
theorem slot_writeValue (t : HashTable V) (p : Nat) (v : V) (i : Nat) :
    (t.writeValue p v).slot[i]? =
      (t.slot[i]?).map fun s => if i = p then { s with value := v } else s := by
  unfold writeValue
  cases hp : t.slot[p]? with
  | none =>
    simp only
    by_cases hip : i = p
    · subst hip; simp [hp]
    · cases h : t.slot[i]? <;> simp [hip]
  | some s =>
    simp only [List.getElem?_set]
    by_cases hip : i = p
    · subst hip
      have hlt : i < t.slot.length := by
        by_contra hge
        rw [List.getElem?_eq_none (by omega)] at hp
        cases hp
      simp [hlt, hp]
    · have : ¬ p = i := fun h => hip h.symm
      cases h : t.slot[i]? <;> simp [hip, this]

theorem getLoop_writeValue (t : HashTable V) (p : Nat) (v : V) (key : Nat) :
    ∀ fuel q, getLoop (t.writeValue p v) key fuel q = getLoop t key fuel q := by
  intro fuel
  induction fuel with
  | zero => intro q; rfl
  | succ fuel ih =>
    intro q
    simp only [getLoop, size_table_writeValue, probeIndex_writeValue, slot_writeValue]
    by_cases hs : t.size_table = 0
    · simp [hs]
    · simp only [hs, if_false]
      cases h : t.slot[probeIndex t key q]? with
      | none => simp
      | some s =>
        simp only [Option.map_some']
        by_cases hip : probeIndex t key q = p
        · simp only [hip, if_true, ih]
        · simp only [hip, if_false, ih]

theorem get_writeValue (t : HashTable V) (p : Nat) (v : V) (key : Nat) :
    (t.writeValue p v).get key = t.get key :=
  getLoop_writeValue t p v key U32 0

end HashTable

namespace PriorityQueue

variable {V : Type}

theorem setCell_ok (pq : PriorityQueue V) {i : Nat} (c : Slot_queue V) (h : i < pq.slot.length) :
    setCell pq i c = .ok { pq with slot := pq.slot.set i c } := by
  simp [setCell, h]

theorem cell_set (junk : Nat → Slot_queue V) (pq : PriorityQueue V) {i : Nat} (c : Slot_queue V)
    (h : i < pq.slot.length) (k : Nat) (m : HashTable Nat) (n sz : Nat) :
    cell junk { slot := pq.slot.set i c, mapping := m, num_element := n, size_max := sz } k =
      if k = i then c else cell junk pq k := by
  simp only [cell, List.getD_eq_getElem?_getD, List.getElem?_set]
  by_cases hk : k = i
  · subst hk; simp [h]
  · have : ¬ i = k := fun h => hk h.symm
    simp [hk, this]

theorem cell_mapping (junk : Nat → Slot_queue V) (pq : PriorityQueue V) (m : HashTable Nat)
    (k : Nat) : cell junk { pq with mapping := m } k = cell junk pq k := rfl

theorem readCell_ok (junk : Nat → Slot_queue V) (pq : PriorityQueue V) {i : Nat}
    (h : i < pq.slot.length) : readCell junk pq i = .ok (cell junk pq i) := by
  unfold readCell
  rw [if_pos h]

theorem readCell_outside (junk : Nat → Slot_queue V) (pq : PriorityQueue V) {i : Nat}
    (h : pq.slot.length ≤ i) : readCell junk pq i = .error .outOfBounds := by
  unfold readCell
  rw [if_neg (by omega)]

theorem readCell_mapping (junk : Nat → Slot_queue V) (pq : PriorityQueue V) (m : HashTable Nat)
    (k : Nat) : readCell junk { pq with mapping := m } k = readCell junk pq k := rfl

/-- The result of `swap` when the index finds both keys. -/
theorem swap_ok (junk : Nat → Slot_queue V) (pq : PriorityQueue V) {i j pa pb : Nat}
    (hi : i < pq.slot.length) (hj : j < pq.slot.length)
    (ha : pq.mapping.get (keyAt junk pq i) = .ok (some pa))
    (hb : pq.mapping.get (keyAt junk pq j) = .ok (some pb)) :
    swap junk pq i j = .ok (swapped junk pq i j pa pb) := by
  unfold keyAt at ha hb
  unfold swapped
  unfold swap
  rw [readCell_ok junk pq hi, ok_bind, ha, ok_bind]
  simp only
  rw [readCell_ok junk pq hj, ok_bind, HashTable.get_writeValue, hb, ok_bind]
  simp only
  rw [readCell_mapping, readCell_ok junk pq hi, ok_bind, readCell_mapping,
    readCell_ok junk pq hj, ok_bind, setCell_ok _ _ (by simpa using hi), ok_bind,
    setCell_ok _ _ (by simpa using hj)]

theorem cell_swapped (junk : Nat → Slot_queue V) (pq : PriorityQueue V) {i j : Nat} (pa pb : Nat)
    (hi : i < pq.slot.length) (hj : j < pq.slot.length) (k : Nat) :
    cell junk (swapped junk pq i j pa pb) k = cell junk pq (Equiv.swap i j k) := by
  have h1 : j < (pq.slot.set i (cell junk pq j)).length := by simpa using hj
  simp only [swapped, cell, List.getD_eq_getElem?_getD, List.getElem?_set, Equiv.swap_apply_def,
    List.length_set]
  by_cases hkj : k = j
  · subst hkj
    by_cases hki : k = i
    · subst hki; simp [hj]
    · simp [hj, hki]
  · have hjk : ¬ j = k := fun h => hkj h.symm
    by_cases hki : k = i
    · subst hki; simp [hjk, hi]
    · have hik : ¬ i = k := fun h => hki h.symm
      simp [hkj, hki, hjk, hik]

theorem keyAt_swapped (junk : Nat → Slot_queue V) (pq : PriorityQueue V) {i j : Nat} (pa pb : Nat)
    (hi : i < pq.slot.length) (hj : j < pq.slot.length) (k : Nat) :
    keyAt junk (swapped junk pq i j pa pb) k =
      if k = i then keyAt junk pq j else if k = j then keyAt junk pq i else keyAt junk pq k := by
  simp only [keyAt, cell_swapped junk pq pa pb hi hj, Equiv.swap_apply_def]
  split_ifs <;> rfl

theorem get_swapped (junk : Nat → Slot_queue V) (pq : PriorityQueue V) (i j pa pb key : Nat) :
    (swapped junk pq i j pa pb).mapping.get key = pq.mapping.get key := by
  simp [swapped, HashTable.get_writeValue]

/-- Reading a list of positions through a transposition of two of them. -/
theorem map_swap_range_perm {n i j : Nat} (hi : i < n) (hj : j < n) :
    ((List.range n).map (Equiv.swap i j)).Perm (List.range n) := by
  rw [List.perm_ext_iff_of_nodup ((List.nodup_range n).map (Equiv.swap i j).injective)
    (List.nodup_range n)]
  intro a
  simp only [List.mem_map, List.mem_range]
  constructor
  · rintro ⟨k, hk, rfl⟩
    rw [Equiv.swap_apply_def]
    split_ifs <;> omega
  · intro ha
    refine ⟨Equiv.swap i j a, ?_, by simp⟩
    rw [Equiv.swap_apply_def]
    split_ifs <;> omega

theorem live_swapped (junk : Nat → Slot_queue V) (pq : PriorityQueue V) {i j : Nat} (pa pb : Nat)
    (hi : i < pq.num_element) (hj : j < pq.num_element) (hlen : pq.num_element ≤ pq.slot.length) :
    (live junk (swapped junk pq i j pa pb)).Perm (live junk pq) := by
  have hi1 : i < pq.slot.length := by omega
  have hj1 : j < pq.slot.length := by omega
  have h : live junk (swapped junk pq i j pa pb) =
      ((List.range pq.num_element).map (Equiv.swap i j)).map
        (fun k => ((cell junk pq k).key, (cell junk pq k).value)) := by
    simp only [live, List.map_map]
    apply List.map_congr_left
    intro k _
    simp only [Function.comp_apply, cell_swapped junk pq pa pb hi1 hj1]
  rw [h]
  exact (map_swap_range_perm hi hj).map _

/-- One pass of the loop of `down` keeps what `down` relies on. -/
theorem DownInv.step {junk : Nat → Slot_queue V} {pq : PriorityQueue V} {i s : Nat}
    (h : DownInv junk pq i) (hi : i < pq.num_element) (hs : s < pq.num_element)
    (hc : Cand junk pq i s) (hlt : keyAt junk pq s < keyAt junk pq i) (pa pb : Nat) :
    DownInv junk (swapped junk pq i s pa pb) s := by
  have hi1 : i < pq.slot.length := Nat.lt_of_lt_of_le hi h.inside
  have hs1 : s < pq.slot.length := Nat.lt_of_lt_of_le hs h.inside
  obtain ⟨hchild, hl, hr⟩ := hc.1 hs
  have hn : (swapped junk pq i s pa pb).num_element = pq.num_element := rfl
  refine ⟨?_, ?_, ?_, ?_, ?_⟩
  · simpa [swapped] using h.inside
  · exact h.range
  · intro k hk
    rw [hn] at hk
    simp only [get_swapped, keyAt_swapped junk pq pa pb hi1 hs1]
    split_ifs
    · exact h.found s hs
    · exact h.found i hi
    · exact h.found k hk
  · intro j hj hjs
    rw [hn] at hj ⊢
    simp only [keyAt_swapped junk pq pa pb hi1 hs1]
    by_cases hji : j = i
    · subst hji
      constructor
      · intro hv
        have := hl hv
        split_ifs <;> omega
      · intro hv
        have := hr hv
        split_ifs <;> omega
    · have hh := h.heap j hj hji
      constructor
      · intro hv
        have h1 := hh.1 hv
        by_cases hci : 2 * j + 1 = i
        · have hb := h.bridge j (Or.inl hci.symm)
          have : keyAt junk pq j ≤ keyAt junk pq s := by
            rcases hchild with hs' | hs'
            · rw [hs']; exact hb.1 (by omega)
            · rw [hs']; exact hb.2 (by omega)
          split_ifs
          omega
        · split_ifs <;> omega
      · intro hv
        have h1 := hh.2 hv
        by_cases hci : 2 * j + 2 = i
        · have hb := h.bridge j (Or.inr hci.symm)
          have : keyAt junk pq j ≤ keyAt junk pq s := by
            rcases hchild with hs' | hs'
            · rw [hs']; exact hb.1 (by omega)
            · rw [hs']; exact hb.2 (by omega)
          split_ifs
          omega
        · split_ifs <;> omega
  · intro j hj
    rw [hn]
    have hji : j = i := by omega
    subst hji
    have hh := h.heap s hs (by omega)
    simp only [keyAt_swapped junk pq pa pb hi1 hs1]
    constructor
    · intro hv
      have := hh.1 hv
      split_ifs <;> omega
    · intro hv
      have := hh.2 hv
      split_ifs <;> omega

/-- When the loop of `down` stops, the order invariant holds. -/
theorem DownInv.order_of_stop {junk : Nat → Slot_queue V} {pq : PriorityQueue V} {i s : Nat}
    (h : DownInv junk pq i) (hc : Cand junk pq i s)
    (hstop : ¬ (s < pq.num_element ∧ keyAt junk pq i > keyAt junk pq s)) : OrderInv junk pq := by
  intro j hj
  by_cases hji : j = i
  · subst hji
    by_cases hs : s < pq.num_element
    · obtain ⟨_, hl, hr⟩ := hc.1 hs
      have hle : keyAt junk pq j ≤ keyAt junk pq s := by
        by_contra hgt
        exact hstop ⟨hs, by omega⟩
      exact ⟨fun hv => Nat.le_trans hle (hl hv), fun hv => Nat.le_trans hle (hr hv)⟩
    · exact hc.2 (by omega)
  · exact h.heap j hj hji

theorem DownResult.refl {junk : Nat → Slot_queue V} {pq : PriorityQueue V}
    (h : OrderInv junk pq) : DownResult junk pq pq :=
  ⟨h, rfl, rfl, rfl, List.Perm.refl _, fun _ => rfl, fun _ _ => rfl⟩

/-- The result of a pass of the loop followed by the rest of the loop. -/
theorem DownResult.after_swap {junk : Nat → Slot_queue V} {pq pq' : PriorityQueue V}
    {i s : Nat} (pa pb : Nat) (hi : i < pq.num_element) (hs : s < pq.num_element)
    (hlen : pq.num_element ≤ pq.slot.length)
    (h : DownResult junk (swapped junk pq i s pa pb) pq') : DownResult junk pq pq' := by
  have hi1 : i < pq.slot.length := by omega
  have hs1 : s < pq.slot.length := by omega
  refine ⟨h.order, h.count, h.size, ?_, ?_, ?_, ?_⟩
  · rw [h.length]; simp [swapped]
  · exact h.perm.trans (live_swapped junk pq pa pb hi hs hlen)
  · intro key; rw [h.sameGet, get_swapped]
  · intro k hk
    rw [h.outside k hk, cell_swapped junk pq pa pb hi1 hs1, Equiv.swap_apply_def]
    split_ifs <;> first | rfl | omega

/-- The choice between two positions of the array. -/
theorem smallerOf_ok (junk : Nat → Slot_queue V) (pq : PriorityQueue V) {l r : Nat}
    (hl : l < pq.slot.length) (hr : r < pq.slot.length) :
    smallerOf junk pq l r =
      .ok (if (cell junk pq l).key < (cell junk pq r).key then l else r) := by
  unfold smallerOf
  rw [readCell_ok junk pq hl, ok_bind, readCell_ok junk pq hr, ok_bind]
  rfl

/-- The loop of `down` ends and restores the order invariant. -/
theorem downLoop_spec (junk : Nat → Slot_queue V) :
    ∀ (fuel : Nat) (pq : PriorityQueue V) (i s : Nat), DownInv junk pq i → i < pq.num_element →
      Cand junk pq i s → pq.num_element - i ≤ fuel →
      ∃ pq', downLoop junk fuel pq i s = .ok pq' ∧ DownResult junk pq pq' := by
  intro fuel
  induction fuel with
  | zero => intro pq i s _ hi _ hf; omega
  | succ fuel ih =>
    intro pq i s h hi hc hf
    unfold downLoop
    by_cases hcond : s < pq.num_element ∧ keyAt junk pq i > keyAt junk pq s
    · obtain ⟨hs, hlt⟩ := hcond
      have hlt' : (cell junk pq i).key > (cell junk pq s).key := hlt
      obtain ⟨pa, hpa⟩ := h.found i hi
      obtain ⟨pb, hpb⟩ := h.found s hs
      have hi1 : i < pq.slot.length := Nat.lt_of_lt_of_le hi h.inside
      have hs1 : s < pq.slot.length := Nat.lt_of_lt_of_le hs h.inside
      have hchild := (hc.1 hs).1
      have hrange := h.range
      have h1 : DownInv junk (swapped junk pq i s pa pb) s := h.step hi hs hc hlt pa pb
      have hn : (swapped junk pq i s pa pb).num_element = pq.num_element := rfl
      have hl : leftOf s = 2 * s + 1 := leftOf_eq (by omega)
      have hr : rightOf s = 2 * s + 2 := rightOf_eq (by omega)
      rw [if_pos hs, readCell_ok junk pq hi1, ok_bind, readCell_ok junk pq hs1, ok_bind,
        if_pos hlt', swap_ok junk pq hi1 hs1 hpa hpb, ok_bind]
      simp only [hl, hr, hn, ge_iff_le]
      by_cases hA : pq.num_element ≤ 2 * s + 1 ∧ pq.num_element ≤ 2 * s + 2
      · rw [if_pos hA]
        refine ⟨_, rfl, DownResult.after_swap pa pb hi hs h.inside (DownResult.refl ?_)⟩
        apply h1.order_of_stop (s := pq.num_element)
        · refine ⟨fun hlt => absurd hlt (by rw [hn]; omega), fun _ => ?_⟩
          rw [hn]
          exact ⟨fun hv => by omega, fun hv => by omega⟩
        · rw [hn]; omega
      · rw [if_neg hA]
        by_cases hB : pq.num_element ≤ 2 * s + 1 ∧ 2 * s + 2 < pq.num_element
        · omega
        · rw [if_neg hB]
          by_cases hC : 2 * s + 1 < pq.num_element ∧ pq.num_element ≤ 2 * s + 2
          · rw [if_pos hC]
            have hc1 : Cand junk (swapped junk pq i s pa pb) s (2 * s + 1) := by
              refine ⟨fun _ => ⟨Or.inl rfl, fun _ => Nat.le_refl _, fun hv => ?_⟩, fun hge => ?_⟩
              · rw [hn] at hv; omega
              · rw [hn] at hge; omega
            obtain ⟨pq', hrun, hres⟩ := ih _ s (2 * s + 1) h1 (by rw [hn]; exact hs) hc1
              (by rw [hn]; omega)
            exact ⟨pq', hrun, hres.after_swap pa pb hi hs h.inside⟩
          · rw [if_neg hC]
            have hboth : 2 * s + 2 < pq.num_element := by omega
            have hinside := h.inside
            have hlen : (swapped junk pq i s pa pb).slot.length = pq.slot.length := by
              simp [swapped]
            rw [smallerOf_ok junk _ (show 2 * s + 1 < (swapped junk pq i s pa pb).slot.length by
                rw [hlen]; omega)
              (show 2 * s + 2 < (swapped junk pq i s pa pb).slot.length by rw [hlen]; omega),
              ok_bind]
            have hc1 : Cand junk (swapped junk pq i s pa pb) s
                (if (cell junk (swapped junk pq i s pa pb) (2 * s + 1)).key <
                  (cell junk (swapped junk pq i s pa pb) (2 * s + 2)).key then 2 * s + 1
                 else 2 * s + 2) := by
              by_cases hk : (cell junk (swapped junk pq i s pa pb) (2 * s + 1)).key <
                  (cell junk (swapped junk pq i s pa pb) (2 * s + 2)).key
              · rw [if_pos hk]
                refine ⟨fun _ => ⟨Or.inl rfl, fun _ => Nat.le_refl _, fun _ => ?_⟩, fun hge => ?_⟩
                · exact Nat.le_of_lt hk
                · rw [hn] at hge; omega
              · rw [if_neg hk]
                refine ⟨fun _ => ⟨Or.inr rfl, fun _ => ?_, fun _ => Nat.le_refl _⟩, fun hge => ?_⟩
                · exact Nat.le_of_not_lt hk
                · rw [hn] at hge; omega
            obtain ⟨pq', hrun, hres⟩ := ih _ s _ h1 (by rw [hn]; exact hs) hc1
              (by rw [hn]; omega)
            exact ⟨pq', hrun, hres.after_swap pa pb hi hs h.inside⟩
    · by_cases hs : s < pq.num_element
      · have hi1 : i < pq.slot.length := Nat.lt_of_lt_of_le hi h.inside
        have hs1 : s < pq.slot.length := Nat.lt_of_lt_of_le hs h.inside
        have hk : ¬ (cell junk pq i).key > (cell junk pq s).key := fun hk => hcond ⟨hs, hk⟩
        rw [if_pos hs, readCell_ok junk pq hi1, ok_bind, readCell_ok junk pq hs1, ok_bind,
          if_neg hk]
        exact ⟨pq, rfl, DownResult.refl (h.order_of_stop hc hcond)⟩
      · rw [if_neg hs]
        exact ⟨pq, rfl, DownResult.refl (h.order_of_stop hc hcond)⟩

/-- The member `down(i)` ends and restores the order invariant, provided the
comparison it makes before its loop reads inside the array and is not misled:
when only the left child of `i` is live, either that child compares below the
cell at the right child's position or it is not below `i`. -/
theorem down_spec (junk : Nat → Slot_queue V) (pq : PriorityQueue V) (i : Nat)
    (h : DownInv junk pq i) (hi : i < pq.num_element) (hroom : 2 * i + 2 < pq.slot.length)
    (hfirst : 2 * i + 1 < pq.num_element → pq.num_element ≤ 2 * i + 2 →
      keyAt junk pq (2 * i + 1) < keyAt junk pq (2 * i + 2) ∨
      keyAt junk pq i ≤ keyAt junk pq (2 * i + 1)) :
    ∃ pq', down junk pq i = .ok pq' ∧ DownResult junk pq pq' := by
  have hrange := h.range
  have hl : leftOf i = 2 * i + 1 := leftOf_eq (by omega)
  have hr : rightOf i = 2 * i + 2 := rightOf_eq (by omega)
  unfold down
  rw [hl, hr, smallerOf_ok junk pq (show 2 * i + 1 < pq.slot.length by omega) hroom, ok_bind]
  apply downLoop_spec junk _ pq i _ h hi _ (by omega)
  by_cases hk : (cell junk pq (2 * i + 1)).key < (cell junk pq (2 * i + 2)).key
  · rw [if_pos hk]
    refine ⟨fun _ => ⟨Or.inl rfl, fun _ => Nat.le_refl _, fun _ => Nat.le_of_lt hk⟩, fun hge => ?_⟩
    exact ⟨fun hv => by omega, fun hv => by omega⟩
  · rw [if_neg hk]
    refine ⟨fun _ => ⟨Or.inr rfl, fun _ => Nat.le_of_not_lt hk, fun _ => Nat.le_refl _⟩,
      fun hge => ⟨fun hv => ?_, fun hv => by omega⟩⟩
    rcases hfirst hv hge with h1 | h1
    · exact absurd h1 hk
    · exact h1

theorem cell_rootReplaced (junk : Nat → Slot_queue V) (pq : PriorityQueue V)
    (h0 : 0 < pq.slot.length) (k : Nat) :
    cell junk (rootReplaced junk pq) k =
      if k = 0 then cell junk pq (pq.num_element - 1) else cell junk pq k :=
  cell_set junk pq _ h0 k _ _ _

/-- The entries `deleteMin` hands to `down` are the old ones without the root. -/
theorem live_rootReplaced (junk : Nat → Slot_queue V) (pq : PriorityQueue V)
    (h0 : 0 < pq.slot.length) :
    (live junk (rootReplaced junk pq)).Perm (live junk pq).tail := by
  have hL : live junk (rootReplaced junk pq) =
      ((List.range (pq.num_element - 1)).map
        (fun k => if k = 0 then pq.num_element - 1 else k)).map
        (fun k => ((cell junk pq k).key, (cell junk pq k).value)) := by
    simp only [live, List.map_map]
    apply List.map_congr_left
    intro k _
    simp only [Function.comp_apply, cell_rootReplaced junk pq h0]
    split_ifs <;> rfl
  have hR : (live junk pq).tail =
      (List.range' 1 (pq.num_element - 1)).map
        (fun k => ((cell junk pq k).key, (cell junk pq k).value)) := by
    simp only [live, ← List.map_tail, List.tail_range]
  rw [hL, hR]
  apply List.Perm.map
  rw [List.perm_ext_iff_of_nodup]
  · intro a
    simp only [List.mem_map, List.mem_range, List.mem_range'_1]
    constructor
    · rintro ⟨k, hk, rfl⟩
      split_ifs <;> omega
    · intro ha
      by_cases hlast : a = pq.num_element - 1
      · exact ⟨0, by omega, by simp [hlast]⟩
      · exact ⟨a, by omega, by rw [if_neg (by omega)]⟩
  · apply (List.nodup_range _).map_on
    intro x hx y hy hxy
    simp only [List.mem_range] at hx hy
    split_ifs at hxy <;> omega
  · exact List.nodup_range' 1 (pq.num_element - 1)

theorem deleteMin_eq (junk : Nat → Slot_queue V) (pq : PriorityQueue V)
    (h1 : 1 ≤ pq.num_element) (hlen : pq.num_element ≤ pq.slot.length)
    (hrange : pq.num_element ≤ U32) :
    deleteMin junk pq = (down junk (rootReplaced junk pq) 0).map fun pq' => (true, pq') := by
  have h0 : 0 < pq.slot.length := by omega
  have hne : ¬ pq.num_element = 0 := by omega
  have hsub : usub pq.num_element 1 = pq.num_element - 1 := usub_one_eq (by omega) hrange
  have hlast : pq.num_element - 1 < pq.slot.length := by omega
  unfold deleteMin
  rw [if_neg hne, hsub, readCell_ok junk pq hlast, ok_bind, setCell_ok _ _ h0, ok_bind]
  simp only [hsub]
  rw [readCell_ok junk _ (by simpa using hlast), ok_bind, setCell_ok _ _ (by simpa using h0),
    ok_bind]
  simp only [hsub, List.set_set, cell_set junk pq _ h0, if_true]
  have hc : ({ key := (cell junk pq (pq.num_element - 1)).key
               value := (if pq.num_element - 1 = 0 then
                  ({ key := (cell junk pq (pq.num_element - 1)).key
                     value := (cell junk pq 0).value } : Slot_queue V)
                 else cell junk pq (pq.num_element - 1)).value } : Slot_queue V) =
      cell junk pq (pq.num_element - 1) := by
    by_cases hz : pq.num_element - 1 = 0
    · rw [if_pos hz, hz]
    · rw [if_neg hz]
  rw [hc]
  exact bind_pure_eq_map _ _

theorem downLoop_stop (junk : Nat → Slot_queue V) (fuel : Nat) (pq : PriorityQueue V) (i s : Nat)
    (h : ¬ s < pq.num_element) : downLoop junk (fuel + 1) pq i s = .ok pq := by
  unfold downLoop
  rw [if_neg h]
  rfl

/-- The member `deleteMin` on a queue that is not empty, whose array has at
least three cells and holds the live region, which keeps the order invariant
and whose index finds every live key: it returns true, and what `down` hands
back holds the old entries without the root, in heap order. -/
theorem deleteMin_spec (junk : Nat → Slot_queue V) (pq : PriorityQueue V)
    (h1 : 1 ≤ pq.num_element) (hlen : pq.num_element ≤ pq.slot.length)
    (hroom : 3 ≤ pq.slot.length)
    (hrange : pq.num_element ≤ 2147483648) (hord : OrderInv junk pq)
    (hfound : ∀ k < pq.num_element, ∃ p, pq.mapping.get (keyAt junk pq k) = .ok (some p)) :
    ∃ pq', deleteMin junk pq = .ok (true, pq') ∧ DownResult junk (rootReplaced junk pq) pq' := by
  have h0 : 0 < pq.slot.length := by omega
  have hU : pq.num_element ≤ U32 := by unfold U32; omega
  rw [deleteMin_eq junk pq h1 hlen hU]
  have hn : (rootReplaced junk pq).num_element = pq.num_element - 1 := rfl
  have hlen' : (rootReplaced junk pq).slot.length = pq.slot.length := by
    simp only [rootReplaced, List.length_set]
  have hkey : ∀ k, keyAt junk (rootReplaced junk pq) k =
      if k = 0 then keyAt junk pq (pq.num_element - 1) else keyAt junk pq k := by
    intro k
    simp only [keyAt, cell_rootReplaced junk pq h0]
    split_ifs <;> rfl
  by_cases hone : pq.num_element = 1
  · refine ⟨rootReplaced junk pq, ?_, DownResult.refl ?_⟩
    · have hz : (rootReplaced junk pq).num_element = 0 := by rw [hn, hone]
      have hl : leftOf 0 = 1 := by decide
      have hr : rightOf 0 = 2 := by decide
      unfold down
      rw [hl, hr, smallerOf_ok junk _ (show 1 < (rootReplaced junk pq).slot.length by
          rw [hlen']; omega) (show 2 < (rootReplaced junk pq).slot.length by rw [hlen']; omega),
        ok_bind, downLoop_stop junk _ _ _ _ (by rw [hz]; omega)]
      rfl
    · intro j hj
      rw [hn, hone] at hj
      omega
  · have hinv : DownInv junk (rootReplaced junk pq) 0 := by
      refine ⟨?_, ?_, ?_, ?_, ?_⟩
      · simp only [rootReplaced, List.length_set]; omega
      · rw [hn]; unfold U32; omega
      · intro k hk
        rw [hn] at hk
        rw [hkey]
        split_ifs
        · exact hfound _ (by omega)
        · exact hfound k (by omega)
      · intro j hj hj0
        rw [hn] at hj ⊢
        have hh := hord j (by omega)
        rw [hkey, hkey, hkey, if_neg hj0, if_neg (by omega), if_neg (by omega)]
        exact ⟨fun hv => hh.1 (by omega), fun hv => hh.2 (by omega)⟩
      · intro j hj
        omega
    obtain ⟨pq', hrun, hres⟩ := down_spec junk (rootReplaced junk pq) 0 hinv (by rw [hn]; omega)
      (by rw [hlen']; omega)
      (by
        intro hv hge
        rw [hn] at hv hge
        have hthree : pq.num_element - 1 = 2 := by omega
        rw [hkey, hkey, hkey, if_neg (by omega), if_neg (by omega), if_pos rfl, hthree]
        simp only [Nat.mul_zero, Nat.zero_add]
        omega)
    exact ⟨pq', by rw [hrun]; rfl, hres⟩

/-- An index that answers a key has a slot for it. -/
theorem found_of_lookup {t : HashTable Nat} {key v : Nat} (h : t.lookup key = .ok (some v)) :
    ∃ p, t.get key = .ok (some p) := by
  unfold HashTable.lookup at h
  cases hg : t.get key with
  | error e => rw [hg] at h; cases h
  | ok mp =>
    cases mp with
    | none => rw [hg] at h; cases h
    | some p => exact ⟨p, rfl⟩

/-- Whenever `deleteMin` succeeds on a queue in heap order whose index finds
every live key, the index finds afterwards exactly the keys it found before:
the key that was deleted is still in it. -/
theorem deleteMin_index_untouched (junk : Nat → Slot_queue V) (pq : PriorityQueue V)
    (h1 : 1 ≤ pq.num_element) (hlen : pq.num_element ≤ pq.slot.length)
    (hroom : 3 ≤ pq.slot.length)
    (hrange : pq.num_element ≤ 2147483648) (hord : OrderInv junk pq)
    (hfound : ∀ k < pq.num_element, ∃ p, pq.mapping.get (keyAt junk pq k) = .ok (some p)) :
    ∃ pq', deleteMin junk pq = .ok (true, pq') ∧
      ∀ key, pq'.mapping.get key = pq.mapping.get key := by
  obtain ⟨pq', hrun, hres⟩ := deleteMin_spec junk pq h1 hlen hroom hrange hord hfound
  exact ⟨pq', hrun, fun key => hres.sameGet key⟩

/-- A run from a fresh queue on zeroed storage ends in a reachable state. -/
theorem reachable_of_map_eq {β : Type} {f : PriorityQueue Nat → β} {b : β} {maxSize : Nat}
    {ops : List (Op Nat)} (h : (fromFresh maxSize ops).map f = .ok b) :
    ∃ pq, Reachable zeroJunk zeroHJunk maxSize pq ∧ f pq = b := by
  cases hrun : fromFresh maxSize ops with
  | error e => rw [hrun] at h; cases h
  | ok pq =>
    rw [hrun] at h
    refine ⟨pq, ?_, by injection h⟩
    unfold fromFresh at hrun
    cases hnew : new zeroJunk zeroHJunk maxSize with
    | error e => rw [hnew] at hrun; cases hrun
    | ok pq0 =>
      rw [hnew] at hrun
      exact ⟨pq0, ops, hnew, hrun⟩

/-! ## The demonstration program -/

/-- The calls on `p3` return what the comments of `demo_priority_queue.cpp`
announce: six successful inserts and a rejected duplicate, `remove` true, true,
false, false, `decreaseKey` true, false, false, `increaseKey` false, false,
true. -/
theorem demoP3_results :
    demoP3Results = .ok [true, true, true, true, true, true, false, true, true, false, false,
      true, false, false, false, false, true] := by
  decide

/-- The first scenario of the demonstration program (capacity 20; the strings
"AA" to "GG" are numbered 0 to 6): the minimum is `(5, "DD")` after four
inserts, `(3, "EE")` after the fifth, `(1, "FF")` after the seventh, and
`(3, "EE")` again after `deleteMin`. -/
theorem demoP1_minima :
    (fromFresh 20 [.insert 10 0, .insert 13 1, .insert 8 2, .insert 5 3]).map
      (fun pq => (getMinKey zeroJunk pq, getMinValue zeroJunk pq)) = .ok (some 5, some 3) ∧
    (fromFresh 20 [.insert 10 0, .insert 13 1, .insert 8 2, .insert 5 3, .insert 3 4]).map
      (fun pq => (getMinKey zeroJunk pq, getMinValue zeroJunk pq)) = .ok (some 3, some 4) ∧
    (fromFresh 20 [.insert 10 0, .insert 13 1, .insert 8 2, .insert 5 3, .insert 3 4,
      .insert 1 5, .insert 7 6]).map
      (fun pq => (getMinKey zeroJunk pq, getMinValue zeroJunk pq)) = .ok (some 1, some 5) ∧
    (fromFresh 20 [.insert 10 0, .insert 13 1, .insert 8 2, .insert 5 3, .insert 3 4,
      .insert 1 5, .insert 7 6, .deleteMin]).map
      (fun pq => (getMinKey zeroJunk pq, getMinValue zeroJunk pq)) = .ok (some 3, some 4) := by
  decide

/-- The second scenario of the demonstration program (capacity 2): two inserts
succeed and the third is rejected. -/
theorem demoP2_results :
    (do
      let pq ← new zeroJunk zeroHJunk 2
      let r ← results zeroJunk zeroHJunk pq [.insert 1 3, .insert 2 4, .insert 3 5]
      pure r.1) = .ok [true, true, false] := by
  decide

/-! ## The claims about the queue -/

/-- C1 (min correctness in reachable states): after `insert 1, 5, 2`,
`remove 2`, `increaseKey 1 9` on a queue of capacity 20 the live keys are
`[10, 5]`: `getMinKey` answers 10 although 5 is live.  `down(0)` compared the
left child with the cell at position 2, which left the live region when key 2
was removed, chose that position and stopped.  So a reachable state is not
min-correct. -/
theorem min_correct_fails_after_increaseKey :
    (fromFresh 20 [.insert 1 0, .insert 5 0, .insert 2 0, .remove 2, .increaseKey 1 9]).map
      (fun pq => (getMinKey zeroJunk pq, liveKeys zeroJunk pq, decide (MinCorrect zeroJunk pq)))
      = .ok (some 10, [10, 5], false) ∧
    ∃ pq, Reachable zeroJunk zeroHJunk 20 pq ∧ ¬ MinCorrect zeroJunk pq := by
  have h : (fromFresh 20 [.insert 1 0, .insert 5 0, .insert 2 0, .remove 2,
      .increaseKey 1 9]).map
      (fun pq => (getMinKey zeroJunk pq, liveKeys zeroJunk pq, decide (MinCorrect zeroJunk pq)))
      = .ok (some 10, [10, 5], false) := by decide
  obtain ⟨pq, hreach, hval⟩ := reachable_of_map_eq h
  exact ⟨h, pq, hreach, of_decide_eq_false (congrArg (fun x => x.2.2) hval)⟩

/-- C2 (index consistency in reachable states): after `insert 1` and
`deleteMin` the queue is empty but the index still holds key 1:
`deleteMin` never touches the index.  So a reachable state is not
index-consistent. -/
theorem index_keeps_key_after_deleteMin :
    (fromFresh 20 [.insert 1 7, .deleteMin]).map
      (fun pq => (pq.num_element, liveKeys zeroJunk pq, pq.mapping.occupiedKeys,
        decide (IndexInv zeroJunk pq)))
      = .ok (0, [], [1], false) ∧
    ∃ pq, Reachable zeroJunk zeroHJunk 20 pq ∧ ¬ IndexInv zeroJunk pq := by
  have h : (fromFresh 20 [.insert 1 7, .deleteMin]).map
      (fun pq => (pq.num_element, liveKeys zeroJunk pq, pq.mapping.occupiedKeys,
        decide (IndexInv zeroJunk pq)))
      = .ok (0, [], [1], false) := by decide
  obtain ⟨pq, hreach, hval⟩ := reachable_of_map_eq h
  exact ⟨h, pq, hreach, of_decide_eq_false (congrArg (fun x => x.2.2.2) hval)⟩

/-- C3 (uniqueness in reachable states): after `insert 1`, `insert 2`,
`increaseKey 1 1` key 2 sits at positions 0 and 1: `increaseKey` looks for
`key - change`, not for `key + change`.  So a reachable state holds a key
twice. -/
theorem unique_fails_after_increaseKey :
    (fromFresh 20 [.insert 1 0, .insert 2 0, .increaseKey 1 1]).map
      (fun pq => (liveKeys zeroJunk pq, decide (UniqueInv zeroJunk pq)))
      = .ok ([2, 2], false) ∧
    ∃ pq, Reachable zeroJunk zeroHJunk 20 pq ∧ ¬ UniqueInv zeroJunk pq := by
  have h : (fromFresh 20 [.insert 1 0, .insert 2 0, .increaseKey 1 1]).map
      (fun pq => (liveKeys zeroJunk pq, decide (UniqueInv zeroJunk pq)))
      = .ok ([2, 2], false) := by decide
  obtain ⟨pq, hreach, hval⟩ := reachable_of_map_eq h
  exact ⟨h, pq, hreach, of_decide_eq_false (congrArg (fun x => x.2) hval)⟩

/-- C5 (insert succeeds exactly when there is room and the key is not live):
after `insert 1` and `deleteMin` the queue of capacity 20 is empty, yet
`insert(1, 8)` returns false. -/
theorem insert_rejects_deleted_key :
    (fromFresh 20 [.insert 1 7, .deleteMin] >>= fun pq =>
      (insert zeroJunk zeroHJunk pq 1 8).map
        (fun r => (pq.num_element, pq.size_max, liveKeys zeroJunk pq, r.1)))
      = .ok (0, 20, [], false) := by
  decide

/-- C6 (deleteMin contract): the queue of capacity 1 after `insert(1, 10)` and
the queue of capacity 2 after `insert(1, 10)`, `insert(2, 20)` hold at least
one entry and satisfy the three invariants, and `deleteMin` does not return
true on them: `down(0)` starts by comparing `slot[1].key` with `slot[2].key`,
and the array has one cell, or two.  On the queue of capacity 3 with the same
two entries the same call returns true. -/
theorem deleteMin_reads_outside_small_array :
    (fromFresh 1 [.insert 1 10]).map
      (fun pq => (pq.num_element, pq.slot.length, decide (Invariants zeroJunk pq)))
      = .ok (1, 1, true) ∧
    (fromFresh 1 [.insert 1 10]).map (fun pq => deleteMin zeroJunk pq)
      = .ok (.error .outOfBounds) ∧
    (fromFresh 2 [.insert 1 10, .insert 2 20]).map
      (fun pq => (pq.num_element, pq.slot.length, decide (Invariants zeroJunk pq)))
      = .ok (2, 2, true) ∧
    (fromFresh 2 [.insert 1 10, .insert 2 20]).map (fun pq => deleteMin zeroJunk pq)
      = .ok (.error .outOfBounds) ∧
    leftOf 0 = 1 ∧ rightOf 0 = 2 ∧
    (fromFresh 1 [.insert 1 10]).map (fun pq => readCell zeroJunk pq 1)
      = .ok (.error .outOfBounds) ∧
    (fromFresh 2 [.insert 1 10, .insert 2 20]).map
      (fun pq => (readCell zeroJunk pq 1, readCell zeroJunk pq 2))
      = .ok (.ok { key := 2, value := 20 }, .error .outOfBounds) ∧
    (fromFresh 3 [.insert 1 10, .insert 2 20]).map
      (fun pq => (deleteMin zeroJunk pq).map fun r => (r.1, live zeroJunk r.2))
      = .ok (.ok (true, [(2, 20)])) := by
  refine ⟨by decide, by decide, by decide, by decide, by decide, by decide, by decide, by decide,
    by decide⟩

/-- C7 (remove re-establishes the three invariants): the queue holding
`(1,10), (2,20), (3,30)` satisfies the invariants; `remove(2)` returns true
and leaves `(1,10), (3,30)`, but the index still answers position 2 for key 3,
which now sits at position 1. -/
theorem remove_leaves_stale_position :
    (fromFresh 20 [.insert 1 10, .insert 2 20, .insert 3 30]).map
        (fun pq => decide (Invariants zeroJunk pq)) = .ok true ∧
    (fromFresh 20 [.insert 1 10, .insert 2 20, .insert 3 30] >>= fun pq =>
      (remove zeroJunk pq 2).map (fun r => (r.1, live zeroJunk r.2)))
      = .ok (true, [(1, 10), (3, 30)]) ∧
    (fromFresh 20 [.insert 1 10, .insert 2 20, .insert 3 30] >>= fun pq =>
      (remove zeroJunk pq 2).map
        (fun r => (r.2.mapping.lookup 3, decide (IndexInv zeroJunk r.2))))
      = .ok (.ok (some 2), false) := by
  decide

/-- C8 (decreaseKey contract): the full queue of capacity 2 holding keys 3 and
10 satisfies the invariants, and 9 is not live.  `decreaseKey(10, 1)` hands
the index a reference to the value of its slot 0, the insert of key 9 grows
the table, and the value is read after the array holding it was deleted. -/
theorem decreaseKey_reads_freed_table :
    (fromFresh 2 [.insert 3 30, .insert 10 100]).map
      (fun pq => (liveKeys zeroJunk pq, decide (Invariants zeroJunk pq), pq.mapping.get 10,
        pq.mapping.growNeeded))
      = .ok ([3, 10], true, .ok (some 0), true) ∧
    (fromFresh 2 [.insert 3 30, .insert 10 100] >>= fun pq =>
      pure ((decreaseKey zeroJunk zeroHJunk pq 10 1).map (fun r => r.1)))
      = .ok (.error .useAfterFree) := by
  decide

/-- C9 (increaseKey fails exactly on a zero change, an absent key or a live
`key + change`): on the queue holding keys 1 and 2, which satisfies the
invariants, `increaseKey(1, 1)` returns true and leaves key 2 twice; on the
queue holding 3 and 5, `increaseKey(5, 2)` returns false although 7 is not
live. -/
theorem increaseKey_checks_wrong_key :
    (fromFresh 20 [.insert 1 0, .insert 2 0] >>= fun pq =>
      (increaseKey zeroJunk zeroHJunk pq 1 1).map
        (fun r => (decide (Invariants zeroJunk pq), r.1, liveKeys zeroJunk r.2)))
      = .ok (true, true, [2, 2]) ∧
    (fromFresh 20 [.insert 3 0, .insert 5 0] >>= fun pq =>
      (increaseKey zeroJunk zeroHJunk pq 5 2).map
        (fun r => (decide (Invariants zeroJunk pq), r.1, liveKeys zeroJunk r.2)))
      = .ok (true, false, [3, 5]) := by
  decide

/-- C10 (get answers null for a key that is not live): after `insert(1, 7)`
and `deleteMin` no entry is live, yet `get(1)` answers the value 7. -/
theorem get_answers_deleted_key :
    (fromFresh 20 [.insert 1 7, .deleteMin] >>= fun pq =>
      (get zeroJunk pq 1).map (fun r => (liveKeys zeroJunk pq, r)))
      = .ok ([], some 7) := by
  decide

end PriorityQueue

end DSP

/-! ## Facts about the table and about failed calls -/

namespace DSP

theorem exists_of_map_eq {ε α β : Type} {x : Except ε α} {f : α → β} {b : β}
    (h : x.map f = .ok b) : ∃ a, x = .ok a ∧ f a = b := by
  cases x with
  | error e => cases h
  | ok a => exact ⟨a, rfl, by injection h⟩

theorem map_ok_eq {ε α β : Type} {x : Except ε α} {a : α} {f : α → β} {b : β}
    (hx : x = .ok a) (h : x.map f = .ok b) : f a = b := by
  subst hx
  injection h

theorem onlyTrue_pure {α : Type} (a : α) : OnlyTrue (pure (true, a) : Except Fault (Bool × α)) := by
  intro r h
  cases h
  rfl

theorem onlyTrue_bind {α β : Type} (x : Except Fault β) (f : β → Except Fault (Bool × α))
    (h : ∀ b, OnlyTrue (f b)) : OnlyTrue (x >>= f) := by
  intro r hr
  cases x with
  | error e => cases hr
  | ok b => exact h b r hr

theorem false_of_onlyTrue {α : Type} {c : Except Fault (Bool × α)} {a : α}
    (h : c = .ok (false, a)) (ht : OnlyTrue c) : False :=
  Bool.noConfusion (ht _ h)

theorem onlyTrue_error {α : Type} (e : Fault) :
    OnlyTrue (Except.error e : Except Fault (Bool × α)) := by
  intro r h
  cases h

theorem powMod_eq (m : Nat) : ∀ (fuel a e : Nat), e < 2 ^ fuel → powMod m fuel a e = a ^ e % m := by
  intro fuel
  induction fuel with
  | zero =>
    intro a e h
    have : e = 0 := by simpa using h
    subst this
    simp [powMod]
  | succ fuel ih =>
    intro a e h
    unfold powMod
    by_cases h0 : e = 0
    · subst h0; simp
    · rw [if_neg h0]
      have hlt : e / 2 < 2 ^ fuel := by
        rw [Nat.div_lt_iff_lt_mul (by norm_num)]
        rw [pow_succ] at h
        exact h
      rw [ih _ _ hlt]
      have hsq : (a * a % m) ^ (e / 2) % m = (a ^ 2) ^ (e / 2) % m := by
        rw [← Nat.pow_mod, sq]
      rw [hsq, ← pow_mul]
      by_cases h1 : e % 2 = 1
      · rw [if_pos h1]
        have he : e = 2 * (e / 2) + 1 := by omega
        conv_rhs => rw [he, pow_succ, Nat.mul_comm]
        rw [Nat.mul_mod, Nat.mod_mod, ← Nat.mul_mod]
      · rw [if_neg h1]
        have he : e = 2 * (e / 2) := by omega
        conv_rhs => rw [he]

theorem zmod_pow_eq_one (p a e : Nat) (hp : 1 < p) (he : e < 2 ^ 32) :
    ((a : ZMod p) ^ e = 1) ↔ powMod p 32 a e = 1 := by
  rw [powMod_eq p 32 a e he, ← Nat.cast_pow, ← Nat.cast_one, ZMod.natCast_eq_natCast_iff',
    Nat.mod_eq_of_lt hp]

theorem prime_22605091 : Nat.Prime 22605091 := by norm_num

/-- The largest prime below `2 ^ 32`. -/
theorem prime_4294967291 : Nat.Prime 4294967291 := by
  apply lucas_primality 4294967291 ((2 : Nat) : ZMod 4294967291)
  · rw [zmod_pow_eq_one _ _ _ (by norm_num) (by norm_num)]
    decide
  · intro q hq hdvd
    have hfac : (4294967291 - 1 : Nat) = 2 * 5 * 19 * 22605091 := by norm_num
    rw [hfac] at hdvd ⊢
    have hq' : q = 2 ∨ q = 5 ∨ q = 19 ∨ q = 22605091 := by
      rcases (Nat.Prime.dvd_mul hq).mp hdvd with h | h
      · rcases (Nat.Prime.dvd_mul hq).mp h with h | h
        · rcases (Nat.Prime.dvd_mul hq).mp h with h | h
          · exact Or.inl ((Nat.prime_dvd_prime_iff_eq hq Nat.prime_two).mp h)
          · exact Or.inr (Or.inl ((Nat.prime_dvd_prime_iff_eq hq (by norm_num)).mp h))
        · exact Or.inr (Or.inr (Or.inl ((Nat.prime_dvd_prime_iff_eq hq (by norm_num)).mp h)))
      · exact Or.inr (Or.inr (Or.inr ((Nat.prime_dvd_prime_iff_eq hq prime_22605091).mp h)))
    rcases hq' with rfl | rfl | rfl | rfl
    · rw [Ne, zmod_pow_eq_one _ _ _ (by norm_num) (by norm_num)]
      decide
    · rw [Ne, zmod_pow_eq_one _ _ _ (by norm_num) (by norm_num)]
      decide
    · rw [Ne, zmod_pow_eq_one _ _ _ (by norm_num) (by norm_num)]
      decide
    · rw [Ne, zmod_pow_eq_one _ _ _ (by norm_num) (by norm_num)]
      decide

theorem prime_3136000001 : Nat.Prime 3136000001 := by
  apply lucas_primality 3136000001 ((3 : Nat) : ZMod 3136000001)
  · rw [zmod_pow_eq_one _ _ _ (by norm_num) (by norm_num)]
    decide
  · intro q hq hdvd
    have hfac : (3136000001 - 1 : Nat) = 2 ^ 12 * 5 ^ 6 * 7 ^ 2 := by norm_num
    rw [hfac] at hdvd ⊢
    have hp : q = 2 ∨ q = 5 ∨ q = 7 := by
      rcases (Nat.Prime.dvd_mul hq).mp hdvd with h | h
      · rcases (Nat.Prime.dvd_mul hq).mp h with h | h
        · exact Or.inl ((Nat.prime_dvd_prime_iff_eq hq Nat.prime_two).mp (hq.dvd_of_dvd_pow h))
        · exact Or.inr (Or.inl ((Nat.prime_dvd_prime_iff_eq hq (by norm_num)).mp
            (hq.dvd_of_dvd_pow h)))
      · exact Or.inr (Or.inr ((Nat.prime_dvd_prime_iff_eq hq (by norm_num)).mp
          (hq.dvd_of_dvd_pow h)))
    rcases hp with rfl | rfl | rfl
    · rw [Ne, zmod_pow_eq_one _ _ _ (by norm_num) (by norm_num)]
      decide
    · rw [Ne, zmod_pow_eq_one _ _ _ (by norm_num) (by norm_num)]
      decide
    · rw [Ne, zmod_pow_eq_one _ _ _ (by norm_num) (by norm_num)]
      decide

theorem prime_2013265921 : Nat.Prime 2013265921 := by
  apply lucas_primality 2013265921 ((31 : Nat) : ZMod 2013265921)
  · rw [zmod_pow_eq_one _ _ _ (by norm_num) (by norm_num)]
    decide
  · intro q hq hdvd
    have hfac : (2013265921 - 1 : Nat) = 2 ^ 27 * 3 * 5 := by norm_num
    rw [hfac] at hdvd ⊢
    have hp : q = 2 ∨ q = 3 ∨ q = 5 := by
      rcases (Nat.Prime.dvd_mul hq).mp hdvd with h | h
      · rcases (Nat.Prime.dvd_mul hq).mp h with h | h
        · exact Or.inl ((Nat.prime_dvd_prime_iff_eq hq Nat.prime_two).mp (hq.dvd_of_dvd_pow h))
        · exact Or.inr (Or.inl ((Nat.prime_dvd_prime_iff_eq hq (by norm_num)).mp h))
      · exact Or.inr (Or.inr ((Nat.prime_dvd_prime_iff_eq hq (by norm_num)).mp h))
    rcases hp with rfl | rfl | rfl
    · rw [Ne, zmod_pow_eq_one _ _ _ (by norm_num) (by norm_num)]
      decide
    · rw [Ne, zmod_pow_eq_one _ _ _ (by norm_num) (by norm_num)]
      decide
    · rw [Ne, zmod_pow_eq_one _ _ _ (by norm_num) (by norm_num)]
      decide

namespace HashTable

variable {V : Type}

theorem probeIndex_lt (t : HashTable V) (key q : Nat) (h : 0 < t.size_table) :
    probeIndex t key q < t.size_table :=
  Nat.mod_lt _ h

theorem Blocked.slot {t : HashTable V} {key : Nat} (h : Blocked t key) (q : Nat) :
    ∃ s, t.slot[probeIndex t key q]? = some s ∧
      (!s.is_empty && s.key == key) = false ∧ (s.is_empty && !s.is_deleted) = false := by
  obtain ⟨h0, hlen, hall⟩ := h
  have hlt := probeIndex_lt t key q h0
  have hlt2 : probeIndex t key q < t.slot.length := by omega
  refine ⟨t.slot[probeIndex t key q], List.getElem?_eq_getElem hlt2, ?_⟩
  apply hall
  rw [List.mem_take_iff_getElem]
  exact ⟨probeIndex t key q, by omega, rfl⟩

theorem getLoop_diverges {t : HashTable V} {key : Nat} (h : Blocked t key) :
    ∀ fuel q, getLoop t key fuel q = .error .diverges := by
  intro fuel
  induction fuel with
  | zero => intro q; rfl
  | succ fuel ih =>
    intro q
    obtain ⟨s, hs, h1, h2⟩ := h.slot q
    have h0 : ¬ t.size_table = 0 := by have := h.1; omega
    unfold getLoop
    rw [if_neg h0, hs]
    simp only [h1, h2, Bool.false_eq_true, if_false]
    exact ih (q + 1)

theorem get_diverges {t : HashTable V} {key : Nat} (h : Blocked t key) :
    t.get key = .error .diverges :=
  getLoop_diverges h U32 0

theorem insertLoop_diverges {t : HashTable V} {key : Nat} (h : Blocked t key) :
    ∀ fuel q flag idx, insertLoop t key fuel q flag idx = .error .diverges := by
  intro fuel
  induction fuel with
  | zero => intro q flag idx; rfl
  | succ fuel ih =>
    intro q flag idx
    obtain ⟨s, hs, h1, h2⟩ := h.slot q
    have h0 : ¬ t.size_table = 0 := by have := h.1; omega
    unfold insertLoop
    rw [if_neg h0, hs]
    simp only [h1, h2, Bool.false_eq_true, if_false]
    exact ih _ _ _

theorem updateLoop_diverges {t : HashTable V} {key : Nat} (v : V) (h : Blocked t key) :
    ∀ fuel q, updateLoop t key v fuel q = .error .diverges := by
  intro fuel
  induction fuel with
  | zero => intro q; rfl
  | succ fuel ih =>
    intro q
    obtain ⟨s, hs, h1, h2⟩ := h.slot q
    have h0 : ¬ t.size_table = 0 := by have := h.1; omega
    unfold updateLoop
    rw [if_neg h0, hs]
    simp only [h1, h2, Bool.false_eq_true, if_false]
    exact ih (q + 1)

theorem insert_diverges (hjunk : Nat → Nat → Nat × V) {t : HashTable V} {key : Nat} (v : V)
    (h : Blocked t key) : insert hjunk t key v = .error .diverges := by
  unfold insert insertDepth insertAux
  rw [insertLoop_diverges h]
  rfl

theorem eqLoop_diverges [DecidableEq V] {rhs : HashTable V} :
    ∀ (l : List (Slot V)) (s : Slot V), firstOccupied l = some s → Blocked rhs s.key →
      eqLoop rhs l = .error .diverges := by
  intro l
  induction l with
  | nil => intro s h; cases h
  | cons a rest ih =>
    intro s h hb
    unfold firstOccupied at h
    unfold eqLoop
    by_cases ha : a.is_empty = true
    · rw [if_pos ha] at h ⊢
      exact ih s h hb
    · rw [if_neg ha] at h ⊢
      cases h
      rw [get_diverges hb]
      rfl

theorem foldlM_add_diverges (hjunk : Nat → Nat → Nat × V) :
    ∀ (l : List (Slot V)) (s : Slot V) (acc : HashTable V), firstOccupied l = some s →
      Blocked acc s.key →
      l.foldlM (fun hash_table s =>
        if s.is_empty then pure hash_table
        else (insert hjunk hash_table s.key s.value).map Prod.snd) acc
        = .error .diverges := by
  intro l
  induction l with
  | nil => intro s acc h; cases h
  | cons a rest ih =>
    intro s acc h hb
    unfold firstOccupied at h
    rw [List.foldlM_cons]
    by_cases ha : a.is_empty = true
    · rw [if_pos ha] at h
      rw [if_pos ha]
      exact ih s acc h hb
    · rw [if_neg ha] at h
      rw [if_neg ha]
      cases h
      rw [insert_diverges hjunk _ hb]
      rfl

theorem tableReachable_of_tableFrom {tableSize : Nat} {ops : List (TableOp Nat)}
    {t : HashTable Nat} {allowed : TableOp Nat → Prop} (hall : ∀ op ∈ ops, allowed op)
    (h : tableFrom tableSize ops = .ok t) :
    TableReachable PriorityQueue.zeroHJunk tableSize allowed t := by
  unfold tableFrom at h
  cases hnew : new PriorityQueue.zeroHJunk tableSize with
  | error e => rw [hnew] at h; cases h
  | ok t0 =>
    rw [hnew] at h
    exact ⟨t0, ops, hnew, hall, h⟩

theorem ctorHasDivisor_iff (n : Nat) :
    ctorHasDivisor n = true ↔ ∃ i, 2 ≤ i ∧ i < n / 2 ∧ n % i = 0 := by
  unfold ctorHasDivisor
  simp only [List.any_eq_true, List.mem_range, Bool.and_eq_true, decide_eq_true_eq, beq_iff_eq]
  constructor
  · rintro ⟨i, hi, h2, hm⟩
    exact ⟨i, h2, hi, hm⟩
  · rintro ⟨i, h2, hi, hm⟩
    exact ⟨i, hi, h2, hm⟩

theorem ctorHasDivisor_of_composite {n : Nat} (h2 : 2 ≤ n) (h4 : n ≠ 4) (hp : ¬ Nat.Prime n) :
    ctorHasDivisor n = true := by
  rw [ctorHasDivisor_iff]
  have hsq := Nat.minFac_sq_le_self (by omega : 0 < n) hp
  have hmp : (Nat.minFac n).Prime := Nat.minFac_prime (by omega)
  have hge := hmp.two_le
  have hdvd := Nat.minFac_dvd n
  refine ⟨Nat.minFac n, hge, ?_, Nat.mod_eq_zero_of_dvd hdvd⟩
  generalize Nat.minFac n = a at *
  rw [sq] at hsq
  by_cases ha : a = 2
  · subst ha
    obtain ⟨b, hb⟩ := hdvd
    omega
  · have h3 : 3 ≤ a := by omega
    have : 3 * a ≤ a * a := Nat.mul_le_mul_right a h3
    omega

theorem ctorHasDivisor_of_prime {n : Nat} (hp : Nat.Prime n) : ctorHasDivisor n = false := by
  rw [Bool.eq_false_iff]
  intro h
  rw [ctorHasDivisor_iff] at h
  obtain ⟨i, h2, hi, hm⟩ := h
  have hdvd : i ∣ n := Nat.dvd_of_mod_eq_zero hm
  rcases (Nat.dvd_prime hp).mp hdvd with h1 | h1
  · omega
  · have := Nat.div_le_self n 2
    omega

/-- The constructor accepts exactly the primes, 1 and 4. -/
theorem new_ok_iff (hjunk : Nat → Nat → Nat × V) (n : Nat) :
    (∃ t, new hjunk n = .ok t) ↔ n = 1 ∨ n = 4 ∨ Nat.Prime n := by
  unfold new
  constructor
  · rintro ⟨t, h⟩
    by_cases h0 : n = 0
    · rw [if_pos h0] at h; cases h
    · rw [if_neg h0] at h
      by_cases hd : ctorHasDivisor n = true
      · rw [if_pos hd] at h; cases h
      · by_contra hcon
        push_neg at hcon
        exact hd (ctorHasDivisor_of_composite (by omega) hcon.2.1 hcon.2.2)
  · intro h
    have h0 : ¬ n = 0 := by
      rcases h with h | h | h
      · omega
      · omega
      · exact h.pos.ne'
    have hd : ¬ ctorHasDivisor n = true := by
      rcases h with h | h | h
      · subst h; decide
      · subst h; decide
      · rw [ctorHasDivisor_of_prime h]; simp
    rw [if_neg h0, if_neg hd]
    exact ⟨_, rfl⟩

/-- On a prime the constructor makes a table of that many never-used buckets
and no elements. -/
theorem new_prime (hjunk : Nat → Nat → Nat × V) {n : Nat} (hp : Nat.Prime n) :
    ∃ t, new hjunk n = .ok t ∧ t.size_table = n ∧ t.slot.length = n ∧ t.num_element = 0 ∧
      ∀ s ∈ t.slot, s.is_empty = true ∧ s.is_deleted = false := by
  have h0 : ¬ n = 0 := hp.pos.ne'
  have hd : ¬ ctorHasDivisor n = true := by rw [ctorHasDivisor_of_prime hp]; simp
  unfold new
  rw [if_neg h0, if_neg hd]
  refine ⟨_, rfl, rfl, by simp [freshSlots], rfl, ?_⟩
  intro s hs
  simp only [freshSlots, List.mem_map, List.mem_range] at hs
  obtain ⟨i, _, rfl⟩ := hs
  exact ⟨rfl, rfl⟩

/-! ### Growing the table -/

theorem isPrimeTrial_iff (n : Nat) :
    isPrimeTrial n = true ↔ ∀ i < n, i < 2 ∨ n % i ≠ 0 := by
  unfold isPrimeTrial
  simp only [List.all_eq_true, List.mem_range, Bool.or_eq_true, decide_eq_true_eq, bne_iff_ne,
    ne_eq]

theorem isPrimeTrial_of_prime {n : Nat} (hp : Nat.Prime n) : isPrimeTrial n = true := by
  rw [isPrimeTrial_iff]
  intro i hi
  by_cases h2 : i < 2
  · exact Or.inl h2
  · right
    intro hm
    rcases (Nat.dvd_prime hp).mp (Nat.dvd_of_mod_eq_zero hm) with h | h <;> omega

theorem prime_of_isPrimeTrial {n : Nat} (h2 : 2 ≤ n) (h : isPrimeTrial n = true) : Nat.Prime n := by
  rw [isPrimeTrial_iff] at h
  rw [Nat.prime_def]
  refine ⟨h2, fun m hm => ?_⟩
  have hle : m ≤ n := Nat.le_of_dvd (by omega) hm
  by_cases hmn : m = n
  · exact Or.inr hmn
  · left
    rcases h m (by omega) with h1 | h1
    · have : m ≠ 0 := by
        rintro rfl
        rw [Nat.zero_dvd] at hm
        omega
      omega
    · exact absurd (Nat.mod_eq_zero_of_dvd hm) h1

/-- The loop that looks for the next prime stops at the least prime above its
start, when there is one below `2 ^ 32`. -/
theorem nextPrimeLoop_least :
    ∀ (fuel s p : Nat), nextPrimeLoop fuel s = .ok p → 1 ≤ s →
      (∃ r, Nat.Prime r ∧ s < r ∧ r < U32) →
      Nat.Prime p ∧ s < p ∧ ∀ r, Nat.Prime r → s < r → p ≤ r := by
  intro fuel
  induction fuel with
  | zero => intro s p h; cases h
  | succ fuel ih =>
    intro s p h hs hex
    obtain ⟨r, hr, hsr, hrU⟩ := hex
    have hc : uadd s 1 = s + 1 := by
      unfold uadd
      exact Nat.mod_eq_of_lt (by omega)
    unfold nextPrimeLoop at h
    rw [hc] at h
    by_cases ht : isPrimeTrial (s + 1) = true
    · rw [if_pos ht] at h
      cases h
      exact ⟨prime_of_isPrimeTrial (by omega) ht, by omega, fun r' _ hr' => by omega⟩
    · rw [if_neg ht] at h
      have hne : r ≠ s + 1 := by
        rintro rfl
        exact ht (isPrimeTrial_of_prime hr)
      obtain ⟨hp, hlt, hmin⟩ := ih (s + 1) p h (by omega) ⟨r, hr, by omega, hrU⟩
      refine ⟨hp, by omega, fun r' hr' hsr' => ?_⟩
      have hne' : r' ≠ s + 1 := by
        rintro rfl
        exact ht (isPrimeTrial_of_prime hr')
      exact hmin r' hr' (by omega)

/-- The loop that looks for the next prime returns when a prime lies within
reach of its fuel. -/
theorem nextPrimeLoop_returns :
    ∀ (fuel s : Nat), (∃ r, Nat.Prime r ∧ s < r ∧ r < U32 ∧ r ≤ s + fuel) →
      ∃ p, nextPrimeLoop fuel s = .ok p := by
  intro fuel
  induction fuel with
  | zero => rintro s ⟨r, _, h1, _, h2⟩; omega
  | succ fuel ih =>
    rintro s ⟨r, hr, hsr, hrU, hrf⟩
    have hc : uadd s 1 = s + 1 := by
      unfold uadd
      exact Nat.mod_eq_of_lt (by omega)
    unfold nextPrimeLoop
    rw [hc]
    by_cases ht : isPrimeTrial (s + 1) = true
    · rw [if_pos ht]
      exact ⟨_, rfl⟩
    · rw [if_neg ht]
      have hne : r ≠ s + 1 := by
        rintro rfl
        exact ht (isPrimeTrial_of_prime hr)
      exact ih (s + 1) ⟨r, hr, by omega, hrU, by omega⟩

/-- The capacity a grow moves to from capacity `c`, while `4 * c` fits in 32
bits: the least prime above `2 * c`. -/
theorem nextPrime_of_double {c p : Nat} (hc : 1 ≤ c) (hrange : 4 * c ≤ U32)
    (h : nextPrimeLoop U32 (umul c 2) = .ok p) :
    Nat.Prime p ∧ 2 * c < p ∧ p ≤ 4 * c ∧ ∀ r, Nat.Prime r → 2 * c < r → p ≤ r := by
  have hm : umul c 2 = 2 * c := by
    unfold umul
    rw [Nat.mod_eq_of_lt (by omega)]
    omega
  rw [hm] at h
  obtain ⟨r, hr, h1, h2⟩ := Nat.exists_prime_lt_and_le_two_mul (2 * c) (by omega)
  have hrU : r < U32 := by
    rcases Nat.lt_or_ge r U32 with h | h
    · exact h
    · have : r = U32 := by omega
      rw [this] at hr
      exact absurd hr (by unfold U32; norm_num)
  obtain ⟨hp, hlt, hmin⟩ := nextPrimeLoop_least U32 (2 * c) p h (by omega) ⟨r, hr, h1, hrU⟩
  exact ⟨hp, hlt, le_trans (hmin r hr h1) (by omega), hmin⟩

theorem nextPrime_of_double_returns {c : Nat} (hc : 1 ≤ c) (hrange : 4 * c ≤ U32) :
    ∃ p, nextPrimeLoop U32 (umul c 2) = .ok p := by
  have hm : umul c 2 = 2 * c := by
    unfold umul
    rw [Nat.mod_eq_of_lt (by omega)]
    omega
  rw [hm]
  obtain ⟨r, hr, h1, h2⟩ := Nat.exists_prime_lt_and_le_two_mul (2 * c) (by omega)
  have hrU : r < U32 := by
    rcases Nat.lt_or_ge r U32 with h | h
    · exact h
    · have : r = U32 := by omega
      rw [this] at hr
      exact absurd hr (by unfold U32; norm_num)
  exact nextPrimeLoop_returns U32 (2 * c) ⟨r, hr, h1, hrU, by omega⟩

/-- When the loop of `insert` is left by `break`, it read a bucket that is
not Occupied. -/
theorem insertLoop_some {t : HashTable V} {key : Nat} :
    ∀ (fuel q : Nat) (flag : Bool) (idx0 idx : Nat),
      insertLoop t key fuel q flag idx0 = .ok (some idx) →
      ∃ x tmp, x < t.size_table ∧ t.slot[x]? = some tmp ∧ tmp.is_empty = true := by
  intro fuel
  induction fuel with
  | zero => intro q flag idx0 idx h; cases h
  | succ fuel ih =>
    intro q flag idx0 idx h
    unfold insertLoop at h
    split at h
    · cases h
    · rename_i hsz
      split at h
      · cases h
      · rename_i tmp htmp
        split at h
        · cases h
        · simp only at h
          split at h
          · rename_i he
            refine ⟨_, tmp, probeIndex_lt t key q (Nat.pos_of_ne_zero hsz), htmp, ?_⟩
            simp only [Bool.and_eq_true] at he
            exact he.1
          · exact ih _ _ _ _ h

theorem length_filterMap_lt {α β : Type} (f : α → Option β) :
    ∀ (l : List α), (∃ a ∈ l, f a = none) → (l.filterMap f).length < l.length := by
  intro l
  induction l with
  | nil => rintro ⟨a, ha, _⟩; cases ha
  | cons b rest ih =>
    rintro ⟨a, ha, hf⟩
    rw [List.filterMap_cons]
    rcases List.mem_cons.mp ha with rfl | hmem
    · rw [hf]
      have := List.length_filterMap_le f rest
      simp only [List.length_cons]
      omega
    · have := ih ⟨a, hmem, hf⟩
      cases hb : f b with
      | none => simp only [List.length_cons]; omega
      | some c => simp only [List.length_cons]; omega

/-- The entries a grow copies out are fewer than the buckets once one bucket
is not Occupied. -/
theorem liveEntries_length_lt {t : HashTable V} {x : Nat} {tmp : Slot V}
    (hx : x < t.size_table) (hs : t.slot[x]? = some tmp) (he : tmp.is_empty = true) :
    (liveEntries t).length < t.size_table := by
  unfold liveEntries
  have hlen : (t.slot.take t.size_table).length ≤ t.size_table := by
    rw [List.length_take]; omega
  refine lt_of_lt_of_le (length_filterMap_lt _ _ ⟨tmp, ?_, ?_⟩) hlen
  · rw [List.mem_take_iff_getElem]
    obtain ⟨hlt, hget⟩ := List.getElem?_eq_some_iff.mp hs
    exact ⟨x, by omega, hget⟩
  · rw [he]; rfl

/-- What a returning `insert` did: nothing, a plain store, or a grow. -/
theorem insertAux_cases (hjunk : Nat → Nat → Nat × V) (d : Nat) (t : HashTable V) (key : Nat)
    (value : ValueRef V) (b : Bool) (t' : HashTable V)
    (h : insertAux hjunk (d + 1) t key value = .ok (b, t')) :
    (b = false ∧ t' = t) ∨
    (b = true ∧ growNeeded t = false ∧ ∃ idx v, t' = store t idx key v) ∨
    (b = true ∧ growNeeded t = true ∧
      (∃ idx, insertLoop t key U32 0 false (probeIndex t key 0) = .ok (some idx)) ∧
      rehash hjunk (insertAux hjunk d) t key value = .ok t') := by
  unfold insertAux at h
  cases hl : insertLoop t key U32 0 false (probeIndex t key 0) with
  | error e => rw [hl] at h; cases h
  | ok r =>
    rw [hl, ok_bind] at h
    cases r with
    | none =>
      left
      cases h
      exact ⟨rfl, rfl⟩
    | some idx =>
      right
      simp only at h
      by_cases hg : growNeeded t = true
      · rw [if_pos hg] at h
        right
        cases hr : rehash hjunk (insertAux hjunk d) t key value with
        | error e => rw [hr] at h; cases h
        | ok t1 =>
          rw [hr, ok_bind] at h
          cases h
          exact ⟨rfl, hg, ⟨idx, rfl⟩, rfl⟩
      · rw [if_neg hg] at h
        left
        cases hv : value.read t with
        | error e => rw [hv] at h; cases h
        | ok v =>
          rw [hv, ok_bind] at h
          cases h
          exact ⟨rfl, by simpa using hg, idx, v, rfl⟩

/-- The steps of a returning grow. -/
theorem rehash_cases (hjunk : Nat → Nat → Nat × V)
    (ins : HashTable V → Nat → ValueRef V → Except Fault (Bool × HashTable V))
    (t : HashTable V) (key : Nat) (value : ValueRef V) (t' : HashTable V)
    (hg : growNeeded t = true) (h : rehash hjunk ins t key value = .ok t') :
    ∃ size t1 b,
      nextPrimeLoop U32 (umul t.size_table 2) = .ok size ∧
      (liveEntries t).foldlM (fun acc kv => (ins acc kv.1 (.direct kv.2)).map Prod.snd)
        { slot := freshSlots hjunk size, size_table := size, num_element := 0 } = .ok t1 ∧
      ins t1 key value.afterDelete = .ok (b, t') := by
  unfold rehash at h
  rw [if_pos hg] at h
  cases hn : nextPrimeLoop U32 (umul t.size_table 2) with
  | error e => rw [hn] at h; cases h
  | ok size =>
    rw [hn, ok_bind] at h
    simp only at h
    cases hf : (liveEntries t).foldlM (fun acc kv => (ins acc kv.1 (.direct kv.2)).map Prod.snd)
        { slot := freshSlots hjunk size, size_table := size, num_element := 0 } with
    | error e => rw [hf] at h; cases h
    | ok t1 =>
      rw [hf, ok_bind] at h
      cases hi : ins t1 key value.afterDelete with
      | error e => rw [hi] at h; cases h
      | ok r =>
        rw [hi, ok_bind] at h
        cases h
        exact ⟨size, t1, r.1, by first | exact hn | rfl, hf, hi⟩

theorem uadd_one_le (n : Nat) : uadd n 1 ≤ n + 1 := Nat.mod_le _ _

/-- An `insert` into a table with room for one more keeps the capacity and
adds at most one to the counter. -/
theorem insertAux_room (hjunk : Nat → Nat → Nat × V) (d : Nat) (t : HashTable V) (key : Nat)
    (value : ValueRef V) (b : Bool) (t' : HashTable V)
    (hroom : 2 * (t.num_element + 1) < t.size_table)
    (h : insertAux hjunk (d + 1) t key value = .ok (b, t')) :
    t'.size_table = t.size_table ∧ t'.num_element ≤ t.num_element + 1 := by
  rcases insertAux_cases hjunk d t key value b t' h with ⟨_, rfl⟩ | ⟨_, _, idx, v, rfl⟩ |
    ⟨_, hg, _, _⟩
  · exact ⟨rfl, by omega⟩
  · exact ⟨rfl, uadd_one_le _⟩
  · exfalso
    unfold growNeeded at hg
    have := uadd_one_le t.num_element
    simp only [decide_eq_true_eq] at hg
    omega

/-- Re-inserting a list of pairs into a table with room for all of them
keeps the capacity. -/
theorem foldlM_room (hjunk : Nat → Nat → Nat × V) (d : Nat) :
    ∀ (l : List (Nat × V)) (acc t1 : HashTable V),
      2 * (acc.num_element + l.length) < acc.size_table →
      l.foldlM (fun acc kv => (insertAux hjunk (d + 1) acc kv.1 (.direct kv.2)).map Prod.snd) acc
        = .ok t1 →
      t1.size_table = acc.size_table ∧ t1.num_element ≤ acc.num_element + l.length := by
  intro l
  induction l with
  | nil =>
    intro acc t1 _ h
    cases h
    exact ⟨rfl, by simp⟩
  | cons kv rest ih =>
    intro acc t1 hroom h
    rw [List.foldlM_cons] at h
    simp only [List.length_cons] at hroom
    cases hi : insertAux hjunk (d + 1) acc kv.1 (.direct kv.2) with
    | error e => rw [hi] at h; cases h
    | ok r =>
      rw [hi] at h
      obtain ⟨b, acc'⟩ := r
      have h' : rest.foldlM
          (fun acc kv => (insertAux hjunk (d + 1) acc kv.1 (.direct kv.2)).map Prod.snd) acc'
          = .ok t1 := h
      obtain ⟨hs, hn⟩ := insertAux_room hjunk d acc kv.1 _ b acc' (by omega) hi
      obtain ⟨hs1, hn1⟩ := ih acc' t1 (by rw [hs]; omega) h'
      simp only [List.length_cons]
      exact ⟨by rw [hs1, hs], by omega⟩

theorem getElem?_freshSlots (hjunk : Nat → Nat → Nat × V) (n i : Nat) (h : i < n) :
    (freshSlots hjunk n)[i]? =
      some { key := (hjunk n i).1, value := (hjunk n i).2, is_empty := true, is_deleted := false } := by
  unfold freshSlots
  rw [List.getElem?_map, List.getElem?_range h]
  rfl

theorem liveEntries_fresh (hjunk : Nat → Nat → Nat × V) (n m k : Nat) :
    liveEntries { slot := freshSlots hjunk n, size_table := m, num_element := k } = [] := by
  unfold liveEntries
  rw [List.filterMap_eq_nil_iff]
  intro a ha
  have ha' := List.mem_of_mem_take ha
  unfold freshSlots at ha'
  rw [List.mem_map] at ha'
  obtain ⟨i, _, rfl⟩ := ha'
  rfl

theorem insertLoop_stop {t : HashTable V} {key : Nat} (fuel q idx0 : Nat) (tmp : Slot V)
    (hsz : t.size_table ≠ 0) (hs : t.slot[probeIndex t key q]? = some tmp)
    (he : tmp.is_empty = true) (hd : tmp.is_deleted = false) :
    insertLoop t key (fuel + 1) q false idx0 = .ok (some (probeIndex t key q)) := by
  unfold insertLoop
  rw [if_neg hsz, hs]
  simp only [he, hd, Bool.not_true, Bool.false_and, Bool.not_false, Bool.and_self, if_true,
    Bool.false_eq_true, if_false]

theorem insertAux_store (hjunk : Nat → Nat → Nat × V) (d : Nat) {t : HashTable V} {key : Nat}
    (v : V) (tmp : Slot V)
    (hsz : t.size_table ≠ 0) (hs : t.slot[probeIndex t key 0]? = some tmp)
    (he : tmp.is_empty = true) (hd : tmp.is_deleted = false) (hg : growNeeded t = false) :
    insertAux hjunk (d + 1) t key (.direct v) = .ok (true, store t (probeIndex t key 0) key v) := by
  unfold insertAux
  have hfuel : U32 = 4294967295 + 1 := rfl
  rw [hfuel, insertLoop_stop 4294967295 0 _ tmp hsz hs he hd, ok_bind]
  simp only [hg, Bool.false_eq_true, if_false]
  rfl

theorem mem_occupiedKeys {t : HashTable V} {κ : Nat} :
    κ ∈ occupiedKeys t ↔ ∃ s ∈ t.slot, s.is_empty = false ∧ s.key = κ := by
  unfold occupiedKeys
  rw [List.mem_filterMap]
  constructor
  · rintro ⟨s, hs, h⟩
    by_cases he : s.is_empty = true
    · rw [if_pos he] at h; cases h
    · rw [if_neg he] at h
      exact ⟨s, hs, by simpa using he, by injection h⟩
  · rintro ⟨s, hs, he, hk⟩
    refine ⟨s, hs, ?_⟩
    rw [he, ← hk]
    rfl

theorem getLoop_step {t : HashTable V} {key : Nat} (fuel q : Nat) {s : Slot V}
    (hz : t.size_table ≠ 0) (hs : t.slot[probeIndex t key q]? = some s) :
    getLoop t key (fuel + 1) q =
      if !s.is_empty && s.key == key then .ok (some (probeIndex t key q))
      else if s.is_empty && !s.is_deleted then .ok none
      else getLoop t key fuel (q + 1) := by
  rw [getLoop, if_neg hz, hs]

theorem insertLoop_step {t : HashTable V} {key : Nat} (fuel q : Nat) (flag : Bool) (idx0 : Nat)
    {tmp : Slot V} (hz : t.size_table ≠ 0) (hs : t.slot[probeIndex t key q]? = some tmp) :
    insertLoop t key (fuel + 1) q flag idx0 =
      if !tmp.is_empty && tmp.key == key then .ok none
      else if tmp.is_empty && !tmp.is_deleted then
        .ok (some (if tmp.is_empty && !flag then probeIndex t key q else idx0))
      else insertLoop t key fuel (q + 1) (flag || tmp.is_empty)
        (if tmp.is_empty && !flag then probeIndex t key q else idx0) := by
  rw [insertLoop, if_neg hz, hs]

/-- A loop of `get` that returns has read a bucket of a table that has buckets. -/
theorem getLoop_ok_slot {t : HashTable V} {key : Nat} {fuel q : Nat} {r : Option Nat}
    (h : getLoop t key (fuel + 1) q = .ok r) :
    t.size_table ≠ 0 ∧ ∃ s, t.slot[probeIndex t key q]? = some s := by
  rw [getLoop] at h
  by_cases hz : t.size_table = 0
  · rw [if_pos hz] at h; cases h
  · refine ⟨hz, ?_⟩
    rw [if_neg hz] at h
    cases hs : t.slot[probeIndex t key q]? with
    | none => rw [hs] at h; cases h
    | some s => exact ⟨s, rfl⟩

/-- A loop of `insert` that returns has read a bucket of a table that has buckets. -/
theorem insertLoop_ok_slot {t : HashTable V} {key : Nat} {fuel q : Nat} {flag : Bool} {idx0 : Nat}
    {r : Option Nat} (h : insertLoop t key (fuel + 1) q flag idx0 = .ok r) :
    t.size_table ≠ 0 ∧ ∃ s, t.slot[probeIndex t key q]? = some s := by
  rw [insertLoop] at h
  by_cases hz : t.size_table = 0
  · rw [if_pos hz] at h; cases h
  · refine ⟨hz, ?_⟩
    rw [if_neg hz] at h
    cases hs : t.slot[probeIndex t key q]? with
    | none => rw [hs] at h; cases h
    | some s => exact ⟨s, rfl⟩

/-- A pointer returned by `get` addresses an Occupied bucket that holds the key. -/
theorem getLoop_some_sound {t : HashTable V} {key : Nat} :
    ∀ (fuel q j : Nat), getLoop t key fuel q = .ok (some j) →
      ∃ s, t.slot[j]? = some s ∧ s.is_empty = false ∧ s.key = key := by
  intro fuel
  induction fuel with
  | zero => intro q j h; cases h
  | succ fuel ih =>
    intro q j h
    obtain ⟨hz, s, hs⟩ := getLoop_ok_slot h
    rw [getLoop_step fuel q hz hs] at h
    by_cases hc : (!s.is_empty && s.key == key) = true
    · rw [if_pos hc] at h
      cases h
      simp only [Bool.and_eq_true, Bool.not_eq_true', beq_iff_eq] at hc
      exact ⟨s, hs, hc.1, hc.2⟩
    · rw [if_neg hc] at h
      by_cases hc2 : (s.is_empty && !s.is_deleted) = true
      · rw [if_pos hc2] at h; cases h
      · rw [if_neg hc2] at h
        exact ih _ _ h

theorem probeIndex_store (t : HashTable V) (e k : Nat) (v : V) (κ q : Nat) :
    probeIndex (store t e k v) κ q = probeIndex t κ q := rfl

theorem store_slot_ne (t : HashTable V) (e k : Nat) (v : V) {x : Nat} (h : x ≠ e) :
    (store t e k v).slot[x]? = t.slot[x]? := by
  unfold store
  simp only
  rw [List.getElem?_set_ne (Ne.symm h)]

theorem store_slot_eq (t : HashTable V) (e k : Nat) (v : V) (h : e < t.slot.length) :
    (store t e k v).slot[e]? =
      some { key := k, value := v, is_empty := false, is_deleted := false } := by
  unfold store
  simp only
  rw [List.getElem?_set_self h]

/-- Writing an entry into a never-used bucket leaves every pointer `get`
returned valid. -/
theorem getLoop_store {t : HashTable V} {e k : Nat} {v : V} {se : Slot V}
    (hse : t.slot[e]? = some se) (he : se.is_empty = true) (hd : se.is_deleted = false) (κ : Nat) :
    ∀ (fuel q j : Nat), getLoop t κ fuel q = .ok (some j) →
      getLoop (store t e k v) κ fuel q = .ok (some j) := by
  intro fuel
  induction fuel with
  | zero => intro q j h; cases h
  | succ fuel ih =>
    intro q j h
    obtain ⟨hz, s, hs⟩ := getLoop_ok_slot h
    rw [getLoop_step fuel q hz hs] at h
    have hne : probeIndex t κ q ≠ e := by
      intro hx
      rw [hx, hse] at hs
      cases hs
      simp only [he, hd, Bool.not_true, Bool.false_and, Bool.false_eq_true, if_false,
        Bool.not_false, Bool.and_self, if_true] at h
      cases h
    have hs' : (store t e k v).slot[probeIndex (store t e k v) κ q]? = some s := by
      rw [probeIndex_store, store_slot_ne t e k v hne, hs]
    rw [getLoop_step fuel q (show (store t e k v).size_table ≠ 0 from hz) hs', probeIndex_store]
    by_cases hc : (!s.is_empty && s.key == κ) = true
    · rw [if_pos hc] at h ⊢
      exact h
    · rw [if_neg hc] at h ⊢
      by_cases hc2 : (s.is_empty && !s.is_deleted) = true
      · rw [if_pos hc2] at h; cases h
      · rw [if_neg hc2] at h ⊢
        exact ih _ _ h

theorem occupied_of_not_stop {s : Slot V} (hdel : s.is_deleted = false)
    (hc2 : ¬ (s.is_empty && !s.is_deleted) = true) : s.is_empty = false := by
  cases hem : s.is_empty
  · rfl
  · rw [hem, hdel] at hc2
    exact absurd rfl hc2

/-- In a table without tombstones, `insert` meets the key exactly when `get`
finds it. -/
theorem insertLoop_none {t : HashTable V} {key : Nat} (hnt : NoTomb t) :
    ∀ (fuel q idx0 : Nat), insertLoop t key fuel q false idx0 = .ok none →
      ∃ j, getLoop t key fuel q = .ok (some j) := by
  intro fuel
  induction fuel with
  | zero => intro q idx0 h; cases h
  | succ fuel ih =>
    intro q idx0 h
    obtain ⟨hz, tmp, htmp⟩ := insertLoop_ok_slot h
    have hdel : tmp.is_deleted = false := hnt tmp (List.getElem?_mem htmp)
    rw [insertLoop_step fuel q false idx0 hz htmp] at h
    rw [getLoop_step fuel q hz htmp]
    by_cases hc : (!tmp.is_empty && tmp.key == key) = true
    · rw [if_pos hc]
      exact ⟨_, rfl⟩
    · rw [if_neg hc] at h ⊢
      by_cases hc2 : (tmp.is_empty && !tmp.is_deleted) = true
      · rw [if_pos hc2] at h; cases h
      · rw [if_neg hc2] at h ⊢
        have hem := occupied_of_not_stop hdel hc2
        rw [hem] at h
        exact ih _ _ h

/-- In a table without tombstones, when the loop of `insert` is left by
`break`, `get` answers the null pointer, the chosen bucket was never used, and
`get` finds the key there once it is stored. -/
theorem insertLoop_break {t : HashTable V} {key : Nat} (hnt : NoTomb t) :
    ∀ (fuel q idx0 e : Nat), insertLoop t key fuel q false idx0 = .ok (some e) →
      getLoop t key fuel q = .ok none ∧
      ∃ se, t.slot[e]? = some se ∧ se.is_empty = true ∧ se.is_deleted = false ∧
        ∀ v, getLoop (store t e key v) key fuel q = .ok (some e) := by
  intro fuel
  induction fuel with
  | zero => intro q idx0 e h; cases h
  | succ fuel ih =>
    intro q idx0 e h
    obtain ⟨hz, tmp, htmp⟩ := insertLoop_ok_slot h
    have hdel : tmp.is_deleted = false := hnt tmp (List.getElem?_mem htmp)
    have hlt : probeIndex t key q < t.slot.length := (List.getElem?_eq_some_iff.mp htmp).1
    rw [insertLoop_step fuel q false idx0 hz htmp] at h
    rw [getLoop_step fuel q hz htmp]
    by_cases hc : (!tmp.is_empty && tmp.key == key) = true
    · rw [if_pos hc] at h; cases h
    · rw [if_neg hc] at h ⊢
      by_cases hc2 : (tmp.is_empty && !tmp.is_deleted) = true
      · rw [if_pos hc2] at h ⊢
        have hem : tmp.is_empty = true := by
          simp only [Bool.and_eq_true] at hc2
          exact hc2.1
        rw [hem] at h
        simp only [Bool.not_false, Bool.and_self, if_true] at h
        cases h
        refine ⟨rfl, tmp, htmp, hem, hdel, fun v => ?_⟩
        have hs' : (store t (probeIndex t key q) key v).slot[
            probeIndex (store t (probeIndex t key q) key v) key q]? =
            some { key := key, value := v, is_empty := false, is_deleted := false } := by
          rw [probeIndex_store, store_slot_eq t _ key v hlt]
        rw [getLoop_step fuel q (show (store t _ key v).size_table ≠ 0 from hz) hs',
          probeIndex_store]
        simp
      · rw [if_neg hc2] at h ⊢
        have hem := occupied_of_not_stop hdel hc2
        rw [hem] at h
        obtain ⟨h1, se, hse, he1, he2, h2⟩ := ih _ _ _ h
        refine ⟨h1, se, hse, he1, he2, fun v => ?_⟩
        have hne : probeIndex t key q ≠ e := by
          intro heq
          rw [heq, hse] at htmp
          cases htmp
          rw [hem] at he1
          cases he1
        have hs' : (store t e key v).slot[probeIndex (store t e key v) key q]? = some tmp := by
          rw [probeIndex_store, store_slot_ne t e key v hne, htmp]
        rw [getLoop_step fuel q (show (store t e key v).size_table ≠ 0 from hz) hs',
          if_neg hc, if_neg hc2]
        exact h2 v

/-- In a table without tombstones the loop of `insert` returns whenever the
loop of `get` does. -/
theorem insertLoop_returns {t : HashTable V} {key : Nat} (hnt : NoTomb t) :
    ∀ (fuel q idx0 : Nat) (r : Option Nat), getLoop t key fuel q = .ok r →
      ∃ r', insertLoop t key fuel q false idx0 = .ok r' := by
  intro fuel
  induction fuel with
  | zero => intro q idx0 r h; cases h
  | succ fuel ih =>
    intro q idx0 r h
    obtain ⟨hz, tmp, htmp⟩ := getLoop_ok_slot h
    have hdel : tmp.is_deleted = false := hnt tmp (List.getElem?_mem htmp)
    rw [getLoop_step fuel q hz htmp] at h
    rw [insertLoop_step fuel q false idx0 hz htmp]
    by_cases hc : (!tmp.is_empty && tmp.key == key) = true
    · rw [if_pos hc]
      exact ⟨_, rfl⟩
    · rw [if_neg hc] at h ⊢
      by_cases hc2 : (tmp.is_empty && !tmp.is_deleted) = true
      · rw [if_pos hc2]
        exact ⟨_, rfl⟩
      · rw [if_neg hc2] at h ⊢
        have hem := occupied_of_not_stop hdel hc2
        rw [hem]
        exact ih _ _ _ h

theorem lookup_eq_some_iff {t : HashTable V} {κ : Nat} {w : V} :
    lookup t κ = .ok (some w) ↔
      ∃ j s, get t κ = .ok (some j) ∧ t.slot[j]? = some s ∧ s.value = w := by
  unfold lookup
  cases hg : get t κ with
  | error e =>
    constructor
    · intro h; cases h
    · rintro ⟨j, s, h, _⟩; cases h
  | ok mp =>
    rw [ok_bind]
    cases mp with
    | none =>
      constructor
      · intro h; cases h
      · rintro ⟨j, s, h, _⟩; cases h
    | some p =>
      simp only
      unfold readValue
      cases hs : t.slot[p]? with
      | none =>
        constructor
        · intro h; cases h
        · rintro ⟨j, s, h, h2, _⟩
          cases h
          rw [hs] at h2
          cases h2
      | some s =>
        constructor
        · intro h
          refine ⟨p, s, rfl, hs, ?_⟩
          have h' : Except.ok (some s.value) = (Except.ok (some w) : Except Fault (Option V)) := h
          injection h' with h'
          injection h'
        · rintro ⟨j, s', h, h2, h3⟩
          cases h
          rw [hs] at h2
          cases h2
          rw [← h3]
          rfl

theorem countP_set_add {α : Type} (P : α → Bool) (a : α) (ha : P a = true) :
    ∀ (l : List α) (e : Nat) (b : α), l[e]? = some b → P b = false →
      (l.set e a).countP P = l.countP P + 1 := by
  intro l
  induction l with
  | nil => intro e b h; cases h
  | cons c rest ih =>
    intro e b h hb
    cases e with
    | zero =>
      simp only [List.getElem?_cons_zero, Option.some.injEq] at h
      subst h
      simp only [List.set_cons_zero, List.countP_cons, ha, hb, if_true, Bool.false_eq_true,
        if_false, Nat.add_zero]
    | succ e =>
      simp only [List.getElem?_cons_succ] at h
      simp only [List.set_cons_succ, List.countP_cons, ih e b h hb]
      omega

/-- A plain store of an absent key in a table that has only been inserted
into. -/
theorem store_added {t : HashTable V} {e k : Nat} {se : Slot V} (v : V)
    (hc : Clean t) (habs : t.get k = .ok none)
    (hse : t.slot[e]? = some se) (he : se.is_empty = true) (hd : se.is_deleted = false)
    (hget : (store t e k v).get k = .ok (some e)) (hroom : growNeeded t = false) :
    Added t (store t e k v) k v := by
  have hlt : e < t.slot.length := (List.getElem?_eq_some_iff.mp hse).1
  have hn : uadd t.num_element 1 = t.num_element + 1 := by
    unfold uadd
    have := hc.load
    have := hc.small
    exact Nat.mod_eq_of_lt (by omega)
  have hkeep : ∀ κ j, t.get κ = .ok (some j) → (store t e k v).get κ = .ok (some j) ∧
      (store t e k v).slot[j]? = t.slot[j]? := by
    intro κ j hj
    refine ⟨getLoop_store hse he hd κ _ _ _ hj, ?_⟩
    obtain ⟨s, hs, hs1, _⟩ := getLoop_some_sound _ _ _ hj
    apply store_slot_ne
    rintro rfl
    rw [hse] at hs
    cases hs
    rw [he] at hs1
    cases hs1
  refine ⟨⟨?_, hc.small, ?_, ?_, ?_, ?_⟩, habs, ?_, ?_, ?_, hn⟩
  · show (t.slot.set e _).length = t.size_table
    rw [List.length_set]
    exact hc.len
  · intro s hs
    rcases List.mem_or_eq_of_mem_set hs with h | h
    · exact hc.noTomb s h
    · rw [h]
  · intro i s hs hocc
    by_cases hi : i = e
    · subst hi
      rw [store_slot_eq t i k v hlt] at hs
      cases hs
      exact hget
    · rw [store_slot_ne t e k v hi] at hs
      exact (hkeep _ _ (hc.found i s hs hocc)).1
  · show uadd t.num_element 1 = (t.slot.set e _).countP _
    rw [hn, countP_set_add _ _ rfl t.slot e se hse (by rw [he]; rfl), hc.count]
  · show 2 * uadd t.num_element 1 < t.size_table
    unfold growNeeded at hroom
    simpa using hroom
  · rw [lookup_eq_some_iff]
    exact ⟨e, _, hget, store_slot_eq t e k v hlt, rfl⟩
  · intro κ w hl
    rw [lookup_eq_some_iff] at hl ⊢
    obtain ⟨j, s, hj, hs, hw⟩ := hl
    obtain ⟨h1, h2⟩ := hkeep κ j hj
    exact ⟨j, s, h1, by rw [h2]; exact hs, hw⟩
  · intro κ hκ
    rw [mem_occupiedKeys] at hκ
    obtain ⟨s, hs, hocc, hk⟩ := hκ
    rcases List.mem_or_eq_of_mem_set hs with h | h
    · right
      rw [mem_occupiedKeys]
      exact ⟨s, h, hocc, hk⟩
    · left
      rw [← hk, h]

theorem liveEntries_eq {t : HashTable V} (hc : Clean t) :
    liveEntries t = t.slot.filterMap fun s =>
      if !s.is_empty && !s.is_deleted then some (s.key, s.value) else none := by
  unfold liveEntries
  rw [List.take_of_length_le (le_of_eq hc.len)]

theorem mem_liveEntries {t : HashTable V} (hc : Clean t) {κ : Nat} {w : V} :
    (κ, w) ∈ liveEntries t ↔ ∃ s ∈ t.slot, s.is_empty = false ∧ s.key = κ ∧ s.value = w := by
  rw [liveEntries_eq hc, List.mem_filterMap]
  constructor
  · rintro ⟨s, hs, h⟩
    by_cases hl : (!s.is_empty && !s.is_deleted) = true
    · rw [if_pos hl] at h
      injection h with h
      injection h with h1 h2
      simp only [Bool.and_eq_true, Bool.not_eq_true'] at hl
      exact ⟨s, hs, hl.1, h1, h2⟩
    · rw [if_neg hl] at h; cases h
  · rintro ⟨s, hs, he, hk, hv⟩
    refine ⟨s, hs, ?_⟩
    rw [he, hc.noTomb s hs, ← hk, ← hv]
    rfl

theorem liveEntries_length {t : HashTable V} (hc : Clean t) :
    (liveEntries t).length = t.num_element := by
  rw [liveEntries_eq hc, hc.count, List.length_filterMap_eq_countP]
  apply List.countP_congr
  intro s hs
  rw [hc.noTomb s hs]
  cases s.is_empty <;> simp

theorem liveEntries_nodup {t : HashTable V} (hc : Clean t) :
    ((liveEntries t).map Prod.fst).Nodup := by
  rw [liveEntries_eq hc]
  unfold List.Nodup
  rw [List.pairwise_map]
  refine List.Pairwise.filterMap (R := fun a b : Slot V =>
    a.is_empty = false → b.is_empty = false → a.key ≠ b.key) _ ?_ ?_
  · intro a a' hR b hb b' hb'
    simp only [Option.mem_def] at hb hb'
    by_cases hl : (!a.is_empty && !a.is_deleted) = true
    · by_cases hl' : (!a'.is_empty && !a'.is_deleted) = true
      · rw [if_pos hl] at hb
        rw [if_pos hl'] at hb'
        cases hb
        cases hb'
        simp only [Bool.and_eq_true, Bool.not_eq_true'] at hl hl'
        exact hR hl.1 hl'.1
      · rw [if_neg hl'] at hb'; cases hb'
    · rw [if_neg hl] at hb; cases hb
  · rw [List.pairwise_iff_getElem]
    intro i j hi hj hij ha hb hk
    have h1 := hc.found i _ (List.getElem?_eq_getElem hi) ha
    have h2 := hc.found j _ (List.getElem?_eq_getElem hj) hb
    rw [hk, h2] at h1
    injection h1 with h1
    injection h1 with h1
    omega

theorem lookup_mem_liveEntries {t : HashTable V} (hc : Clean t) {κ : Nat} {w : V}
    (h : lookup t κ = .ok (some w)) : (κ, w) ∈ liveEntries t := by
  rw [lookup_eq_some_iff] at h
  obtain ⟨j, s, hj, hs, hw⟩ := h
  obtain ⟨s', hs', he, hk⟩ := getLoop_some_sound _ _ _ hj
  rw [hs] at hs'
  cases hs'
  rw [mem_liveEntries hc]
  exact ⟨s, List.getElem?_mem hs, he, hk, hw⟩

theorem liveEntries_key_occupied {t : HashTable V} (hc : Clean t) {kv : Nat × V}
    (h : kv ∈ liveEntries t) : kv.1 ∈ occupiedKeys t := by
  obtain ⟨κ, w⟩ := kv
  rw [mem_liveEntries hc] at h
  obtain ⟨s, hs, he, hk, _⟩ := h
  rw [mem_occupiedKeys]
  exact ⟨s, hs, he, hk⟩

/-- A key in an Occupied bucket of a table that has only been inserted into
is found by `get`. -/
theorem get_of_occupied {t : HashTable V} (hc : Clean t) {κ : Nat} (h : κ ∈ occupiedKeys t) :
    ∃ j, t.get κ = .ok (some j) := by
  rw [mem_occupiedKeys] at h
  obtain ⟨s, hs, he, hk⟩ := h
  obtain ⟨i, hi⟩ := List.getElem?_of_mem hs
  exact ⟨i, hk ▸ hc.found i s hi he⟩

theorem occupied_of_get {t : HashTable V} {κ j : Nat} (h : t.get κ = .ok (some j)) :
    κ ∈ occupiedKeys t := by
  obtain ⟨s, hs, he, hk⟩ := getLoop_some_sound _ _ _ h
  rw [mem_occupiedKeys]
  exact ⟨s, List.getElem?_mem hs, he, hk⟩

theorem mem_freshSlots {hjunk : Nat → Nat → Nat × V} {n : Nat} {s : Slot V}
    (h : s ∈ freshSlots hjunk n) : s.is_empty = true ∧ s.is_deleted = false := by
  unfold freshSlots at h
  rw [List.mem_map] at h
  obtain ⟨i, _, rfl⟩ := h
  exact ⟨rfl, rfl⟩

/-- The table a grow starts to refill. -/
theorem refilled_fresh (hjunk : Nat → Nat → Nat × V) {p : Nat} (h0 : p ≠ 0) (hU : p < U32) :
    Refilled { slot := freshSlots hjunk p, size_table := p, num_element := 0 } [] := by
  have hocc : occupiedKeys
      ({ slot := freshSlots hjunk p, size_table := p, num_element := 0 } : HashTable V) = [] := by
    rw [List.eq_nil_iff_forall_not_mem]
    intro κ hκ
    rw [mem_occupiedKeys] at hκ
    obtain ⟨s, hs, he, _⟩ := hκ
    rw [(mem_freshSlots hs).1] at he
    cases he
  refine ⟨⟨?_, hU, ?_, ?_, ?_, ?_⟩, rfl, ?_, ?_⟩
  · show (freshSlots hjunk p).length = p
    unfold freshSlots
    rw [List.length_map, List.length_range]
  · intro s hs
    exact (mem_freshSlots hs).2
  · intro i s hs he
    rw [(mem_freshSlots (List.getElem?_mem hs)).1] at he
    cases he
  · show 0 = (freshSlots hjunk p).countP _
    symm
    rw [List.countP_eq_zero]
    intro s hs
    rw [(mem_freshSlots hs).1]
    simp
  · show 2 * 0 < p
    omega
  · intro kv hkv
    cases hkv
  · intro κ hκ
    rw [hocc] at hκ
    cases hκ

/-- Re-inserting pairs with distinct keys, none of them in the table yet, by
an `insert` that does what it should. -/
theorem foldlM_refill (ins : HashTable V → Nat → ValueRef V → Except Fault (Bool × HashTable V))
    (hins : ∀ acc κ w b acc', Clean acc → ins acc κ (.direct w) = .ok (b, acc') →
      (b = false ∧ ∃ j, acc.get κ = .ok (some j)) ∨ (b = true ∧ Added acc acc' κ w)) :
    ∀ (rest done : List (Nat × V)) (acc t1 : HashTable V),
      Refilled acc done → ((done ++ rest).map Prod.fst).Nodup →
      rest.foldlM (fun acc kv => (ins acc kv.1 (.direct kv.2)).map Prod.snd) acc = .ok t1 →
      Refilled t1 (done ++ rest) := by
  intro rest
  induction rest with
  | nil =>
    intro done acc t1 hr _ h
    cases h
    rw [List.append_nil]
    exact hr
  | cons kv rest ih =>
    intro done acc t1 hr hnd h
    rw [List.foldlM_cons] at h
    cases hi : ins acc kv.1 (.direct kv.2) with
    | error e => rw [hi] at h; cases h
    | ok r =>
      rw [hi] at h
      obtain ⟨b, acc'⟩ := r
      have h' : rest.foldlM (fun acc kv => (ins acc kv.1 (.direct kv.2)).map Prod.snd) acc'
          = .ok t1 := h
      have hnew : kv.1 ∉ done.map Prod.fst := by
        rw [List.map_append, List.nodup_append] at hnd
        intro hmem
        exact hnd.2.2 hmem (by simp)
      have hassoc : done ++ kv :: rest = (done ++ [kv]) ++ rest := by simp
      rw [hassoc] at hnd ⊢
      rcases hins acc kv.1 kv.2 b acc' hr.clean hi with ⟨_, j, hj⟩ | ⟨_, ha⟩
      · exact absurd (hr.only _ (occupied_of_get hj)) hnew
      · refine ih (done ++ [kv]) acc' t1 ⟨ha.clean, ?_, ?_, ?_⟩ hnd h'
        · rw [ha.count, hr.count, List.length_append]
          rfl
        · intro kv' hkv'
          rcases List.mem_append.mp hkv' with hm | hm
          · exact ha.kept _ _ (hr.has kv' hm)
          · rw [List.mem_singleton] at hm
            rw [hm]
            exact ha.here
        · intro κ hκ
          rw [List.map_append, List.mem_append]
          rcases ha.only κ hκ with rfl | hold
          · right; simp
          · left; exact hr.only κ hold

theorem U32_succ : U32 = 4294967295 + 1 := rfl

theorem insertAux_ok_size {hjunk : Nat → Nat → Nat × V} {d : Nat} {t : HashTable V} {k : Nat}
    {val : ValueRef V} {r : Bool × HashTable V} (h : insertAux hjunk d t k val = .ok r) :
    t.size_table ≠ 0 := by
  cases d with
  | zero => cases h
  | succ d =>
    unfold insertAux at h
    cases hl : insertLoop t k U32 0 false (probeIndex t k 0) with
    | error e => rw [hl] at h; cases h
    | ok r' =>
      rw [U32_succ] at hl
      exact (insertLoop_ok_slot hl).1

theorem nextPrimeLoop_lt : ∀ (fuel s p : Nat), nextPrimeLoop fuel s = .ok p → p < U32 := by
  intro fuel
  induction fuel with
  | zero => intro s p h; cases h
  | succ fuel ih =>
    intro s p h
    unfold nextPrimeLoop at h
    by_cases ht : isPrimeTrial (uadd s 1) = true
    · rw [if_pos ht] at h
      cases h
      exact Nat.mod_lt _ (by unfold U32; norm_num)
    · rw [if_neg ht] at h
      exact ih _ _ h

/-- What a returning `insert` does to a table that has only been inserted
into, however deep the calls of `insert` and `rehash` nest. -/
theorem insertAux_spec (hjunk : Nat → Nat → Nat × V) :
    ∀ (d : Nat) (t : HashTable V) (k : Nat) (v : V) (b : Bool) (t' : HashTable V),
      Clean t → insertAux hjunk d t k (.direct v) = .ok (b, t') →
      (b = false ∧ t' = t ∧ ∃ j, t.get k = .ok (some j)) ∨ (b = true ∧ Added t t' k v) := by
  intro d
  induction d with
  | zero => intro t k v b t' _ h; cases h
  | succ d ih =>
    intro t k v b t' hc h
    have h0 := h
    unfold insertAux at h
    cases hl : insertLoop t k U32 0 false (probeIndex t k 0) with
    | error e => rw [hl] at h; cases h
    | ok r =>
      rw [hl, ok_bind] at h
      cases r with
      | none =>
        cases h
        exact Or.inl ⟨rfl, rfl, insertLoop_none hc.noTomb _ _ _ hl⟩
      | some e =>
        right
        obtain ⟨habs, se, hse, he, hd, hget⟩ := insertLoop_break hc.noTomb _ _ _ _ hl
        simp only at h
        by_cases hg : growNeeded t = true
        · rw [if_pos hg] at h
          cases hr : rehash hjunk (insertAux hjunk d) t k (.direct v) with
          | error e => rw [hr] at h; cases h
          | ok t1' =>
            rw [hr, ok_bind] at h
            cases h
            refine ⟨rfl, ?_⟩
            obtain ⟨size, t1, b1, hnp, hfold, hlast⟩ :=
              rehash_cases hjunk _ t k (.direct v) t' hg hr
            have hlast' : insertAux hjunk d t1 k (.direct v) = .ok (b1, t') := hlast
            have hsize0 : size ≠ 0 := by
              cases hcopies : liveEntries t with
              | nil =>
                rw [hcopies] at hfold
                cases hfold
                exact insertAux_ok_size hlast'
              | cons kv rest =>
                rw [hcopies, List.foldlM_cons] at hfold
                cases hi : insertAux hjunk d
                    { slot := freshSlots hjunk size, size_table := size, num_element := 0 }
                    kv.1 (.direct kv.2) with
                | error e => rw [hi] at hfold; cases hfold
                | ok r => exact insertAux_ok_size hi
            have hrefill := foldlM_refill (insertAux hjunk d)
              (fun acc κ w b acc' hacc hi => by
                rcases ih acc κ w b acc' hacc hi with ⟨hb, _, hj⟩ | hadd
                · exact Or.inl ⟨hb, hj⟩
                · exact Or.inr hadd)
              (liveEntries t) [] _ t1
              (refilled_fresh hjunk hsize0 (nextPrimeLoop_lt _ _ _ hnp))
              (by rw [List.nil_append]; exact liveEntries_nodup hc) hfold
            rw [List.nil_append] at hrefill
            have hnotin : k ∉ occupiedKeys t := by
              intro hk
              obtain ⟨j, hj⟩ := get_of_occupied hc hk
              have habs' : t.get k = .ok none := habs
              rw [habs'] at hj
              cases hj
            have honly : ∀ κ ∈ occupiedKeys t1, κ ∈ occupiedKeys t := by
              intro κ hκ
              have := hrefill.only κ hκ
              rw [List.mem_map] at this
              obtain ⟨kv, hkv, rfl⟩ := this
              exact liveEntries_key_occupied hc hkv
            rcases ih t1 k v b1 t' hrefill.clean hlast' with ⟨_, _, j, hj⟩ | ⟨_, hadd⟩
            · exact absurd (honly k (occupied_of_get hj)) hnotin
            · refine ⟨hadd.clean, habs, hadd.here, ?_, ?_, ?_⟩
              · intro κ w hl
                exact hadd.kept κ w (hrefill.has (κ, w) (lookup_mem_liveEntries hc hl))
              · intro κ hκ
                rcases hadd.only κ hκ with h1 | h1
                · exact Or.inl h1
                · exact Or.inr (honly κ h1)
              · rw [hadd.count, hrefill.count, liveEntries_length hc]
        · rw [if_neg hg] at h
          have h' : (Except.ok (true, store t e k v) : Except Fault (Bool × HashTable V))
              = .ok (b, t') := h
          injection h' with h'
          injection h' with hb ht
          subst hb
          subst ht
          exact ⟨rfl, store_added v hc habs hse he hd (hget v) (by simpa using hg)⟩

/-- The constructor hands out a table that has only been inserted into. -/
theorem clean_new {hjunk : Nat → Nat → Nat × V} {p : Nat} {t : HashTable V} (hU : p < U32)
    (h : new hjunk p = .ok t) : Clean t := by
  unfold new at h
  by_cases h0 : p = 0
  · rw [if_pos h0] at h; cases h
  · rw [if_neg h0] at h
    by_cases hd : ctorHasDivisor p = true
    · rw [if_pos hd] at h; cases h
    · rw [if_neg hd] at h
      cases h
      exact (refilled_fresh hjunk h0 hU).clean

/-- Quadratic probes `a < b` with `a + b` below a prime capacity fall into
different buckets. -/
theorem probe_ne {p key a b : Nat} (hp : p.Prime) (hab : a < b) (hsum : a + b < p) :
    (key + a * a) % p ≠ (key + b * b) % p := by
  intro h
  have h1 : key + a * a ≡ key + b * b [MOD p] := h
  have h2 : a * a ≡ b * b [MOD p] := Nat.ModEq.add_left_cancel' key h1
  have h3 : p ∣ b * b - a * a := (Nat.modEq_iff_dvd' (Nat.mul_le_mul hab.le hab.le)).mp h2
  rw [Nat.mul_self_sub_mul_self_eq] at h3
  rcases (Nat.Prime.dvd_mul hp).mp h3 with h | h
  · have := Nat.le_of_dvd (by omega) h
    omega
  · have := Nat.le_of_dvd (by omega) h
    omega

/-- A set of positions that all hold an element with property `P` is no
larger than the number of such elements. -/
theorem card_le_countP {α : Type} (P : α → Bool) :
    ∀ (l : List α) (S : Finset Nat), (∀ i ∈ S, ∃ a, l[i]? = some a ∧ P a = true) →
      S.card ≤ l.countP P := by
  intro l
  induction l with
  | nil =>
    intro S h
    have : S = ∅ := by
      rw [Finset.eq_empty_iff_forall_not_mem]
      intro i hi
      obtain ⟨a, ha, _⟩ := h i hi
      cases ha
    rw [this]
    simp
  | cons c rest ih =>
    intro S h
    have hinj : Set.InjOn Nat.pred (S.erase 0 : Finset Nat) := by
      intro x hx y hy hxy
      have hx0 : x ≠ 0 := (Finset.mem_erase.mp hx).1
      have hy0 : y ≠ 0 := (Finset.mem_erase.mp hy).1
      simp only [Nat.pred_eq_sub_one] at hxy
      omega
    have hcard := Finset.card_image_of_injOn hinj
    have hrest : ((S.erase 0).image Nat.pred).card ≤ rest.countP P := by
      apply ih
      intro i hi
      rw [Finset.mem_image] at hi
      obtain ⟨x, hx, rfl⟩ := hi
      obtain ⟨hx0, hxS⟩ := Finset.mem_erase.mp hx
      obtain ⟨a, ha, hPa⟩ := h x hxS
      obtain ⟨y, rfl⟩ := Nat.exists_eq_succ_of_ne_zero hx0
      rw [List.getElem?_cons_succ] at ha
      exact ⟨a, ha, hPa⟩
    rw [hcard] at hrest
    rw [List.countP_cons]
    by_cases h0 : 0 ∈ S
    · obtain ⟨a, ha, hPa⟩ := h 0 h0
      rw [List.getElem?_cons_zero] at ha
      cases ha
      rw [if_pos hPa]
      have := Finset.card_erase_of_mem h0
      have hpos : 0 < S.card := Finset.card_pos.mpr ⟨0, h0⟩
      omega
    · rw [Finset.erase_eq_of_not_mem h0] at hrest
      omega

theorem probeIndex_eq {t : HashTable V} {key q : Nat} (h : key + q * q < U32) :
    probeIndex t key q = (key + q * q) % t.size_table := by
  unfold probeIndex uadd umul
  rw [Nat.mod_eq_of_lt (a := q * q) (by omega), Nat.mod_eq_of_lt h]

/-- Among the first probes for a key in a table of prime capacity under half
load there is a bucket that was never used. -/
theorem exists_free_probe {t : HashTable V} (hc : Clean t) (hp : Nat.Prime t.size_table)
    {key : Nat} (hrange : key + (t.size_table / 2) * (t.size_table / 2) < U32) :
    ∃ d, d < (t.size_table + 1) / 2 ∧ ∃ s, t.slot[probeIndex t key d]? = some s ∧
      s.is_empty = true ∧ s.is_deleted = false := by
  by_contra hcon
  have hpos : 0 < t.size_table := hp.pos
  have hslot : ∀ d, ∃ s, t.slot[probeIndex t key d]? = some s := by
    intro d
    have hlt : probeIndex t key d < t.slot.length := by
      rw [hc.len]
      exact probeIndex_lt t key d hpos
    exact ⟨_, List.getElem?_eq_getElem hlt⟩
  have hocc : ∀ d, d < (t.size_table + 1) / 2 →
      ∃ s, t.slot[probeIndex t key d]? = some s ∧ (!s.is_empty) = true := by
    intro d hd
    obtain ⟨s, hs⟩ := hslot d
    refine ⟨s, hs, ?_⟩
    cases hem : s.is_empty
    · rfl
    · exfalso
      exact hcon ⟨d, hd, s, hs, hem, hc.noTomb s (List.getElem?_mem hs)⟩
  have hsmall : ∀ d, d < (t.size_table + 1) / 2 → key + d * d < U32 := by
    intro d hd
    have hd2 : d ≤ t.size_table / 2 := by omega
    have := Nat.mul_le_mul hd2 hd2
    omega
  have hinj : Set.InjOn (probeIndex t key) (Finset.range ((t.size_table + 1) / 2) : Finset Nat) := by
    intro a ha b hb hab
    have ha' : a < (t.size_table + 1) / 2 := Finset.mem_range.mp ha
    have hb' : b < (t.size_table + 1) / 2 := Finset.mem_range.mp hb
    rw [probeIndex_eq (hsmall a ha'), probeIndex_eq (hsmall b hb')] at hab
    by_contra hne
    rcases Nat.lt_or_gt_of_ne hne with h | h
    · exact probe_ne hp h (by omega) hab
    · exact probe_ne hp h (by omega) hab.symm
  have hcard := Finset.card_image_of_injOn hinj
  rw [Finset.card_range] at hcard
  have hle := card_le_countP (fun s : Slot V => !s.is_empty) t.slot
    ((Finset.range ((t.size_table + 1) / 2)).image (probeIndex t key)) (by
      intro i hi
      rw [Finset.mem_image] at hi
      obtain ⟨d, hd, rfl⟩ := hi
      exact hocc d (Finset.mem_range.mp hd))
  rw [hcard, ← hc.count] at hle
  have := hc.load
  omega

/-- Some probe congruent to `d` lies in every window of `p` consecutive probes. -/
theorem exists_probe_congr {p : Nat} (hp : 0 < p) (q0 d : Nat) (hd : d < p) :
    ∃ q, q0 ≤ q ∧ q < q0 + p ∧ q % p = d := by
  have hdiv := Nat.div_add_mod q0 p
  have hr := Nat.mod_lt q0 hp
  by_cases h : q0 % p ≤ d
  · refine ⟨p * (q0 / p) + d, by omega, by omega, ?_⟩
    rw [Nat.mul_add_mod, Nat.mod_eq_of_lt hd]
  · refine ⟨p * (q0 / p + 1) + d, ?_, ?_, ?_⟩
    · rw [Nat.mul_add, Nat.mul_one]; omega
    · rw [Nat.mul_add, Nat.mul_one]; omega
    · rw [Nat.mul_add_mod, Nat.mod_eq_of_lt hd]

/-- The bucket of a probe taken after the sum `key + q * q` has passed
`2 ^ 32` once. -/
theorem probeIndex_wrapped {t : HashTable V} {key q : Nat} (hpos : 0 < t.size_table)
    (hq : q * q < U32) (hlo : U32 ≤ key + q * q) (hhi : key + q * q < 2 * U32) :
    probeIndex t key q = (key + U32 * (t.size_table - 1) + q * q) % t.size_table := by
  have h0 : (key + q * q) % U32 = key + q * q - U32 := by
    rw [Nat.mod_eq_sub_mod hlo, Nat.mod_eq_of_lt (show key + q * q - U32 < U32 by omega)]
  unfold probeIndex uadd umul
  rw [Nat.mod_eq_of_lt hq, h0]
  have h : key + U32 * (t.size_table - 1) + q * q = (key + q * q - U32) + t.size_table * U32 := by
    have h1 : U32 * (t.size_table - 1) + U32 = t.size_table * U32 := by
      rw [Nat.mul_comm t.size_table, ← Nat.mul_succ]
      congr 1
      omega
    omega
  rw [h, Nat.add_mul_mod_self_left]

/-- Among `p` consecutive probes for any 32-bit key in a table of prime
capacity `p` at most `2 ^ 15` under half load there is a bucket that was never
used, also when the sum `key + q * q` wraps around `2 ^ 32`. -/
theorem exists_free_probe_wrapped {t : HashTable V} (hc : Clean t)
    (hp : Nat.Prime t.size_table) {key : Nat} (hkey : key < U32) (hsize : t.size_table ≤ 32768)
    (hwrap : U32 ≤ key + (t.size_table - 1) * (t.size_table - 1)) :
    ∃ q, q < 2 * t.size_table ∧ ∃ s, t.slot[probeIndex t key q]? = some s ∧
      s.is_empty = true ∧ s.is_deleted = false := by
  by_contra hcon
  have hpos : 0 < t.size_table := hp.pos
  have hocc : ∀ q, q < 2 * t.size_table →
      ∃ s, t.slot[probeIndex t key q]? = some s ∧ (!s.is_empty) = true := by
    intro q hq
    have hlt : probeIndex t key q < t.slot.length := by
      rw [hc.len]
      exact probeIndex_lt t key q hpos
    refine ⟨_, List.getElem?_eq_getElem hlt, ?_⟩
    cases hem : (t.slot[probeIndex t key q]).is_empty
    · rfl
    · exfalso
      exact hcon ⟨q, hq, _, List.getElem?_eq_getElem hlt, hem,
        hc.noTomb _ (List.getElem_mem hlt)⟩
  -- every bucket `(A + d * d) % p` with `d < (p + 1) / 2` is met inside the window
  have hmeet : ∀ d, d < (t.size_table + 1) / 2 →
      ∃ q, q < 2 * t.size_table ∧
        probeIndex t key q = (key + U32 * (t.size_table - 1) + d * d) % t.size_table := by
    intro d hd
    obtain ⟨q, hq0, hq1, hqd⟩ := exists_probe_congr hpos (t.size_table - 1) d (by omega)
    refine ⟨q, by omega, ?_⟩
    have hq65 : q ≤ 65535 := by omega
    have hqq : q * q < U32 := by
      have := Nat.mul_le_mul hq65 hq65
      unfold U32
      omega
    have hlo : U32 ≤ key + q * q := by
      have := Nat.mul_le_mul hq0 hq0
      omega
    rw [probeIndex_wrapped hpos hqq hlo (by omega)]
    have hmod : q ≡ d [MOD t.size_table] := by
      unfold Nat.ModEq
      rw [hqd, Nat.mod_eq_of_lt (by omega)]
    exact Nat.ModEq.add_left _ (Nat.ModEq.mul hmod hmod)
  have hinj : Set.InjOn (fun d => (key + U32 * (t.size_table - 1) + d * d) % t.size_table)
      (Finset.range ((t.size_table + 1) / 2) : Finset Nat) := by
    intro a ha b hb hab
    have ha' : a < (t.size_table + 1) / 2 := Finset.mem_range.mp ha
    have hb' : b < (t.size_table + 1) / 2 := Finset.mem_range.mp hb
    by_contra hne
    rcases Nat.lt_or_gt_of_ne hne with h | h
    · exact probe_ne hp h (by omega) hab
    · exact probe_ne hp h (by omega) hab.symm
  have hcard := Finset.card_image_of_injOn hinj
  rw [Finset.card_range] at hcard
  have hle := card_le_countP (fun s : Slot V => !s.is_empty) t.slot
    ((Finset.range ((t.size_table + 1) / 2)).image
      (fun d => (key + U32 * (t.size_table - 1) + d * d) % t.size_table)) (by
      intro i hi
      rw [Finset.mem_image] at hi
      obtain ⟨d, hd, rfl⟩ := hi
      obtain ⟨q, hq, hqe⟩ := hmeet d (Finset.mem_range.mp hd)
      rw [← hqe]
      exact hocc q hq)
  rw [hcard, ← hc.count] at hle
  have := hc.load
  omega

/-- The loop of `get` returns once a probe within its fuel meets a bucket
that was never used. -/
theorem getLoop_returns {t : HashTable V} {key : Nat} (hz : t.size_table ≠ 0)
    (hslot : ∀ q, ∃ s, t.slot[probeIndex t key q]? = some s) :
    ∀ (fuel q d : Nat), d < fuel →
      (∃ s, t.slot[probeIndex t key (q + d)]? = some s ∧ s.is_empty = true ∧
        s.is_deleted = false) →
      ∃ r, getLoop t key fuel q = .ok r := by
  intro fuel
  induction fuel with
  | zero => intro q d hd; omega
  | succ fuel ih =>
    intro q d hd hstop
    obtain ⟨s, hs⟩ := hslot q
    rw [getLoop_step fuel q hz hs]
    by_cases hc : (!s.is_empty && s.key == key) = true
    · rw [if_pos hc]
      exact ⟨_, rfl⟩
    · rw [if_neg hc]
      by_cases hc2 : (s.is_empty && !s.is_deleted) = true
      · rw [if_pos hc2]
        exact ⟨_, rfl⟩
      · rw [if_neg hc2]
        cases d with
        | zero =>
          exfalso
          obtain ⟨s', hs', he, hdel⟩ := hstop
          rw [Nat.add_zero, hs] at hs'
          cases hs'
          rw [he, hdel] at hc2
          exact hc2 rfl
        | succ d =>
          apply ih (q + 1) d (by omega)
          rw [Nat.add_assoc, Nat.add_comm 1 d]
          exact hstop

/-- In a table of prime capacity that has only been inserted into, `get`
returns for every key in range. -/
theorem get_returns {t : HashTable V} (hc : Clean t) (hp : Nat.Prime t.size_table)
    {key : Nat} (hrange : InRange t.size_table key) :
    ∃ r, t.get key = .ok r := by
  have hpos : 0 < t.size_table := hp.pos
  have hslot : ∀ q, ∃ s, t.slot[probeIndex t key q]? = some s := by
    intro q
    have hlt : probeIndex t key q < t.slot.length := by
      rw [hc.len]
      exact probeIndex_lt t key q hpos
    exact ⟨_, List.getElem?_eq_getElem hlt⟩
  have hsmall := hc.small
  have hfree : ∃ d, d < U32 ∧ ∃ s, t.slot[probeIndex t key d]? = some s ∧
      s.is_empty = true ∧ s.is_deleted = false := by
    by_cases hnowrap : key + (t.size_table / 2) * (t.size_table / 2) < U32
    · obtain ⟨d, hd, hstop⟩ := exists_free_probe hc hp hnowrap
      exact ⟨d, by omega, hstop⟩
    · rcases hrange with h | ⟨hkey, hsize⟩
      · exact absurd h hnowrap
      · have hmono : (t.size_table / 2) * (t.size_table / 2) ≤
            (t.size_table - 1) * (t.size_table - 1) :=
          Nat.mul_le_mul (by omega) (by omega)
        obtain ⟨q, hq, hstop⟩ := exists_free_probe_wrapped hc hp hkey hsize (by omega)
        exact ⟨q, by unfold U32; omega, hstop⟩
  obtain ⟨d, hd, hstop⟩ := hfree
  unfold get
  exact getLoop_returns (by omega) hslot U32 0 d hd (by rw [Nat.zero_add]; exact hstop)

/-- An `insert` into a table with room for one more returns. -/
theorem insertAux_returns (hjunk : Nat → Nat → Nat × V) (d : Nat) {t : HashTable V} (hc : Clean t)
    (hp : Nat.Prime t.size_table) {key : Nat} (v : V) (hrange : InRange t.size_table key)
    (hroom : growNeeded t = false) :
    ∃ r, insertAux hjunk (d + 1) t key (.direct v) = .ok r := by
  obtain ⟨r, hr⟩ := get_returns hc hp hrange
  obtain ⟨r', hr'⟩ := insertLoop_returns hc.noTomb U32 0 (probeIndex t key 0) r hr
  unfold insertAux
  rw [hr', ok_bind]
  cases r' with
  | none => exact ⟨_, rfl⟩
  | some e =>
    simp only [hroom, Bool.false_eq_true, if_false]
    exact ⟨_, rfl⟩

/-- Re-inserting a list of pairs into a table of prime capacity with room
for all of them returns. -/
theorem foldlM_returns (hjunk : Nat → Nat → Nat × V) (d : Nat) :
    ∀ (rest : List (Nat × V)) (acc : HashTable V), Clean acc → Nat.Prime acc.size_table →
      2 * (acc.num_element + rest.length) < acc.size_table →
      (∀ kv ∈ rest, InRange acc.size_table kv.1) →
      ∃ t1, rest.foldlM
        (fun acc kv => (insertAux hjunk (d + 1) acc kv.1 (.direct kv.2)).map Prod.snd) acc
        = .ok t1 := by
  intro rest
  induction rest with
  | nil => intro acc _ _ _ _; exact ⟨acc, rfl⟩
  | cons kv rest ih =>
    intro acc hc hp hroom hrange
    simp only [List.length_cons] at hroom
    have hg : growNeeded acc = false := by
      unfold growNeeded
      have := uadd_one_le acc.num_element
      simp only [decide_eq_false_iff_not, not_le]
      omega
    obtain ⟨⟨b, acc'⟩, hi⟩ := insertAux_returns hjunk d hc hp kv.2
      (hrange kv (List.mem_cons_self _ _)) hg
    obtain ⟨hs, hn⟩ := insertAux_room hjunk d acc kv.1 _ b acc' (by omega) hi
    have hc' : Clean acc' := by
      rcases insertAux_spec hjunk _ acc kv.1 kv.2 b acc' hc hi with ⟨_, rfl, _⟩ | ⟨_, hadd⟩
      · exact hc
      · exact hadd.clean
    obtain ⟨t1, ht1⟩ := ih acc' hc' (by rw [hs]; exact hp) (by rw [hs]; omega)
      (fun kv' hkv' => by rw [hs]; exact hrange kv' (List.mem_cons_of_mem _ hkv'))
    refine ⟨t1, ?_⟩
    rw [List.foldlM_cons, hi]
    exact ht1

/-- A growing `insert` of an absent key into a table that has only been
inserted into, with the capacity and the keys in the range where no probe
wraps around `2 ^ 32`. -/
theorem insert_grow_total (hjunk : Nat → Nat → Nat × V) {t : HashTable V} (k : Nat) (v : V)
    (hc : Clean t)
    (hkeys : ∀ κ ∈ k :: occupiedKeys t,
      (κ < U32 ∧ t.size_table ≤ 8192) ∨ κ + (2 * t.size_table) ^ 2 < U32)
    (habs : t.get k = .ok none) (hg : growNeeded t = true) :
    ∃ t', insert hjunk t k v = .ok (true, t') ∧ Added t t' k v ∧
      2 * t.size_table < t'.size_table := by
  have hload := hc.load
  have hpos : 1 ≤ t.size_table := by omega
  have hsq : 4 * t.size_table ≤ (2 * t.size_table) ^ 2 := by
    rw [sq]
    calc 4 * t.size_table = 2 * (2 * t.size_table) := by omega
      _ ≤ (2 * t.size_table) * (2 * t.size_table) := Nat.mul_le_mul_right _ (by omega)
  have hrange4 : 4 * t.size_table ≤ U32 := by
    rcases hkeys k (List.mem_cons_self _ _) with ⟨_, h⟩ | h
    · unfold U32; omega
    · omega
  -- the loop of insert
  obtain ⟨r', hr'⟩ := insertLoop_returns hc.noTomb U32 0 (probeIndex t k 0) none habs
  have hloop : ∃ e, insertLoop t k U32 0 false (probeIndex t k 0) = .ok (some e) := by
    cases r' with
    | none =>
      obtain ⟨j, hj⟩ := insertLoop_none hc.noTomb _ _ _ hr'
      have habs' : getLoop t k U32 0 = .ok none := habs
      rw [habs'] at hj
      cases hj
    | some e => exact ⟨e, hr'⟩
  obtain ⟨e, hloop⟩ := hloop
  -- the new capacity
  obtain ⟨p, hnp⟩ := nextPrime_of_double_returns hpos hrange4
  obtain ⟨hp, hlt, hle, _⟩ := nextPrime_of_double hpos hrange4 hnp
  have hhalf : p / 2 ≤ 2 * t.size_table := by omega
  have hsmall : ∀ κ ∈ k :: occupiedKeys t, InRange p κ := by
    intro κ hκ
    rcases hkeys κ hκ with ⟨h1, h2⟩ | h1
    · exact Or.inr ⟨h1, by omega⟩
    · left
      have h2 := Nat.mul_le_mul hhalf hhalf
      rw [sq] at h1
      omega
  have hfresh := refilled_fresh hjunk (p := p) (by omega) (nextPrimeLoop_lt _ _ _ hnp)
  have hlen := liveEntries_length hc
  -- the pairs are re-inserted
  obtain ⟨t1, hfold⟩ := foldlM_returns hjunk 6 (liveEntries t) _ hfresh.clean hp
    (by show 2 * (0 + (liveEntries t).length) < p; omega)
    (fun kv hkv => hsmall kv.1 (List.mem_cons_of_mem _ (liveEntries_key_occupied hc hkv)))
  obtain ⟨hs1, hn1⟩ := foldlM_room hjunk 6 (liveEntries t) _ t1
    (by show 2 * (0 + (liveEntries t).length) < p; omega) hfold
  have hs1' : t1.size_table = p := hs1
  have hn1' : t1.num_element ≤ 0 + (liveEntries t).length := hn1
  have hrefill := foldlM_refill (insertAux hjunk 7)
    (fun acc κ w b acc' hacc hi => by
      rcases insertAux_spec hjunk 7 acc κ w b acc' hacc hi with ⟨hb, _, hj⟩ | hadd
      · exact Or.inl ⟨hb, hj⟩
      · exact Or.inr hadd)
    (liveEntries t) [] _ t1 hfresh
    (by rw [List.nil_append]; exact liveEntries_nodup hc) hfold
  -- the new pair is inserted
  have hg1 : growNeeded t1 = false := by
    unfold growNeeded
    have := uadd_one_le t1.num_element
    simp only [decide_eq_false_iff_not, not_le]
    omega
  obtain ⟨⟨b1, t'⟩, hlast⟩ := insertAux_returns hjunk 6 hrefill.clean (by rw [hs1']; exact hp) v
    (by rw [hs1']; exact hsmall k (List.mem_cons_self _ _)) hg1
  obtain ⟨hs2, _⟩ := insertAux_room hjunk 6 t1 k _ b1 t' (by rw [hs1']; omega) hlast
  have hrun : insert hjunk t k v = .ok (true, t') := by
    unfold insert insertDepth insertAux
    rw [hloop, ok_bind]
    simp only
    rw [if_pos hg]
    unfold rehash
    rw [if_pos hg, hnp, ok_bind]
    simp only
    rw [hfold, ok_bind]
    simp only [ValueRef.afterDelete]
    rw [hlast]
    rfl
  refine ⟨t', hrun, ?_, by rw [hs2, hs1']; exact hlt⟩
  rcases insertAux_spec hjunk 8 t k v true t' hc hrun with ⟨h, _⟩ | ⟨_, hadd⟩
  · cases h
  · exact hadd

theorem getElem?_packedSlots (c m i : Nat) (h : i < c) :
    (packedSlots c m)[i]? = some
      (if i < m then { key := i, value := 0, is_empty := false, is_deleted := false }
       else { key := 0, value := 0, is_empty := true, is_deleted := false }) := by
  unfold packedSlots
  rw [List.getElem?_map, List.getElem?_range h]
  rfl

theorem length_packedSlots (c m : Nat) : (packedSlots c m).length = c := by
  unfold packedSlots
  rw [List.length_map, List.length_range]

theorem packedSlots_zero (c : Nat) : freshSlots PriorityQueue.zeroHJunk c = packedSlots c 0 := by
  unfold packedSlots freshSlots
  apply List.map_congr_left
  intro i _
  rfl

theorem packedSlots_set (c m : Nat) :
    (packedSlots c m).set m { key := m, value := 0, is_empty := false, is_deleted := false }
      = packedSlots c (m + 1) := by
  apply List.ext_getElem?
  intro i
  by_cases hi : i < c
  · rw [getElem?_packedSlots c (m + 1) i hi]
    by_cases him : i = m
    · subst him
      rw [List.getElem?_set_self (by rw [length_packedSlots]; exact hi)]
      rw [if_pos (by omega)]
    · rw [List.getElem?_set_ne (Ne.symm him), getElem?_packedSlots c m i hi]
      by_cases hlt : i < m
      · rw [if_pos hlt, if_pos (by omega)]
      · rw [if_neg hlt, if_neg (by omega)]
  · have h1 : (packedSlots c (m + 1))[i]? = none :=
      List.getElem?_eq_none (by rw [length_packedSlots]; omega)
    have h2 : ((packedSlots c m).set m
        { key := m, value := 0, is_empty := false, is_deleted := false })[i]? = none :=
      List.getElem?_eq_none (by rw [List.length_set, length_packedSlots]; omega)
    rw [h1, h2]

theorem probe_packed (c m : Nat) (hm : m < c) (hc : c < U32) : probeIndex (packed c m) m 0 = m := by
  unfold probeIndex uadd umul
  show (m + 0 * 0 % U32) % U32 % c = m
  rw [Nat.zero_mul, Nat.zero_mod, Nat.add_zero, Nat.mod_eq_of_lt (show m < U32 by omega),
    Nat.mod_eq_of_lt hm]

theorem packed_slot_free (c m : Nat) (hm : m < c) (hc : c < U32) :
    (packed c m).slot[probeIndex (packed c m) m 0]? =
      some { key := 0, value := 0, is_empty := true, is_deleted := false } := by
  rw [probe_packed c m hm hc]
  show (packedSlots c m)[m]? = _
  rw [getElem?_packedSlots c m m hm, if_neg (by omega)]

/-- Inserting the next key into a packed table with room for it. -/
theorem insert_packed (c m : Nat) (hroom : 2 * (m + 1) < c) (hc : c < U32) :
    insert PriorityQueue.zeroHJunk (packed c m) m 0 = .ok (true, packed c (m + 1)) := by
  have hm : m < c := by omega
  have hn : uadd m 1 = m + 1 := by
    unfold uadd
    exact Nat.mod_eq_of_lt (by omega)
  have hg : growNeeded (packed c m) = false := by
    unfold growNeeded
    show decide (c ≤ 2 * uadd m 1) = false
    rw [hn]
    simp only [decide_eq_false_iff_not, not_le]
    exact hroom
  have h := @insertAux_store Nat PriorityQueue.zeroHJunk 7 (packed c m) m 0 _
    (show c ≠ 0 by omega) (packed_slot_free c m hm hc) rfl rfl hg
  unfold insert insertDepth
  rw [h, probe_packed c m hm hc]
  unfold store packed
  simp only
  rw [packedSlots_set, hn]

/-- The calls `insert(j, 0), ..., insert(j + n - 1, 0)` on a packed table with
room for them. -/
theorem trun_packed (c : Nat) (hc : c < U32) :
    ∀ (n j : Nat), 2 * (j + n) < c →
      trun PriorityQueue.zeroHJunk (packed c j)
        ((List.range' j n).map fun i => TableOp.insert i 0) = .ok (packed c (j + n)) := by
  intro n
  induction n with
  | zero => intro j _; rfl
  | succ n ih =>
    intro j h
    rw [List.range'_succ, List.map_cons]
    have ht : tstep PriorityQueue.zeroHJunk (packed c j) (TableOp.insert j 0)
        = .ok (1, packed c (j + 1)) := by
      unfold tstep
      simp only
      rw [insert_packed c j (by omega) hc]
      rfl
    unfold trun
    rw [ht, ok_bind]
    simp only
    rw [ih (j + 1) (by omega)]
    congr 2
    omega

theorem packed_reachable (c m : Nat) (hp : Nat.Prime c) (hc : c < U32) (hm : 2 * m < c) :
    TableReachable PriorityQueue.zeroHJunk c (fun op => op.isInsert = true) (packed c m) := by
  refine ⟨packed c 0, (List.range' 0 m).map fun i => TableOp.insert i 0, ?_, ?_, ?_⟩
  · unfold new
    rw [if_neg hp.pos.ne', ctorHasDivisor_of_prime hp]
    simp only [Bool.false_eq_true, if_false]
    unfold packed
    rw [packedSlots_zero]
  · intro op hop
    rw [List.mem_map] at hop
    obtain ⟨i, _, rfl⟩ := hop
    rfl
  · have := trun_packed c hc m 0 (by omega)
    rw [Nat.zero_add] at this
    exact this

theorem not_isPrimeTrial_of_dvd {n i : Nat} (h2 : 2 ≤ i) (hi : i < n) (hm : n % i = 0) :
    isPrimeTrial n = false := by
  rw [Bool.eq_false_iff]
  intro h
  rw [isPrimeTrial_iff] at h
  rcases h i hi with h | h
  · omega
  · exact h hm

theorem nextPrimeLoop_succ (fuel s : Nat) :
    nextPrimeLoop (fuel + 1) s =
      if isPrimeTrial (uadd s 1) then .ok (uadd s 1) else nextPrimeLoop fuel (uadd s 1) := by
  rw [nextPrimeLoop]

/-- From capacity 2147483647 the doubled capacity is 4294967294; the search
for the next prime passes 4294967295, wraps to 0 and stops there. -/
theorem nextPrime_wraps_to_zero : nextPrimeLoop U32 (umul 2147483647 2) = .ok 0 := by
  have hfuel : U32 = 4294967294 + 1 + 1 := rfl
  have h1 : umul 2147483647 2 = 4294967294 := by decide
  have h2 : uadd 4294967294 1 = 4294967295 := by decide
  have h3 : uadd 4294967295 1 = 0 := by decide
  have h4 : isPrimeTrial 4294967295 = false :=
    not_isPrimeTrial_of_dvd (i := 3) (by norm_num) (by norm_num) (by norm_num)
  have h5 : isPrimeTrial 0 = true := by decide
  rw [hfuel, h1, nextPrimeLoop_succ, h2, h4, nextPrimeLoop_succ, h3, h5]
  rfl

theorem insertAux_zero_size (hjunk : Nat → Nat → Nat × V) (d : Nat) {t : HashTable V} (k : Nat)
    (val : ValueRef V) (h : t.size_table = 0) :
    insertAux hjunk (d + 1) t k val = .error .divByZero := by
  unfold insertAux
  rw [U32_succ, insertLoop, if_pos h]
  rfl

theorem getLoop_stop {t : HashTable V} {key : Nat} (fuel q : Nat) (tmp : Slot V)
    (hsz : t.size_table ≠ 0) (hs : t.slot[probeIndex t key q]? = some tmp)
    (he : tmp.is_empty = true) (hd : tmp.is_deleted = false) :
    getLoop t key (fuel + 1) q = .ok none := by
  rw [getLoop_step fuel q hsz hs]
  simp only [he, hd, Bool.not_true, Bool.false_and, Bool.false_eq_true, if_false,
    Bool.not_false, Bool.and_self, if_true]

end HashTable

namespace PriorityQueue

variable {V : Type}

theorem insert_false (junk : Nat → Slot_queue V) (hjunk : Nat → Nat → Nat × Nat)
    (pq pq' : PriorityQueue V) (key : Nat) (value : V)
    (h : insert junk hjunk pq key value = .ok (false, pq')) : pq' = pq := by
  unfold insert at h
  split at h
  · cases h; rfl
  · cases hg : pq.mapping.get key with
    | error e => rw [hg] at h; cases h
    | ok mp =>
      rw [hg, ok_bind] at h
      cases mp with
      | some p => cases h; rfl
      | none =>
        exfalso
        apply false_of_onlyTrue h
        iterate 3 (refine onlyTrue_bind _ _ fun _ => ?_)
        exact onlyTrue_pure _

theorem deleteMin_false (junk : Nat → Slot_queue V) (pq pq' : PriorityQueue V)
    (h : deleteMin junk pq = .ok (false, pq')) : pq' = pq := by
  unfold deleteMin at h
  split at h
  · cases h; rfl
  · exfalso
    apply false_of_onlyTrue h
    iterate 5 (refine onlyTrue_bind _ _ fun _ => ?_)
    exact onlyTrue_pure _

theorem remove_false (junk : Nat → Slot_queue V) (pq pq' : PriorityQueue V) (key : Nat)
    (h : remove junk pq key = .ok (false, pq')) : pq' = pq := by
  unfold remove at h
  cases hg : pq.mapping.get key with
  | error e => rw [hg] at h; cases h
  | ok mp =>
    rw [hg, ok_bind] at h
    cases mp with
    | none => cases h; rfl
    | some p =>
      exfalso
      apply false_of_onlyTrue h
      iterate 11 (refine onlyTrue_bind _ _ fun _ => ?_)
      exact onlyTrue_pure _

theorem decreaseKey_false (junk : Nat → Slot_queue V) (hjunk : Nat → Nat → Nat × Nat)
    (pq pq' : PriorityQueue V) (key change : Nat)
    (h : decreaseKey junk hjunk pq key change = .ok (false, pq')) : pq' = pq := by
  unfold decreaseKey at h
  cases hg : pq.mapping.get key with
  | error e => rw [hg] at h; cases h
  | ok mp =>
    rw [hg, ok_bind] at h
    cases mp with
    | none => cases h; rfl
    | some p =>
      simp only at h
      split at h
      · cases h; rfl
      · cases hg2 : pq.mapping.get (usub key change) with
        | error e => rw [hg2] at h; cases h
        | ok mp2 =>
          rw [hg2, ok_bind] at h
          cases mp2 with
          | some p2 => cases h; rfl
          | none =>
            exfalso
            apply false_of_onlyTrue h
            refine onlyTrue_bind _ _ fun _ => ?_
            split <;>
              (iterate 5 (refine onlyTrue_bind _ _ fun _ => ?_)
               exact onlyTrue_pure _)

theorem increaseKey_false (junk : Nat → Slot_queue V) (hjunk : Nat → Nat → Nat × Nat)
    (pq pq' : PriorityQueue V) (key change : Nat)
    (h : increaseKey junk hjunk pq key change = .ok (false, pq')) : pq' = pq := by
  unfold increaseKey at h
  cases hg : pq.mapping.get key with
  | error e => rw [hg] at h; cases h
  | ok mp =>
    rw [hg, ok_bind] at h
    cases mp with
    | none => cases h; rfl
    | some p =>
      simp only at h
      split at h
      · cases h; rfl
      · cases hg2 : pq.mapping.get (usub key change) with
        | error e => rw [hg2] at h; cases h
        | ok mp2 =>
          rw [hg2, ok_bind] at h
          cases mp2 with
          | some p2 => cases h; rfl
          | none =>
            exfalso
            apply false_of_onlyTrue h
            refine onlyTrue_bind _ _ fun _ => ?_
            split <;>
              (iterate 5 (refine onlyTrue_bind _ _ fun _ => ?_)
               exact onlyTrue_pure _)

/-! ## The claim about failed calls -/

/-- C11 (failed operations are no-ops): whenever `insert`, `deleteMin`,
`remove`, `decreaseKey` or `increaseKey` returns false, the queue it leaves
behind is the queue it was called on: same array, same counter, same capacity
and same index table. -/
theorem failed_call_changes_nothing (junk : Nat → Slot_queue V)
    (hjunk : Nat → Nat → Nat × Nat) (pq pq' : PriorityQueue V) (op : Op V)
    (h : step junk hjunk pq op = .ok (false, pq')) : pq' = pq := by
  cases op with
  | insert key value => exact insert_false junk hjunk pq pq' key value h
  | deleteMin => exact deleteMin_false junk pq pq' h
  | remove key => exact remove_false junk pq pq' key h
  | decreaseKey key change => exact decreaseKey_false junk hjunk pq pq' key change h
  | increaseKey key change => exact increaseKey_false junk hjunk pq pq' key change h

/-- C11, at the queue of the demonstration program: `insert(10, 9)` is
rejected as a duplicate and leaves the queue as it was. -/
theorem failed_call_changes_nothing_witness :
    step zeroJunk zeroHJunk demoQueue (.insert 10 9) = .ok (false, demoAfterRejected) ∧
    demoAfterRejected = demoQueue :=
  ⟨by decide,
    failed_call_changes_nothing zeroJunk zeroHJunk demoQueue demoAfterRejected (.insert 10 9)
      (by decide)⟩

end PriorityQueue

namespace HashTable

variable {V : Type}

/-! ## The claims about the table -/

/-- C12 (the constructor rejects every size that is not prime): `HashTable(4)`
and `HashTable(1)` succeed, with 4 and 1 buckets, although neither 4 nor 1 is
prime.  The divisor loop runs over `2 <= i < tableSize / 2` and so never tries
the divisor 2 of 4. -/
theorem new_accepts_four :
    (new PriorityQueue.zeroHJunk 4).map
      (fun t => (t.size_table, t.slot.length, t.num_element)) = .ok (4, 4, 0) ∧
    (new PriorityQueue.zeroHJunk 1).map
      (fun t => (t.size_table, t.slot.length, t.num_element)) = .ok (1, 1, 0) ∧
    ¬ Nat.Prime 4 ∧ ¬ Nat.Prime 1 := by
  refine ⟨by decide, by decide, by norm_num, by norm_num⟩

/-- C13 (insert of an absent key raises the count by one): after `insert 1`,
`insert 2`, `remove 1`, `remove 1`, `insert 3`, `insert 4` on a table of 5
buckets the counter is 2 while three buckets are Occupied (the second
`remove(1)` matched the tombstone of key 1 and decremented again).
`insert(5, 50)` of the absent key 5 grows the table and recounts: the counter
goes from 2 to 4. -/
theorem insert_count_jumps_after_double_remove :
    (tableFrom 5 [.insert 1 10, .insert 2 20, .remove 1, .remove 1, .insert 3 30,
        .insert 4 40] >>= fun t =>
      (insert PriorityQueue.zeroHJunk t 5 50).map
        (fun r => (t.get 5, t.num_element, r.1, r.2.num_element)))
      = .ok (.ok none, 2, true, 4) ∧
    ∃ t, TableReachable PriorityQueue.zeroHJunk 5 (fun _ => True) t ∧ t.get 5 = .ok none ∧
      ∃ t', insert PriorityQueue.zeroHJunk t 5 50 = .ok (true, t') ∧
        t'.num_element ≠ t.num_element + 1 := by
  refine ⟨by decide, ?_⟩
  have h : (tableFrom 5 [.insert 1 10, .insert 2 20, .remove 1, .remove 1, .insert 3 30,
      .insert 4 40]).map
      (fun t => (t.get 5, t.num_element,
        (insert PriorityQueue.zeroHJunk t 5 50).map (fun r => (r.1, r.2.num_element))))
      = .ok (.ok none, 2, .ok (true, 4)) := by
    decide
  obtain ⟨t, ht, hval⟩ := exists_of_map_eq h
  have hn : t.num_element = 2 := congrArg (fun x => x.2.1) hval
  have hins : (insert PriorityQueue.zeroHJunk t 5 50).map (fun r => (r.1, r.2.num_element))
      = .ok (true, 4) := congrArg (fun x => x.2.2) hval
  obtain ⟨r, hr, hrv⟩ := exists_of_map_eq hins
  have hr1 : r.1 = true := congrArg (fun x => x.1) hrv
  have hr2 : r.2.num_element = 4 := congrArg (fun x => x.2) hrv
  refine ⟨t, tableReachable_of_tableFrom (fun _ _ => trivial) ht,
    congrArg (fun x => x.1) hval, r.2, ?_, ?_⟩
  · rw [hr, ← hr1]
  · rw [hr2, hn]
    decide

/-- C14 (remove of an absent key returns false and changes nothing): after
`insert(1, 10)` and `remove(1)` key 1 is absent (`get` answers null), yet a
second `remove(1)` returns true and decrements the counter from 0 to
`2 ^ 32 - 1`: `remove` compares `slot.key` without looking at `is_empty`. -/
theorem remove_twice_succeeds_twice :
    (tableFrom 5 [.insert 1 10, .remove 1] >>= fun t =>
      (remove t 1).map (fun r => (t.get 1, t.num_element, r.1, r.2.num_element)))
      = .ok (.ok none, 0, true, 4294967295) ∧
    ∃ t, TableReachable PriorityQueue.zeroHJunk 5 (fun op => op.plain = true) t ∧
      t.get 1 = .ok none ∧ remove t 1 ≠ .ok (false, t) := by
  refine ⟨by decide, ?_⟩
  have h : (tableFrom 5 [.insert 1 10, .remove 1]).map
      (fun t => (t.get 1, (remove t 1).map (fun r => r.1))) = .ok (.ok none, .ok true) := by
    decide
  obtain ⟨t, ht, hval⟩ := exists_of_map_eq h
  refine ⟨t, tableReachable_of_tableFrom (by decide) ht, congrArg (fun x => x.1) hval, ?_⟩
  intro hrem
  have h2 : (remove t 1).map (fun r => r.1) = .ok true := congrArg (fun x => x.2) hval
  rw [hrem] at h2
  cases h2

/-- C15 (remove of a present key succeeds past tombstones): after
`insert(1, 10)`, `insert(12, 20)`, `remove(1)` on a table of 11 buckets key 12
is present behind the tombstone of key 1; `remove(12)` stops at that tombstone,
returns false and leaves the table as it was, key 12 still present. -/
theorem remove_stops_at_tombstone :
    (tableFrom 11 [.insert 1 10, .insert 12 20, .remove 1] >>= fun t =>
      (remove t 12).map (fun r => (t.lookup 12, r.1, r.2.num_element, r.2.lookup 12)))
      = .ok (.ok (some 20), false, 1, .ok (some 20)) ∧
    ∃ t, TableReachable PriorityQueue.zeroHJunk 11 (fun op => op.plain = true) t ∧
      t.lookup 12 = .ok (some 20) ∧ remove t 12 = .ok (false, t) := by
  refine ⟨by decide, ?_⟩
  have h : (tableFrom 11 [.insert 1 10, .insert 12 20, .remove 1]).map
      (fun t => (t.lookup 12, decide (remove t 12 = .ok (false, t)))) = .ok (.ok (some 20), true) := by
    decide
  obtain ⟨t, ht, hval⟩ := exists_of_map_eq h
  exact ⟨t, tableReachable_of_tableFrom (by decide) ht, congrArg (fun x => x.1) hval,
    of_decide_eq_true (congrArg (fun x => x.2) hval)⟩

/-- The capacity a grow moves to from capacity `c`, while a prime lies between
`2 * c` and `2 ^ 32`: the least prime above `2 * c`. -/
theorem nextPrime_of_double_below {c p : Nat} (hc : 1 ≤ c) (hrange : 2 * c < 4294967291)
    (h : nextPrimeLoop U32 (umul c 2) = .ok p) :
    Nat.Prime p ∧ 2 * c < p ∧ p < U32 ∧ ∀ r, Nat.Prime r → 2 * c < r → p ≤ r := by
  have hm : umul c 2 = 2 * c := by
    unfold umul U32
    rw [Nat.mod_eq_of_lt (by omega)]
    omega
  rw [hm] at h
  obtain ⟨hp, hlt, hmin⟩ := nextPrimeLoop_least U32 (2 * c) p h (by omega)
    ⟨4294967291, prime_4294967291, hrange, by decide⟩
  exact ⟨hp, hlt, nextPrimeLoop_lt _ _ _ h, hmin⟩

theorem nextPrime_of_double_below_returns {c : Nat} (hc : 1 ≤ c) (hrange : 2 * c < 4294967291) :
    ∃ p, nextPrimeLoop U32 (umul c 2) = .ok p := by
  have hm : umul c 2 = 2 * c := by
    unfold umul U32
    rw [Nat.mod_eq_of_lt (by omega)]
    omega
  rw [hm]
  exact nextPrimeLoop_returns U32 (2 * c)
    ⟨4294967291, prime_4294967291, hrange, by decide, by unfold U32; omega⟩

/-- Re-inserting into a table of no buckets divides by zero, unless there is
nothing to re-insert. -/
theorem foldlM_zero_size (hjunk : Nat → Nat → Nat × V) (d : Nat) (l : List (Nat × V))
    (t0 t1 : HashTable V) (h0 : t0.size_table = 0)
    (h : l.foldlM (fun acc kv => (insertAux hjunk (d + 1) acc kv.1 (.direct kv.2)).map Prod.snd) t0
      = .ok t1) : t1.size_table = 0 := by
  cases l with
  | nil =>
    cases h
    exact h0
  | cons kv rest =>
    rw [List.foldlM_cons, insertAux_zero_size hjunk d kv.1 _ h0] at h
    cases h

/-- A returning `insert` into a table of prime capacity `c` under half load,
with `2 * c` within 32 bits. -/
theorem insertAux_load (hjunk : Nat → Nat → Nat × V) (d : Nat) (t : HashTable V) (key : Nat)
    (value : ValueRef V) (b : Bool) (t' : HashTable V)
    (hprime : Nat.Prime t.size_table) (hload : 2 * t.num_element < t.size_table)
    (hrange : 2 * t.size_table < U32)
    (h : insertAux hjunk (d + 3) t key value = .ok (b, t')) :
    Nat.Prime t'.size_table ∧ 2 * t'.num_element < t'.size_table ∧
    (t'.size_table ≠ t.size_table →
      b = true ∧ growNeeded t = true ∧ 2 * t.size_table < t'.size_table ∧
      ∀ r, Nat.Prime r → 2 * t.size_table ≤ r → t'.size_table ≤ r) := by
  have hU : U32 = 4294967296 := rfl
  have hn : uadd t.num_element 1 = t.num_element + 1 := by
    unfold uadd
    exact Nat.mod_eq_of_lt (by omega)
  rcases insertAux_cases hjunk (d + 2) t key value b t' h with ⟨_, rfl⟩ | ⟨_, hg, idx, v, rfl⟩ |
    ⟨hb, hg, ⟨idx, hidx⟩, hre⟩
  · exact ⟨hprime, hload, fun hne => absurd rfl hne⟩
  · refine ⟨hprime, ?_, fun hne => absurd rfl hne⟩
    unfold growNeeded at hg
    simp only [decide_eq_false_iff_not, not_le] at hg
    show 2 * uadd t.num_element 1 < t.size_table
    exact hg
  · obtain ⟨size, t1, b1, hnp, hfold, hlast⟩ := rehash_cases hjunk _ t key value t' hg hre
    by_cases hbelow : 2 * t.size_table < 4294967291
    · obtain ⟨hp, hlt, _, hmin⟩ := nextPrime_of_double_below hprime.one_lt.le hbelow hnp
      obtain ⟨x, tmp, hx, hs, he⟩ := insertLoop_some _ _ _ _ _ hidx
      have hcount := liveEntries_length_lt hx hs he
      obtain ⟨hs1, hn1⟩ := foldlM_room hjunk (d + 1) (liveEntries t) _ t1
        (by simp only [Nat.zero_add]; omega) hfold
      simp only [Nat.zero_add] at hs1 hn1
      obtain ⟨hs2, hn2⟩ := insertAux_room hjunk (d + 1) t1 key _ b1 t' (by rw [hs1]; omega) hlast
      rw [hs1] at hs2
      refine ⟨by rw [hs2]; exact hp, by rw [hs2]; omega,
        fun _ => ⟨hb, hg, by rw [hs2]; exact hlt, ?_⟩⟩
      intro r hr h2
      rw [hs2]
      refine hmin r hr (lt_of_le_of_ne h2 ?_)
      rintro rfl
      have h2p : (2 : Nat) ∣ 2 * t.size_table := Dvd.intro _ rfl
      rcases (Nat.dvd_prime hr).mp h2p with h1 | h1
      · omega
      · have := hprime.one_lt
        omega
    · exfalso
      have hsz : t.size_table = 2147483647 := by
        rcases Nat.lt_or_ge t.size_table 2147483647 with h1 | h1
        · have h2 : t.size_table = 2147483646 := by omega
          rw [h2] at hprime
          exact absurd hprime (by norm_num)
        · omega
      rw [hsz, nextPrime_wraps_to_zero] at hnp
      injection hnp with hnp
      subst hnp
      have h1 : t1.size_table = 0 := foldlM_zero_size hjunk (d + 1) _ _ t1 rfl hfold
      rw [insertAux_zero_size hjunk (d + 1) key _ h1] at hlast
      cases hlast

theorem filterMap_range_lt {β : Type} (g : Nat → β) (m : Nat) :
    ∀ c, (List.range c).filterMap (fun i => if i < m then some (g i) else none) =
      (List.range (min m c)).map g := by
  intro c
  induction c with
  | zero => simp
  | succ c ih =>
    rw [List.range_succ, List.filterMap_append, ih]
    by_cases h : c < m
    · have hmin : min m (c + 1) = min m c + 1 := by omega
      rw [hmin, List.range_succ, List.map_append]
      have hc : min m c = c := by omega
      simp [h, hc]
    · have hmin : min m (c + 1) = min m c := by omega
      rw [hmin]
      simp [h]

/-- The pairs a grow copies out of a packed table. -/
theorem liveEntries_packed (c m : Nat) (h : m ≤ c) :
    liveEntries (packed c m) = (List.range' 0 m).map fun i => (i, 0) := by
  unfold liveEntries packed
  simp only
  rw [List.take_of_length_le (by rw [length_packedSlots])]
  unfold packedSlots
  rw [List.filterMap_map, ← List.range_eq_range']
  have hfun : ((fun s : Slot Nat =>
        if (!s.is_empty && !s.is_deleted) = true then some (s.key, s.value) else none) ∘
      fun i => if i < m then
        ({ key := i, value := 0, is_empty := false, is_deleted := false } : Slot Nat)
      else { key := 0, value := 0, is_empty := true, is_deleted := false }) =
      fun i => if i < m then some (i, 0) else none := by
    funext i
    by_cases hi : i < m
    · simp [hi]
    · simp [hi]
  rw [hfun, filterMap_range_lt (fun i => (i, 0)) m c, Nat.min_eq_left h]

/-- Inserting the next key into a packed table with room for it, at any
nesting depth. -/
theorem insertAux_packed (d c m : Nat) (hroom : 2 * (m + 1) < c) (hc : c < U32) :
    insertAux PriorityQueue.zeroHJunk (d + 1) (packed c m) m (.direct 0) =
      .ok (true, packed c (m + 1)) := by
  have hm : m < c := by omega
  have hn : uadd m 1 = m + 1 := by
    unfold uadd
    exact Nat.mod_eq_of_lt (by omega)
  have hg : growNeeded (packed c m) = false := by
    unfold growNeeded
    show decide (c ≤ 2 * uadd m 1) = false
    rw [hn]
    simp only [decide_eq_false_iff_not, not_le]
    exact hroom
  have h := @insertAux_store Nat PriorityQueue.zeroHJunk d (packed c m) m 0 _
    (show c ≠ 0 by omega) (packed_slot_free c m hm hc) rfl rfl hg
  rw [h, probe_packed c m hm hc]
  unfold store packed
  simp only
  rw [packedSlots_set, hn]

/-- Re-inserting the pairs `(j, 0), ..., (j + n - 1, 0)` into a packed table
with room for them. -/
theorem refill_packed (d c : Nat) (hc : c < U32) :
    ∀ (n j : Nat), 2 * (j + n) < c →
      ((List.range' j n).map fun i => (i, (0 : Nat))).foldlM
        (fun acc kv =>
          (insertAux PriorityQueue.zeroHJunk (d + 1) acc kv.1 (.direct kv.2)).map Prod.snd)
        (packed c j) = .ok (packed c (j + n)) := by
  intro n
  induction n with
  | zero => intro j _; rfl
  | succ n ih =>
    intro j h
    rw [List.range'_succ, List.map_cons, List.foldlM_cons]
    simp only
    rw [insertAux_packed d c j (by omega) hc]
    show ((List.range' (j + 1) n).map fun i => (i, (0 : Nat))).foldlM _ (packed c (j + 1)) = _
    rw [ih (j + 1) (by omega)]
    congr 2
    omega

/-- A growing `insert` of the next key into a packed table, when doubling the
capacity does not defeat the prime search. -/
theorem grow_packed (d q n p : Nat) (hq : q < U32) (hn : 2 * n < q) (hg : q ≤ 2 * (n + 1))
    (hnp : nextPrimeLoop U32 (umul q 2) = .ok p) (hp : p < U32) (hroom : 2 * (n + 1) < p) :
    insertAux PriorityQueue.zeroHJunk (d + 1 + 1) (packed q n) n (.direct 0) =
      .ok (true, packed p (n + 1)) := by
  have hnq : n < q := by omega
  have hu : uadd n 1 = n + 1 := by
    unfold uadd
    exact Nat.mod_eq_of_lt (by omega)
  have hgrow : growNeeded (packed q n) = true := by
    unfold growNeeded
    show decide (q ≤ 2 * uadd n 1) = true
    rw [hu]
    simp only [decide_eq_true_eq]
    exact hg
  have hnp1 : nextPrimeLoop U32 (umul (packed q n).size_table 2) = .ok p := hnp
  have ht0 : (⟨freshSlots PriorityQueue.zeroHJunk p, p, 0⟩ : HashTable Nat) = packed p 0 := by
    unfold packed
    rw [packedSlots_zero]
  have hfill := refill_packed d p hp n 0 (by omega)
  rw [Nat.zero_add] at hfill
  unfold insertAux
  rw [U32_succ, insertLoop_stop 4294967295 0 _ _ (show (packed q n).size_table ≠ 0 from by
    show q ≠ 0; omega) (packed_slot_free q n hnq hq) rfl rfl, ok_bind]
  simp only
  rw [if_pos hgrow]
  unfold rehash
  rw [if_pos hgrow, hnp1, ok_bind]
  simp only
  rw [ht0, liveEntries_packed q n (by omega), hfill, ok_bind]
  simp only [ValueRef.afterDelete]
  rw [insertAux_packed d p n hroom hp]
  rfl

/-- Re-inserting the pairs `(0, 0), ..., (m - 1, 0)` into an empty table of
`q0` buckets that is too small for them and grows once, to `q1` buckets. -/
theorem refill_packed_grow (d q0 q1 m : Nat) (hq0 : q0 < U32) (h1 : 1 ≤ q0)
    (hnp : nextPrimeLoop U32 (umul q0 2) = .ok q1) (hq1 : q1 < U32)
    (hm0 : q0 ≤ 2 * m) (hm : 2 * m < q1) :
    ((List.range' 0 m).map fun i => (i, (0 : Nat))).foldlM
      (fun acc kv =>
        (insertAux PriorityQueue.zeroHJunk (d + 1 + 1) acc kv.1 (.direct kv.2)).map Prod.snd)
      (packed q0 0) = .ok (packed q1 m) := by
  have hn0 : (q0 - 1) / 2 < m := by omega
  have hsplit : List.range' 0 m = List.range' 0 ((q0 - 1) / 2) ++
      ((q0 - 1) / 2 :: List.range' ((q0 - 1) / 2 + 1) (m - (q0 - 1) / 2 - 1)) := by
    have hlen : m = (m - (q0 - 1) / 2 - 1 + 1) + (q0 - 1) / 2 := by omega
    conv_lhs => rw [hlen]
    rw [← List.range'_append_1, Nat.zero_add, List.range'_succ]
  have hfirst := refill_packed (d + 1) q0 hq0 ((q0 - 1) / 2) 0 (by omega)
  rw [Nat.zero_add] at hfirst
  have hgrow := grow_packed d q0 ((q0 - 1) / 2) q1 hq0 (by omega) (by omega) hnp hq1 (by omega)
  have hrest := refill_packed (d + 1) q1 hq1 (m - (q0 - 1) / 2 - 1) ((q0 - 1) / 2 + 1) (by omega)
  have hsum : (q0 - 1) / 2 + 1 + (m - (q0 - 1) / 2 - 1) = m := by omega
  rw [hsum] at hrest
  rw [hsplit, List.map_append, List.map_cons, List.foldlM_append, hfirst, ok_bind,
    List.foldlM_cons]
  simp only
  rw [hgrow]
  exact hrest

/-- A growing `insert` of the next key into a packed table whose doubled
capacity wraps around `2 ^ 32`: the table is rebuilt with `q0` buckets, grows
once more while the pairs are re-inserted, and ends with `q1` buckets. -/
theorem insert_packed_wraps (c m q0 q1 : Nat) (hc : c < U32) (hm : 2 * m < c)
    (hg : c ≤ 2 * (m + 1)) (hnp0 : nextPrimeLoop U32 (umul c 2) = .ok q0) (h1 : 1 ≤ q0)
    (hq0 : q0 ≤ 2 * m) (hnp1 : nextPrimeLoop U32 (umul q0 2) = .ok q1)
    (hroom : 2 * (m + 1) < q1) :
    insert PriorityQueue.zeroHJunk (packed c m) m 0 = .ok (true, packed q1 (m + 1)) := by
  have hmc : m < c := by omega
  have hU0 : q0 < U32 := nextPrimeLoop_lt _ _ _ hnp0
  have hU1 : q1 < U32 := nextPrimeLoop_lt _ _ _ hnp1
  have hu : uadd m 1 = m + 1 := by
    unfold uadd
    exact Nat.mod_eq_of_lt (by omega)
  have hgrow : growNeeded (packed c m) = true := by
    unfold growNeeded
    show decide (c ≤ 2 * uadd m 1) = true
    rw [hu]
    simp only [decide_eq_true_eq]
    exact hg
  have hnp : nextPrimeLoop U32 (umul (packed c m).size_table 2) = .ok q0 := hnp0
  have ht0 : (⟨freshSlots PriorityQueue.zeroHJunk q0, q0, 0⟩ : HashTable Nat) = packed q0 0 := by
    unfold packed
    rw [packedSlots_zero]
  have hfill := refill_packed_grow 5 q0 q1 m hU0 h1 hnp1 hU1 hq0 (by omega)
  have hlast := insertAux_packed 6 q1 m hroom hU1
  unfold insert insertDepth insertAux
  rw [U32_succ, insertLoop_stop 4294967295 0 _ _ (show (packed c m).size_table ≠ 0 from by
    show c ≠ 0; omega) (packed_slot_free c m hmc hc) rfl rfl, ok_bind]
  simp only
  rw [if_pos hgrow]
  unfold rehash
  rw [if_pos hgrow, hnp, ok_bind]
  simp only
  rw [ht0, liveEntries_packed c m (by omega), hfill, ok_bind]
  simp only [ValueRef.afterDelete]
  rw [hlast]
  rfl

/-- C17, amended (load-factor invariant, for capacities below `2 ^ 31`): for
a table whose capacity `c` is prime with `numElements / c < 0.5` and with
`2 * c` within 32 bits, after any `insert` call that returns the capacity is
prime and `numElements / tableSize < 0.5`; the capacity differs from `c` only
when the call returned true and `(numElements + 1) / c >= 0.5` held before,
and then it is the least prime `>= 2 * c` (and exceeds `2 * c`). -/
theorem load_factor_kept (hjunk : Nat → Nat → Nat × V) (t : HashTable V) (key : Nat) (value : V)
    (b : Bool) (t' : HashTable V)
    (hprime : Nat.Prime t.size_table) (hload : 2 * t.num_element < t.size_table)
    (hrange : 2 * t.size_table < U32)
    (h : insert hjunk t key value = .ok (b, t')) :
    Nat.Prime t'.size_table ∧ 2 * t'.num_element < t'.size_table ∧
    (t'.size_table ≠ t.size_table →
      b = true ∧ growNeeded t = true ∧ 2 * t.size_table < t'.size_table ∧
      ∀ r, Nat.Prime r → 2 * t.size_table ≤ r → t'.size_table ≤ r) :=
  insertAux_load hjunk 5 t key (.direct value) b t' hprime hload hrange h

/-- C17, at the table of 5 buckets holding the keys 1 and 2: `insert(3, 30)`
meets `(2 + 1) / 5 >= 0.5`, returns true and leaves 11 buckets, the least
prime above 10, with 3 elements. -/
theorem load_factor_kept_witness :
    (tableFrom 5 [.insert 1 10, .insert 2 20] = .ok loadDemo ∧
      Nat.Prime loadDemo.size_table ∧ 2 * loadDemo.num_element < loadDemo.size_table ∧
      2 * loadDemo.size_table < U32 ∧
      insert PriorityQueue.zeroHJunk loadDemo 3 30 = .ok (true, loadDemoGrown)) ∧
    Nat.Prime loadDemoGrown.size_table ∧
    2 * loadDemoGrown.num_element < loadDemoGrown.size_table ∧
    (loadDemoGrown.size_table ≠ loadDemo.size_table →
      true = true ∧ growNeeded loadDemo = true ∧
      2 * loadDemo.size_table < loadDemoGrown.size_table ∧
      ∀ r, Nat.Prime r → 2 * loadDemo.size_table ≤ r → loadDemoGrown.size_table ≤ r) :=
  ⟨⟨by decide, by norm_num [loadDemo], by decide, by decide, by decide⟩,
    load_factor_kept PriorityQueue.zeroHJunk loadDemo 3 30 true loadDemoGrown
      (by norm_num [loadDemo]) (by decide) (by decide) (by decide)⟩

/-- C17 as stated (every prime capacity), at capacity 3136000001: the capacity
is prime, the table is built by `insert(0, 0), ..., insert(1567999999, 0)`,
`numElements / tableSize < 0.5`, key 1568000000 is absent and
`(numElements + 1) / tableSize >= 0.5`; `insert(1568000000, 0)` returns true
and changes the capacity, and the new capacity is below `2 * 3136000001`.
`size_table *= 2` wraps to 1977032706, the table is rebuilt with the next
prime above that, too small for the pairs it held, and grows once more while
they are re-inserted. -/
theorem doubling_wraps_beyond_31_bits :
    Nat.Prime wrappingTable.size_table ∧
    TableReachable PriorityQueue.zeroHJunk 3136000001 (fun op => op.isInsert = true)
      wrappingTable ∧
    2 * wrappingTable.num_element < wrappingTable.size_table ∧
    wrappingTable.get 1568000000 = .ok none ∧ growNeeded wrappingTable = true ∧
    ∃ t', insert PriorityQueue.zeroHJunk wrappingTable 1568000000 0 = .ok (true, t') ∧
      t'.size_table ≠ wrappingTable.size_table ∧
      t'.size_table < 2 * wrappingTable.size_table := by
  have hU : (3136000001 : Nat) < U32 := by decide
  have hm : (1568000000 : Nat) < 3136000001 := by norm_num
  have hslot := packed_slot_free 3136000001 1568000000 hm hU
  have hs0 : umul 3136000001 2 = 1977032706 := by decide
  obtain ⟨q0, hnp0⟩ := nextPrimeLoop_returns U32 1977032706
    ⟨2013265921, prime_2013265921, by norm_num, by decide, by decide⟩
  obtain ⟨hp0, hlt0, hmin0⟩ := nextPrimeLoop_least U32 1977032706 q0 hnp0 (by norm_num)
    ⟨2013265921, prime_2013265921, by norm_num, by decide⟩
  have hle0 : q0 ≤ 2013265921 := hmin0 _ prime_2013265921 (by norm_num)
  obtain ⟨q1, hnp1⟩ := nextPrime_of_double_below_returns (c := q0) (by omega) (by omega)
  obtain ⟨hp1, hlt1, hU1, _⟩ := nextPrime_of_double_below (by omega) (by omega) hnp1
  have hrun := insert_packed_wraps 3136000001 1568000000 q0 q1 hU (by norm_num) (by norm_num)
    (by rw [hs0]; exact hnp0) (by omega) (by omega) hnp1 (by omega)
  refine ⟨prime_3136000001, packed_reachable _ _ prime_3136000001 hU (by norm_num), by decide,
    ?_, by decide, packed q1 (1568000000 + 1), hrun, ?_, ?_⟩
  · unfold get
    rw [U32_succ]
    exact getLoop_stop _ _ _ (by decide) hslot rfl rfl
  · show q1 ≠ 3136000001
    omega
  · show q1 < 2 * 3136000001
    unfold U32 at hU1
    omega

/-- C18 (`==` returns true exactly on equal contents): `a` holds `(7, 70)`;
`b` holds `(4, 44)` and four tombstones, so none of its five buckets was never
used.  Both count their Occupied buckets exactly and find each of their keys.
`a == b` looks key 7 up in `b`, and that probe loop never stops. -/
theorem opEq_never_returns :
    ∃ a b : HashTable Nat,
      tableFrom 5 [.insert 7 70] = .ok a ∧
      tableFrom 5 [.insert 0 0, .remove 0, .insert 1 0, .remove 1, .insert 2 0, .remove 2,
        .insert 3 0, .remove 3, .insert 4 44] = .ok b ∧
      (CountAccurate a ∧ OccupiedFound a) ∧ (CountAccurate b ∧ OccupiedFound b) ∧
      a.occupiedPairs = [(7, 70)] ∧ b.occupiedPairs = [(4, 44)] ∧
      opEq a b = .error .diverges := by
  have ha : (tableFrom 5 [.insert 7 70]).map
      (fun a => (decide (CountAccurate a ∧ OccupiedFound a), a.occupiedPairs, a.num_element,
        (firstOccupied (a.slot.take a.size_table)).map (fun s => s.key)))
      = .ok (true, [(7, 70)], 1, some 7) := by
    decide
  have hb : (tableFrom 5 [.insert 0 0, .remove 0, .insert 1 0, .remove 1, .insert 2 0,
      .remove 2, .insert 3 0, .remove 3, .insert 4 44]).map
      (fun b => (decide (CountAccurate b ∧ OccupiedFound b), b.occupiedPairs, b.num_element,
        decide (Blocked b 7)))
      = .ok (true, [(4, 44)], 1, true) := by
    decide
  obtain ⟨a, hae, hav⟩ := exists_of_map_eq ha
  obtain ⟨b, hbe, hbv⟩ := exists_of_map_eq hb
  have hblocked : Blocked b 7 := of_decide_eq_true (congrArg (fun x => x.2.2.2) hbv)
  have hna : a.num_element = 1 := congrArg (fun x => x.2.2.1) hav
  have hnb : b.num_element = 1 := congrArg (fun x => x.2.2.1) hbv
  have hfirst : (firstOccupied (a.slot.take a.size_table)).map (fun s => s.key) = some 7 :=
    congrArg (fun x => x.2.2.2) hav
  refine ⟨a, b, hae, hbe, of_decide_eq_true (congrArg (fun x => x.1) hav),
    of_decide_eq_true (congrArg (fun x => x.1) hbv), congrArg (fun x => x.2.1) hav,
    congrArg (fun x => x.2.1) hbv, ?_⟩
  unfold opEq
  rw [if_neg (by rw [hna, hnb]; decide)]
  cases hf : firstOccupied (a.slot.take a.size_table) with
  | none => rw [hf] at hfirst; cases hfirst
  | some s =>
    rw [hf] at hfirst
    have hk : s.key = 7 := by injection hfirst
    exact eqLoop_diverges _ s hf (by rw [hk]; exact hblocked)

/-- C19 (`+` merges the contents): `a` holds `(4, 44)` and four tombstones,
`b` holds `(7, 70)`; both count their Occupied buckets exactly and find each of
their keys.  `a + b` inserts key 7 into a copy of `a`, and the probe loop of
that insert never stops. -/
theorem opAdd_never_returns :
    ∃ a b : HashTable Nat,
      tableFrom 5 [.insert 0 0, .remove 0, .insert 1 0, .remove 1, .insert 2 0, .remove 2,
        .insert 3 0, .remove 3, .insert 4 44] = .ok a ∧
      tableFrom 5 [.insert 7 70] = .ok b ∧
      (CountAccurate a ∧ OccupiedFound a) ∧ (CountAccurate b ∧ OccupiedFound b) ∧
      a.occupiedPairs = [(4, 44)] ∧ b.occupiedPairs = [(7, 70)] ∧
      opAdd PriorityQueue.zeroHJunk a b = .error .diverges := by
  have ha : (tableFrom 5 [.insert 0 0, .remove 0, .insert 1 0, .remove 1, .insert 2 0,
      .remove 2, .insert 3 0, .remove 3, .insert 4 44]).map
      (fun a => (decide (CountAccurate a ∧ OccupiedFound a), a.occupiedPairs,
        decide (Blocked (copy a) 7)))
      = .ok (true, [(4, 44)], true) := by
    decide
  have hb : (tableFrom 5 [.insert 7 70]).map
      (fun b => (decide (CountAccurate b ∧ OccupiedFound b), b.occupiedPairs,
        (firstOccupied (b.slot.take b.size_table)).map (fun s => s.key)))
      = .ok (true, [(7, 70)], some 7) := by
    decide
  obtain ⟨a, hae, hav⟩ := exists_of_map_eq ha
  obtain ⟨b, hbe, hbv⟩ := exists_of_map_eq hb
  have hblocked : Blocked (copy a) 7 := of_decide_eq_true (congrArg (fun x => x.2.2) hav)
  have hfirst : (firstOccupied (b.slot.take b.size_table)).map (fun s => s.key) = some 7 :=
    congrArg (fun x => x.2.2) hbv
  refine ⟨a, b, hae, hbe, of_decide_eq_true (congrArg (fun x => x.1) hav),
    of_decide_eq_true (congrArg (fun x => x.1) hbv), congrArg (fun x => x.2.1) hav,
    congrArg (fun x => x.2.1) hbv, ?_⟩
  unfold opAdd
  cases hf : firstOccupied (b.slot.take b.size_table) with
  | none => rw [hf] at hfirst; cases hfirst
  | some s =>
    rw [hf] at hfirst
    have hk : s.key = 7 := by injection hfirst
    exact foldlM_add_diverges _ _ s _ hf (by rw [hk]; exact hblocked)

/-- C20 (every probe loop terminates on reachable tables): after inserting and
removing the keys 0 to 4 in turn, every bucket of the table of 5 buckets is a
tombstone.  No probe for key 5 meets an Occupied bucket with key 5 or a
never-used bucket, and `get(5)`, `insert(5, 0)` and `update(5, 0)` never
return. -/
theorem get_never_stops_among_tombstones :
    ∃ t, TableReachable PriorityQueue.zeroHJunk 5 (fun op => op.insertOrRemove = true) t ∧
      Nat.Prime 5 ∧
      (∀ i, ∃ s, t.slot[probeIndex t 5 i]? = some s ∧
        (!s.is_empty && s.key == 5) = false ∧ (s.is_empty && !s.is_deleted) = false) ∧
      t.get 5 = .error .diverges ∧
      insert PriorityQueue.zeroHJunk t 5 0 = .error .diverges ∧
      update t 5 0 = .error .diverges := by
  have h : (tableFrom 5 [.insert 0 0, .remove 0, .insert 1 0, .remove 1, .insert 2 0, .remove 2,
      .insert 3 0, .remove 3, .insert 4 0, .remove 4]).map
      (fun t => decide (Blocked t 5)) = .ok true := by
    decide
  obtain ⟨t, ht, hval⟩ := exists_of_map_eq h
  have hb : Blocked t 5 := of_decide_eq_true hval
  refine ⟨t, tableReachable_of_tableFrom (by decide) ht, by norm_num, fun i => hb.slot i,
    get_diverges hb, insert_diverges _ _ hb, ?_⟩
  unfold update
  rw [updateLoop_diverges 0 hb]
  rfl

end HashTable

end DSP

/-! ## The claims about sift-down, plain use and probing -/

namespace DSP

namespace PriorityQueue

variable {V : Type}

/-- C21 (sift-down considers only valid children): after `insert(3, 30)`,
`insert(7, 70)`, `insert(1, 10)`, `deleteMin()`, `swap(0, 1)` the array holds
the keys 7, 3 at positions 0, 1 with `numElements` 2, and position 2 still
holds the key 3 that `deleteMin` moved to the root: position 0 has a valid
left child with a smaller key and no valid right child.  `down(0)` swaps
nothing: before its loop it compares `slot[1].key < slot[2].key` without
asking whether position 2 is below `numElements`, picks position 2 and stops
there.  The same calls `insert(3, 30)`, `insert(7, 70)`, `swap(0, 1)`,
`down(0)` leave the keys 7, 3 on storage that held zeros and 3, 7 on storage
that held the key 100: the result depends on the cell at position
`numElements`.  Through `increaseKey` the same comparison leaves a queue out
of heap order. -/
theorem down_misled_by_cell_outside :
    ((fromFresh 20 [.insert 3 30, .insert 7 70, .insert 1 10, .deleteMin] >>= fun pq =>
        swap zeroJunk pq 0 1).map fun pq =>
      (pq.num_element, live zeroJunk pq, keyAt zeroJunk pq 2))
      = .ok (2, [(7, 70), (3, 30)], 3) ∧
    leftOf 0 = 1 ∧ rightOf 0 = 2 ∧
    ((fromFresh 20 [.insert 3 30, .insert 7 70, .insert 1 10, .deleteMin] >>= fun pq =>
        swap zeroJunk pq 0 1 >>= fun pq1 => down zeroJunk pq1 0).map fun pq =>
      live zeroJunk pq) = .ok [(7, 70), (3, 30)] ∧
    ((new zeroJunk zeroHJunk 20 >>= fun pq =>
        run zeroJunk zeroHJunk pq [.insert 3 30, .insert 7 70] >>= fun pq1 =>
        swap zeroJunk pq1 0 1 >>= fun pq2 =>
        (down zeroJunk pq2 0).map fun pq3 =>
          (pq2.num_element, live zeroJunk pq2, keyAt zeroJunk pq2 2, live zeroJunk pq3))
      = .ok (2, [(7, 70), (3, 30)], 0, [(7, 70), (3, 30)])) ∧
    ((new hundredJunk zeroHJunk 20 >>= fun pq =>
        run hundredJunk zeroHJunk pq [.insert 3 30, .insert 7 70] >>= fun pq1 =>
        swap hundredJunk pq1 0 1 >>= fun pq2 =>
        (down hundredJunk pq2 0).map fun pq3 =>
          (pq2.num_element, live hundredJunk pq2, keyAt hundredJunk pq2 2, live hundredJunk pq3))
      = .ok (2, [(7, 70), (3, 30)], 100, [(3, 30), (7, 70)])) ∧
    (fromFresh 20 [.insert 1 10, .insert 2 20, .insert 3 30, .deleteMin, .increaseKey 2 5]).map
      (fun pq => (liveKeys zeroJunk pq, decide (OrderInv zeroJunk pq))) = .ok ([7, 3], false) := by
  refine ⟨by decide, by decide, by decide, by decide, by decide, by decide, by decide⟩

end PriorityQueue

namespace HashTable

variable {V : Type}

/-- More fuel does not change what the loop of `get` returns. -/
theorem getLoop_mono {t : HashTable V} {key : Nat} :
    ∀ (fuel fuel' q : Nat) (r : Option Nat), fuel ≤ fuel' → getLoop t key fuel q = .ok r →
      getLoop t key fuel' q = .ok r := by
  intro fuel
  induction fuel with
  | zero => intro fuel' q r _ h; cases h
  | succ fuel ih =>
    intro fuel' q r hle h
    obtain ⟨f, rfl⟩ : ∃ f, fuel' = f + 1 := ⟨fuel' - 1, by omega⟩
    obtain ⟨hz, s, hs⟩ := getLoop_ok_slot h
    rw [getLoop_step fuel q hz hs] at h
    rw [getLoop_step f q hz hs]
    by_cases hc : (!s.is_empty && s.key == key) = true
    · rw [if_pos hc] at h ⊢
      exact h
    · rw [if_neg hc] at h ⊢
      by_cases hc2 : (s.is_empty && !s.is_deleted) = true
      · rw [if_pos hc2] at h ⊢
        exact h
      · rw [if_neg hc2] at h ⊢
        exact ih f _ _ (by omega) h

/-- More fuel does not change what the loop of `insert` returns. -/
theorem insertLoop_mono {t : HashTable V} {key : Nat} :
    ∀ (fuel fuel' q : Nat) (flag : Bool) (idx0 : Nat) (r : Option Nat), fuel ≤ fuel' →
      insertLoop t key fuel q flag idx0 = .ok r → insertLoop t key fuel' q flag idx0 = .ok r := by
  intro fuel
  induction fuel with
  | zero => intro fuel' q flag idx0 r _ h; cases h
  | succ fuel ih =>
    intro fuel' q flag idx0 r hle h
    obtain ⟨f, rfl⟩ : ∃ f, fuel' = f + 1 := ⟨fuel' - 1, by omega⟩
    obtain ⟨hz, s, hs⟩ := insertLoop_ok_slot h
    rw [insertLoop_step fuel q flag idx0 hz hs] at h
    rw [insertLoop_step f q flag idx0 hz hs]
    by_cases hc : (!s.is_empty && s.key == key) = true
    · rw [if_pos hc] at h ⊢
      exact h
    · rw [if_neg hc] at h ⊢
      by_cases hc2 : (s.is_empty && !s.is_deleted) = true
      · rw [if_pos hc2] at h ⊢
        exact h
      · rw [if_neg hc2] at h ⊢
        exact ih f _ _ _ _ (by omega) h

/-- The loop of `insert` returns once a probe within its fuel meets a bucket
that was never used. -/
theorem insertLoop_returns_of_stop {t : HashTable V} {key : Nat} (hz : t.size_table ≠ 0)
    (hslot : ∀ q, ∃ s, t.slot[probeIndex t key q]? = some s) :
    ∀ (fuel q d : Nat) (flag : Bool) (idx0 : Nat), d < fuel →
      (∃ s, t.slot[probeIndex t key (q + d)]? = some s ∧ s.is_empty = true ∧
        s.is_deleted = false) →
      ∃ r, insertLoop t key fuel q flag idx0 = .ok r := by
  intro fuel
  induction fuel with
  | zero => intro q d _ _ hd; omega
  | succ fuel ih =>
    intro q d flag idx0 hd hstop
    obtain ⟨s, hs⟩ := hslot q
    rw [insertLoop_step fuel q flag idx0 hz hs]
    by_cases hc : (!s.is_empty && s.key == key) = true
    · rw [if_pos hc]
      exact ⟨_, rfl⟩
    · rw [if_neg hc]
      by_cases hc2 : (s.is_empty && !s.is_deleted) = true
      · rw [if_pos hc2]
        exact ⟨_, rfl⟩
      · rw [if_neg hc2]
        cases d with
        | zero =>
          exfalso
          obtain ⟨s', hs', he, hdel⟩ := hstop
          rw [Nat.add_zero, hs] at hs'
          cases hs'
          rw [he, hdel] at hc2
          exact hc2 rfl
        | succ d =>
          apply ih (q + 1) d _ _ (by omega)
          rw [Nat.add_assoc, Nat.add_comm 1 d]
          exact hstop

/-- The first `(p + 1) / 2` probes for a key fall into different buckets of
a table of prime capacity `p`, as long as `key + q * q` stays below `2 ^ 32`. -/
theorem probeIndex_ne {t : HashTable V} {key i j : Nat} (hp : Nat.Prime t.size_table)
    (hij : i < j) (hj : j ≤ (t.size_table - 1) / 2) (hrange : key + j * j < U32) :
    probeIndex t key i ≠ probeIndex t key j := by
  have hi : key + i * i < U32 := by
    have := Nat.mul_le_mul hij.le hij.le
    omega
  rw [probeIndex_eq hi, probeIndex_eq hrange]
  have := hp.two_le
  exact probe_ne hp hij (by omega)

/-- Among the first `(p + 1) / 2` probes for a key in a table of prime
capacity `p` with fewer than half of the buckets not Empty, one meets an
Empty bucket. -/
theorem exists_empty_probe {t : HashTable V} (hp : Nat.Prime t.size_table)
    (hlen : t.size_table ≤ t.slot.length) {key : Nat}
    (hrange : key + ((t.size_table - 1) / 2) ^ 2 < U32)
    (hcount : 2 * nonEmptyCount t < t.size_table) :
    ∃ d, d < (t.size_table + 1) / 2 ∧ ∃ s, t.slot[probeIndex t key d]? = some s ∧
      s.is_empty = true ∧ s.is_deleted = false := by
  by_contra hcon
  have hpos : 0 < t.size_table := hp.pos
  have h2 := hp.two_le
  have hsmall : ∀ d, d < (t.size_table + 1) / 2 → key + d * d < U32 := by
    intro d hd
    have hd2 : d ≤ (t.size_table - 1) / 2 := by omega
    have := Nat.mul_le_mul hd2 hd2
    rw [sq] at hrange
    omega
  have hocc : ∀ d, d < (t.size_table + 1) / 2 →
      ∃ s, (t.slot.take t.size_table)[probeIndex t key d]? = some s ∧
        (!(s.is_empty && !s.is_deleted)) = true := by
    intro d hd
    have hlt := probeIndex_lt t key d hpos
    have hlt2 : probeIndex t key d < t.slot.length := by omega
    refine ⟨t.slot[probeIndex t key d], ?_, ?_⟩
    · rw [List.getElem?_take_of_lt hlt]
      exact List.getElem?_eq_getElem hlt2
    · cases hem : (t.slot[probeIndex t key d].is_empty && !t.slot[probeIndex t key d].is_deleted)
      · rfl
      · exfalso
        simp only [Bool.and_eq_true, Bool.not_eq_true'] at hem
        exact hcon ⟨d, hd, _, List.getElem?_eq_getElem hlt2, hem.1, hem.2⟩
  have hinj : Set.InjOn (probeIndex t key) (Finset.range ((t.size_table + 1) / 2) : Finset Nat) := by
    intro a ha b hb hab
    have ha' : a < (t.size_table + 1) / 2 := Finset.mem_range.mp ha
    have hb' : b < (t.size_table + 1) / 2 := Finset.mem_range.mp hb
    by_contra hne
    rcases Nat.lt_or_gt_of_ne hne with h | h
    · exact probeIndex_ne hp h (by omega) (hsmall b hb') hab
    · exact probeIndex_ne hp h (by omega) (hsmall a ha') hab.symm
  have hcard := Finset.card_image_of_injOn hinj
  rw [Finset.card_range] at hcard
  have hle := card_le_countP (fun s : Slot V => !(s.is_empty && !s.is_deleted))
    (t.slot.take t.size_table)
    ((Finset.range ((t.size_table + 1) / 2)).image (probeIndex t key)) (by
      intro i hi
      rw [Finset.mem_image] at hi
      obtain ⟨d, hd, rfl⟩ := hi
      exact hocc d (Finset.mem_range.mp hd))
  rw [hcard] at hle
  unfold nonEmptyCount at hcount
  omega

/-- C23, amended (quadratic probing on a prime table visits distinct slots
in its first half): for every table of prime capacity `p`, every key, and
all probe indices `i < j <= (p - 1) / 2` with `key + j * j < 2 ^ 32`, the
probes `i` and `j` visit the buckets `(key + i * i) mod p` and
`(key + j * j) mod p`, which differ; hence, when `key + ((p - 1) / 2) ^ 2 <
2 ^ 32` and fewer than half of the `p` buckets are not Empty (Occupied or
Tombstone), the probe loops of `get` and `insert` stop after at most
`(p + 1) / 2` probes. -/
theorem probes_distinct_then_stop (t : HashTable V) (key : Nat)
    (hp : Nat.Prime t.size_table) :
    (∀ i j, i < j → j ≤ (t.size_table - 1) / 2 → key + j * j < U32 →
      probeIndex t key i = (key + i * i) % t.size_table ∧
      probeIndex t key j = (key + j * j) % t.size_table ∧
      (key + i * i) % t.size_table ≠ (key + j * j) % t.size_table) ∧
    (t.size_table ≤ t.slot.length → key + ((t.size_table - 1) / 2) ^ 2 < U32 →
      2 * nonEmptyCount t < t.size_table →
      (∃ r, getLoop t key ((t.size_table + 1) / 2) 0 = .ok r ∧ t.get key = .ok r) ∧
      (∃ r, insertLoop t key ((t.size_table + 1) / 2) 0 false (probeIndex t key 0) = .ok r ∧
        insertLoop t key U32 0 false (probeIndex t key 0) = .ok r)) := by
  constructor
  · intro i j hij hj hrange
    have hi : key + i * i < U32 := by
      have := Nat.mul_le_mul hij.le hij.le
      omega
    have hne := probeIndex_ne hp hij hj hrange
    rw [probeIndex_eq hi, probeIndex_eq hrange] at hne
    exact ⟨probeIndex_eq hi, probeIndex_eq hrange, hne⟩
  · intro hlen hrange hcount
    obtain ⟨d, hd, hstop⟩ := exists_empty_probe hp hlen hrange hcount
    have hpos : 0 < t.size_table := hp.pos
    have hslot : ∀ q, ∃ s, t.slot[probeIndex t key q]? = some s := by
      intro q
      have hlt := probeIndex_lt t key q hpos
      exact ⟨_, List.getElem?_eq_getElem (show probeIndex t key q < t.slot.length by omega)⟩
    have hfuel : (t.size_table + 1) / 2 ≤ U32 := by
      have h65 : (t.size_table - 1) / 2 < 65536 := by
        by_contra hge
        have hge' : 65536 ≤ (t.size_table - 1) / 2 := by omega
        have := Nat.mul_le_mul hge' hge'
        rw [sq] at hrange
        unfold U32 at hrange
        omega
      unfold U32
      omega
    obtain ⟨r, hr⟩ := getLoop_returns (by omega) hslot ((t.size_table + 1) / 2) 0 d hd
      (by rw [Nat.zero_add]; exact hstop)
    obtain ⟨r', hr'⟩ := insertLoop_returns_of_stop (by omega) hslot ((t.size_table + 1) / 2) 0 d
      false (probeIndex t key 0) hd (by rw [Nat.zero_add]; exact hstop)
    exact ⟨⟨r, hr, getLoop_mono _ _ _ _ hfuel hr⟩, r', hr', insertLoop_mono _ _ _ _ _ _ hfuel hr'⟩

/-- C23, at the table of 5 buckets holding the keys 1 and 2 and the key 6:
the probes visit the buckets 1, 2, 0 and the loops stop at the third probe. -/
theorem probes_distinct_then_stop_witness :
    (Nat.Prime loadDemo.size_table ∧ loadDemo.size_table ≤ loadDemo.slot.length ∧
      6 + ((loadDemo.size_table - 1) / 2) ^ 2 < U32 ∧
      2 * nonEmptyCount loadDemo < loadDemo.size_table) ∧
    (probeIndex loadDemo 6 1 = (6 + 1 * 1) % loadDemo.size_table ∧
      probeIndex loadDemo 6 2 = (6 + 2 * 2) % loadDemo.size_table ∧
      (6 + 1 * 1) % loadDemo.size_table ≠ (6 + 2 * 2) % loadDemo.size_table) ∧
    (∃ r, getLoop loadDemo 6 ((loadDemo.size_table + 1) / 2) 0 = .ok r ∧ loadDemo.get 6 = .ok r) ∧
    (∃ r, insertLoop loadDemo 6 ((loadDemo.size_table + 1) / 2) 0 false (probeIndex loadDemo 6 0)
        = .ok r ∧
      insertLoop loadDemo 6 U32 0 false (probeIndex loadDemo 6 0) = .ok r) :=
  ⟨⟨by norm_num [loadDemo], by decide, by decide, by decide⟩,
    (probes_distinct_then_stop loadDemo 6 (by norm_num [loadDemo])).1 1 2 (by decide) (by decide)
      (by decide),
    (probes_distinct_then_stop loadDemo 6 (by norm_num [loadDemo])).2 (by decide) (by decide)
      (by decide)⟩

/-- C23 as stated (the probe loops stop after at most `(p + 1) / 2` probes,
for every key): the table of 11 buckets built by `insert` of the keys 3, 0, 8,
4, 2 has prime capacity and 5 buckets that are not Empty.  For the key
`4294967295 = 2 ^ 32 - 1` the sum `key + 1 * 1` wraps to 0, the first six
probes visit the buckets 3, 0, 3, 8, 4, 2, all Occupied by other keys, and the
loops of `get` and `insert` have not stopped after 6 probes; they stop at the
twelfth. -/
theorem probes_repeat_when_sum_wraps :
    halfProbed.map (fun t => (t.size_table, t.slot.length, nonEmptyCount t)) = .ok (11, 11, 5) ∧
    Nat.Prime 11 ∧
    halfProbed.map (fun t => (List.range 6).map (probeIndex t 4294967295))
      = .ok [3, 0, 3, 8, 4, 2] ∧
    halfProbed.map (fun t => getLoop t 4294967295 6 0) = .ok (.error .diverges) ∧
    halfProbed.map (fun t => (getLoop t 4294967295 11 0, getLoop t 4294967295 12 0))
      = .ok (.error .diverges, .ok none) ∧
    halfProbed.map (fun t => insertLoop t 4294967295 6 0 false (probeIndex t 4294967295 0))
      = .ok (.error .diverges) ∧
    halfProbed.map (fun t => insertLoop t 4294967295 12 0 false (probeIndex t 4294967295 0))
      = .ok (.ok (some 10)) := by
  refine ⟨by decide, by norm_num, by decide, by decide, by decide, by decide, by decide⟩

end HashTable

/-! ### Sift-up and the calls `insert` and `deleteMin` -/

namespace HashTable

variable {V : Type}

theorem num_element_writeValue (t : HashTable V) (p : Nat) (v : V) :
    (t.writeValue p v).num_element = t.num_element := by
  unfold writeValue
  split <;> rfl

theorem length_writeValue (t : HashTable V) (p : Nat) (v : V) :
    (t.writeValue p v).slot.length = t.slot.length := by
  unfold writeValue
  split
  · rfl
  · simp only [List.length_set]

/-- A bucket after a write through a pointer: the bucket that was there, with
its key and flags. -/
theorem slot_writeValue_some {t : HashTable V} {p : Nat} {v : V} {i : Nat} {s' : Slot V}
    (h : (t.writeValue p v).slot[i]? = some s') :
    ∃ s, t.slot[i]? = some s ∧ s'.key = s.key ∧ s'.is_empty = s.is_empty ∧
      s'.is_deleted = s.is_deleted := by
  rw [slot_writeValue] at h
  cases hs : t.slot[i]? with
  | none => rw [hs] at h; cases h
  | some s =>
    rw [hs] at h
    simp only [Option.map_some', Option.some.injEq] at h
    refine ⟨s, rfl, ?_⟩
    by_cases hip : i = p
    · rw [if_pos hip] at h
      rw [← h]
      exact ⟨rfl, rfl, rfl⟩
    · rw [if_neg hip] at h
      rw [← h]
      exact ⟨rfl, rfl, rfl⟩

theorem countP_set_same {α : Type} (P : α → Bool) (a : α) :
    ∀ (l : List α) (e : Nat) (b : α), l[e]? = some b → P a = P b →
      (l.set e a).countP P = l.countP P := by
  intro l
  induction l with
  | nil => intro e b h; cases h
  | cons c rest ih =>
    intro e b h hb
    cases e with
    | zero =>
      simp only [List.getElem?_cons_zero, Option.some.injEq] at h
      subst h
      simp only [List.set_cons_zero, List.countP_cons, hb]
    | succ e =>
      simp only [List.getElem?_cons_succ] at h
      simp only [List.set_cons_succ, List.countP_cons, ih e b h hb]

theorem countP_writeValue (t : HashTable V) (p : Nat) (v : V) :
    (t.writeValue p v).slot.countP (fun s => !s.is_empty) =
      t.slot.countP (fun s => !s.is_empty) := by
  unfold writeValue
  cases hs : t.slot[p]? with
  | none => rfl
  | some s => exact countP_set_same _ _ t.slot p s hs rfl

/-- Writing a value through a pointer keeps a table in the state of one that
has only been inserted into. -/
theorem clean_writeValue {t : HashTable V} (hc : Clean t) (p : Nat) (v : V) :
    Clean (t.writeValue p v) := by
  refine ⟨?_, ?_, ?_, ?_, ?_, ?_⟩
  · rw [length_writeValue, size_table_writeValue]
    exact hc.len
  · rw [size_table_writeValue]
    exact hc.small
  · intro s' hs'
    obtain ⟨i, hi⟩ := List.getElem?_of_mem hs'
    obtain ⟨s, hs, _, _, hd⟩ := slot_writeValue_some hi
    rw [hd]
    exact hc.noTomb s (List.getElem?_mem hs)
  · intro i s' hs' he
    obtain ⟨s, hs, hk, hem, _⟩ := slot_writeValue_some hs'
    rw [get_writeValue, hk]
    exact hc.found i s hs (by rw [← hem]; exact he)
  · rw [num_element_writeValue, countP_writeValue]
    exact hc.count
  · rw [num_element_writeValue, size_table_writeValue]
    exact hc.load

/-- An index that finds a key answers a value for it. -/
theorem lookup_of_get {t : HashTable V} {key p : Nat} (h : t.get key = .ok (some p)) :
    ∃ w, t.lookup key = .ok (some w) := by
  obtain ⟨s, hs, _, _⟩ := getLoop_some_sound _ _ _ h
  exact ⟨s.value, lookup_eq_some_iff.mpr ⟨p, s, h, hs, rfl⟩⟩

theorem get_of_lookup {t : HashTable V} {key : Nat} {w : V} (h : t.lookup key = .ok (some w)) :
    ∃ p, t.get key = .ok (some p) := by
  obtain ⟨j, _, hj, _⟩ := lookup_eq_some_iff.mp h
  exact ⟨j, hj⟩

end HashTable

namespace PriorityQueue

variable {V : Type}

/-- What a returning read of the array read. -/
theorem readCell_eq_ok {junk : Nat → Slot_queue V} {pq : PriorityQueue V} {i : Nat}
    {c : Slot_queue V} (h : readCell junk pq i = .ok c) :
    i < pq.slot.length ∧ c = cell junk pq i := by
  unfold readCell at h
  by_cases hi : i < pq.slot.length
  · rw [if_pos hi] at h
    injection h with h
    exact ⟨hi, h.symm⟩
  · rw [if_neg hi] at h
    cases h

/-- What a returning `swap` did. -/
theorem swap_eq_ok {junk : Nat → Slot_queue V} {pq pq' : PriorityQueue V} {i j : Nat}
    (h : swap junk pq i j = .ok pq') :
    ∃ pa pb, pq' = swapped junk pq i j pa pb := by
  unfold swap at h
  obtain ⟨c1, hc1, h⟩ := bind_eq_ok h
  obtain ⟨hi, rfl⟩ := readCell_eq_ok hc1
  obtain ⟨a, ha, h⟩ := bind_eq_ok h
  cases a with
  | none => cases h
  | some pa =>
    simp only at h
    obtain ⟨c2, hc2, h⟩ := bind_eq_ok h
    obtain ⟨hj, rfl⟩ := readCell_eq_ok hc2
    obtain ⟨b, hb, h⟩ := bind_eq_ok h
    cases b with
    | none => cases h
    | some pb =>
      simp only at h
      rw [readCell_mapping, readCell_ok junk pq hi, ok_bind, readCell_mapping,
        readCell_ok junk pq hj, ok_bind, setCell_ok _ _ (by simpa using hi), ok_bind,
        setCell_ok _ _ (by simpa using hj)] at h
      injection h with h
      exact ⟨pa, pb, h.symm⟩

/-- A property of the queue that `swap` keeps is kept by the loop of `up`. -/
theorem upLoop_holds {junk : Nat → Slot_queue V} (Q : PriorityQueue V → Prop)
    (hQ : ∀ pq i j pa pb, Q pq → Q (swapped junk pq i j pa pb)) :
    ∀ (fuel : Nat) (pq pq' : PriorityQueue V) (i par : Nat),
      upLoop junk fuel pq i par = .ok pq' → Q pq → Q pq' := by
  intro fuel
  induction fuel with
  | zero => intro pq pq' i par h; cases h
  | succ fuel ih =>
    intro pq pq' i par h hq
    unfold upLoop at h
    obtain ⟨p, _, h⟩ := bind_eq_ok h
    obtain ⟨c, _, h⟩ := bind_eq_ok h
    by_cases hc : p.key > c.key
    · rw [if_pos hc] at h
      obtain ⟨pq1, hs, h⟩ := bind_eq_ok h
      obtain ⟨pa, pb, rfl⟩ := swap_eq_ok hs
      have hq1 : Q (swapped junk pq par i pa pb) := hQ _ _ _ _ _ hq
      by_cases h0 : par = 0
      · rw [if_pos h0] at h
        cases h
        exact hq1
      · rw [if_neg h0] at h
        exact ih (swapped junk pq par i pa pb) pq' _ _ h hq1
    · rw [if_neg hc] at h
      cases h
      exact hq

/-- A property of the queue that `swap` keeps is kept by the loop of `down`. -/
theorem downLoop_holds {junk : Nat → Slot_queue V} (Q : PriorityQueue V → Prop)
    (hQ : ∀ pq i j pa pb, Q pq → Q (swapped junk pq i j pa pb)) :
    ∀ (fuel : Nat) (pq pq' : PriorityQueue V) (i s : Nat),
      downLoop junk fuel pq i s = .ok pq' → Q pq → Q pq' := by
  intro fuel
  induction fuel with
  | zero => intro pq pq' i s h; cases h
  | succ fuel ih =>
    intro pq pq' i s h hq
    unfold downLoop at h
    by_cases hs : s < pq.num_element
    · rw [if_pos hs] at h
      obtain ⟨a, _, h⟩ := bind_eq_ok h
      obtain ⟨b, _, h⟩ := bind_eq_ok h
      by_cases hc : a.key > b.key
      · rw [if_pos hc] at h
        obtain ⟨pq1, hsw, h⟩ := bind_eq_ok h
        obtain ⟨pa, pb, rfl⟩ := swap_eq_ok hsw
        have hq1 : Q (swapped junk pq i s pa pb) := hQ _ _ _ _ _ hq
        simp only at h
        split at h
        · cases h
          exact hq1
        · split at h
          · exact ih _ _ _ _ h hq1
          · split at h
            · exact ih _ _ _ _ h hq1
            · obtain ⟨s1, _, h⟩ := bind_eq_ok h
              exact ih _ _ _ _ h hq1
      · rw [if_neg hc] at h
        cases h
        exact hq
    · rw [if_neg hs] at h
      cases h
      exact hq

/-- A property of the queue that `swap` keeps is kept by `up`. -/
theorem up_holds {junk : Nat → Slot_queue V} (Q : PriorityQueue V → Prop)
    (hQ : ∀ pq i j pa pb, Q pq → Q (swapped junk pq i j pa pb)) {pq pq' : PriorityQueue V}
    {i : Nat} (h : up junk pq i = .ok pq') (hq : Q pq) : Q pq' := by
  unfold up at h
  by_cases h0 : i = 0
  · rw [if_pos h0] at h
    cases h
    exact hq
  · rw [if_neg h0] at h
    exact upLoop_holds Q hQ _ _ _ _ _ h hq

/-- A property of the queue that `swap` keeps is kept by `down`. -/
theorem down_holds {junk : Nat → Slot_queue V} (Q : PriorityQueue V → Prop)
    (hQ : ∀ pq i j pa pb, Q pq → Q (swapped junk pq i j pa pb)) {pq pq' : PriorityQueue V}
    {i : Nat} (h : down junk pq i = .ok pq') (hq : Q pq) : Q pq' := by
  unfold down at h
  obtain ⟨s, _, h⟩ := bind_eq_ok h
  exact downLoop_holds Q hQ _ _ _ _ _ h hq

theorem parentOf_eq {i : Nat} (h1 : 1 ≤ i) (h : i + 1 < U32) : parentOf i = (i - 1) / 2 := by
  unfold parentOf uadd usub
  unfold U32 at h ⊢
  rw [Nat.mod_eq_of_lt h]
  have h2 : (i + 1) / 2 < 4294967296 := by omega
  rw [Nat.mod_eq_of_lt h2, Nat.mod_eq_of_lt (by norm_num : 1 < 4294967296)]
  have h3 : (i + 1) / 2 + 4294967296 - 1 = ((i + 1) / 2 - 1) + 4294967296 := by omega
  rw [h3, Nat.add_mod_right, Nat.mod_eq_of_lt (by omega)]
  omega

/-- One pass of the loop of `up` keeps what `up` relies on. -/
theorem UpInv.raise {junk : Nat → Slot_queue V} {pq : PriorityQueue V} {i : Nat}
    (h : UpInv junk pq i) (hi : i < pq.num_element) (h1 : 1 ≤ i)
    (hlt : keyAt junk pq i < keyAt junk pq ((i - 1) / 2)) (pa pb : Nat) :
    UpInv junk (swapped junk pq ((i - 1) / 2) i pa pb) ((i - 1) / 2) := by
  have hp : (i - 1) / 2 < pq.num_element := by omega
  have hp1 : (i - 1) / 2 < pq.slot.length := Nat.lt_of_lt_of_le hp h.inside
  have hi1 : i < pq.slot.length := Nat.lt_of_lt_of_le hi h.inside
  have hn : (swapped junk pq ((i - 1) / 2) i pa pb).num_element = pq.num_element := rfl
  have hchild : i = 2 * ((i - 1) / 2) + 1 ∨ i = 2 * ((i - 1) / 2) + 2 := by omega
  have hpar := h.heap _ hp
  have hbr := h.bridge _ hchild
  refine ⟨?_, ?_, ?_, ?_, ?_⟩
  · simpa [swapped] using h.inside
  · exact h.range
  · intro k hk
    rw [hn] at hk
    simp only [get_swapped, keyAt_swapped junk pq pa pb hp1 hi1]
    split_ifs
    · exact h.found i hi
    · exact h.found _ hp
    · exact h.found k hk
  · intro j hj
    rw [hn] at hj ⊢
    have hh := h.heap j hj
    simp only [keyAt_swapped junk pq pa pb hp1 hi1]
    constructor
    · intro hv hne
      by_cases hjp : j = (i - 1) / 2
      · subst hjp
        by_cases hci : 2 * ((i - 1) / 2) + 1 = i
        · split_ifs <;> omega
        · have := hh.1 hv hci
          split_ifs <;> omega
      · by_cases hji : j = i
        · subst hji
          have := hbr.1 hv
          split_ifs <;> omega
        · have hci : 2 * j + 1 ≠ i := by omega
          have := hh.1 hv hci
          split_ifs
          omega
    · intro hv hne
      by_cases hjp : j = (i - 1) / 2
      · subst hjp
        by_cases hci : 2 * ((i - 1) / 2) + 2 = i
        · split_ifs <;> omega
        · have := hh.2 hv hci
          split_ifs <;> omega
      · by_cases hji : j = i
        · subst hji
          have := hbr.2 hv
          split_ifs <;> omega
        · have hci : 2 * j + 2 ≠ i := by omega
          have := hh.2 hv hci
          split_ifs
          omega
  · intro g hg
    rw [hn]
    have hgl : g < pq.num_element := by omega
    have hgp : keyAt junk pq g ≤ keyAt junk pq ((i - 1) / 2) := by
      rcases hg with hg' | hg'
      · have := (h.heap g hgl).1 (by omega) (by omega)
        rw [← hg'] at this
        exact this
      · have := (h.heap g hgl).2 (by omega) (by omega)
        rw [← hg'] at this
        exact this
    simp only [keyAt_swapped junk pq pa pb hp1 hi1]
    constructor
    · intro hv
      by_cases hci : 2 * ((i - 1) / 2) + 1 = i
      · split_ifs <;> omega
      · have := hpar.1 hv hci
        split_ifs <;> omega
    · intro hv
      by_cases hci : 2 * ((i - 1) / 2) + 2 = i
      · split_ifs <;> omega
      · have := hpar.2 hv hci
        split_ifs <;> omega

/-- When the loop of `up` stops, the order invariant holds. -/
theorem UpInv.order_at_rest {junk : Nat → Slot_queue V} {pq : PriorityQueue V} {i : Nat}
    (h : UpInv junk pq i)
    (hstop : i = 0 ∨ keyAt junk pq ((i - 1) / 2) ≤ keyAt junk pq i) : OrderInv junk pq := by
  intro j hj
  have hh := h.heap j hj
  constructor
  · intro hv
    by_cases hci : 2 * j + 1 = i
    · rcases hstop with h0 | hle
      · omega
      · have hj' : (i - 1) / 2 = j := by omega
        rw [hj'] at hle
        rw [hci]
        exact hle
    · exact hh.1 hv hci
  · intro hv
    by_cases hci : 2 * j + 2 = i
    · rcases hstop with h0 | hle
      · omega
      · have hj' : (i - 1) / 2 = j := by omega
        rw [hj'] at hle
        rw [hci]
        exact hle
    · exact hh.2 hv hci

/-- The loop of `up`, run on a queue whose counter does not yet count the
entry at position `i`, ends and restores the order invariant of the `N`
entries. -/
theorem upLoop_spec (junk : Nat → Slot_queue V) :
    ∀ (fuel : Nat) (pq : PriorityQueue V) (N i : Nat),
      UpInv junk { pq with num_element := N } i → 1 ≤ i → i < N → i < fuel →
      ∃ pq', upLoop junk fuel pq i (parentOf i) = .ok pq' ∧
        DownResult junk { pq with num_element := N } { pq' with num_element := N } := by
  intro fuel
  induction fuel with
  | zero => intro pq N i _ _ _ hf; omega
  | succ fuel ih =>
    intro pq N i h h1 hi hf
    have hrange : N < U32 := h.range
    have hinside : N ≤ pq.slot.length := h.inside
    have hpar : parentOf i = (i - 1) / 2 := parentOf_eq h1 (by omega)
    rw [hpar]
    unfold upLoop
    rw [readCell_ok junk pq (show (i - 1) / 2 < pq.slot.length by omega), ok_bind,
      readCell_ok junk pq (show i < pq.slot.length by omega), ok_bind]
    by_cases hc : (cell junk pq ((i - 1) / 2)).key > (cell junk pq i).key
    · rw [if_pos hc]
      have hp : (i - 1) / 2 < N := by omega
      obtain ⟨pa, hpa⟩ := h.found _ hp
      obtain ⟨pb, hpb⟩ := h.found i hi
      have hs := swap_ok junk pq (show (i - 1) / 2 < pq.slot.length by omega)
        (show i < pq.slot.length by omega) hpa hpb
      rw [hs, ok_bind]
      have hstep : UpInv junk (swapped junk { pq with num_element := N } ((i - 1) / 2) i pa pb)
          ((i - 1) / 2) := h.raise hi h1 hc pa pb
      by_cases h0 : (i - 1) / 2 = 0
      · rw [if_pos h0]
        refine ⟨_, rfl, DownResult.after_swap pa pb hp hi hinside (DownResult.refl ?_)⟩
        exact hstep.order_at_rest (Or.inl h0)
      · rw [if_neg h0]
        obtain ⟨pq', hrun, hres⟩ := ih (swapped junk pq ((i - 1) / 2) i pa pb) N ((i - 1) / 2)
          hstep (by omega) hp (by omega)
        refine ⟨pq', ?_, DownResult.after_swap pa pb hp hi hinside hres⟩
        rw [← hrun, parentOf_eq (by omega) (by omega)]
    · rw [if_neg hc]
      refine ⟨pq, rfl, DownResult.refl (h.order_at_rest (Or.inr ?_))⟩
      exact Nat.le_of_not_lt hc

/-- The member `up(i)`, called before the counter counts the entry at
position `i`. -/
theorem up_spec (junk : Nat → Slot_queue V) (pq : PriorityQueue V) (N i : Nat)
    (h : UpInv junk { pq with num_element := N } i) (hi : i < N) :
    ∃ pq', up junk pq i = .ok pq' ∧
      DownResult junk { pq with num_element := N } { pq' with num_element := N } := by
  unfold up
  by_cases h0 : i = 0
  · rw [if_pos h0]
    exact ⟨pq, rfl, DownResult.refl (h.order_at_rest (Or.inl h0))⟩
  · rw [if_neg h0]
    exact upLoop_spec junk (i + 1) pq N i h (by omega) hi (by omega)

theorem liveKeys_eq (junk : Nat → Slot_queue V) (pq : PriorityQueue V) :
    liveKeys junk pq = (live junk pq).map Prod.fst := by
  unfold liveKeys live
  rw [List.map_map]
  rfl

theorem mem_liveKeys {junk : Nat → Slot_queue V} {pq : PriorityQueue V} {κ : Nat} :
    κ ∈ liveKeys junk pq ↔ ∃ k, k < pq.num_element ∧ keyAt junk pq k = κ := by
  unfold liveKeys keyAt
  simp only [List.mem_map, List.mem_range]

theorem uniqueInv_iff (junk : Nat → Slot_queue V) (pq : PriorityQueue V) :
    UniqueInv junk pq ↔ (liveKeys junk pq).Nodup := by
  unfold liveKeys UniqueInv keyAt
  rw [List.nodup_map_iff_inj_on (List.nodup_range _)]
  simp only [List.mem_range]

/-- In heap order the key at position 0 is the least live key. -/
theorem minCorrect_of_order {junk : Nat → Slot_queue V} {pq : PriorityQueue V}
    (h : OrderInv junk pq) : MinCorrect junk pq := by
  intro i
  induction i using Nat.strong_induction_on with
  | _ i ih =>
    intro hi
    by_cases h0 : i = 0
    · subst h0
      exact Nat.le_refl _
    · have hp : (i - 1) / 2 < pq.num_element := by omega
      have h1 := ih ((i - 1) / 2) (by omega) hp
      have h2 := h ((i - 1) / 2) hp
      have hchild : i = 2 * ((i - 1) / 2) + 1 ∨ i = 2 * ((i - 1) / 2) + 2 := by omega
      rcases hchild with hc | hc
      · have := h2.1 (by omega)
        rw [← hc] at this
        omega
      · have := h2.2 (by omega)
        rw [← hc] at this
        omega

/-- The body of `insert` once the key has passed both tests. -/
theorem insert_eq (junk : Nat → Slot_queue V) (hjunk : Nat → Nat → Nat × Nat)
    (pq : PriorityQueue V) (key : Nat) (value : V) (hroom : pq.num_element ≠ pq.size_max)
    (hlen : pq.num_element < pq.slot.length) (habs : pq.mapping.get key = .ok none) :
    insert junk hjunk pq key value =
      (HashTable.insert hjunk pq.mapping key pq.num_element >>= fun r =>
        up junk { slot := pq.slot.set pq.num_element { key := key, value := value },
                  mapping := r.2, num_element := pq.num_element, size_max := pq.size_max }
          pq.num_element >>= fun pq3 =>
        pure (true, { pq3 with num_element := uadd pq3.num_element 1 })) := by
  unfold insert
  rw [if_neg hroom, habs, ok_bind]
  simp only
  rw [setCell_ok _ _ hlen, ok_bind]

theorem up_keeps {junk : Nat → Slot_queue V} (P : HashTable Nat → Prop)
    (hP : ∀ m p v, P m → P (m.writeValue p v)) {pq pq' : PriorityQueue V} {i : Nat}
    (h : up junk pq i = .ok pq') (hm : P pq.mapping) :
    P pq'.mapping ∧ pq'.num_element = pq.num_element :=
  up_holds (fun q => P q.mapping ∧ q.num_element = pq.num_element)
    (fun _ _ _ _ _ hq => ⟨hP _ _ _ (hP _ _ _ hq.1), hq.2⟩) h ⟨hm, rfl⟩

theorem down_keeps {junk : Nat → Slot_queue V} (P : HashTable Nat → Prop)
    (hP : ∀ m p v, P m → P (m.writeValue p v)) {pq pq' : PriorityQueue V} {i : Nat}
    (h : down junk pq i = .ok pq') (hm : P pq.mapping) : P pq'.mapping :=
  down_holds (fun q => P q.mapping) (fun _ _ _ _ _ hq => hP _ _ _ (hP _ _ _ hq)) h hm

theorem keeps_clean (k : Nat) (m : HashTable Nat) (p v : Nat)
    (h : HashTable.Clean m ∧ m.num_element = k) :
    HashTable.Clean (m.writeValue p v) ∧ (m.writeValue p v).num_element = k :=
  ⟨HashTable.clean_writeValue h.1 p v, by rw [HashTable.num_element_writeValue]; exact h.2⟩

/-- A queue kept by `insert` and `deleteMin` holds fewer than `2 ^ 31` entries. -/
theorem PlainInv.small {junk : Nat → Slot_queue V} {pq : PriorityQueue V}
    (h : PlainInv junk pq) : pq.num_element < 2147483648 := by
  have h1 := h.bound
  have h2 := h.clean.load
  have h3 := h.clean.small
  unfold U32 at h3
  omega

/-- The keys of two queues whose live entries are permutations of each other. -/
theorem mem_liveKeys_of_perm {junk : Nat → Slot_queue V} {pq pq' : PriorityQueue V}
    (h : (live junk pq').Perm (live junk pq)) {κ : Nat} :
    κ ∈ liveKeys junk pq' ↔ κ ∈ liveKeys junk pq := by
  rw [liveKeys_eq, liveKeys_eq]
  exact (h.map Prod.fst).mem_iff

/-- The call `insert` of a key the index does not hold, once the index has
taken the key: it returns true and keeps what plain use keeps. -/
theorem insert_after_index (junk : Nat → Slot_queue V) (hjunk : Nat → Nat → Nat × Nat)
    {pq : PriorityQueue V} {key : Nat} (value : V) {bt : Bool} {m' : HashTable Nat}
    (hinv : PlainInv junk pq) (hroom : pq.num_element ≠ pq.size_max)
    (hg : pq.mapping.get key = .ok none)
    (hins : HashTable.insert hjunk pq.mapping key pq.num_element = .ok (bt, m')) :
    ∃ pq', insert junk hjunk pq key value = .ok (true, pq') ∧ PlainInv junk pq' := by
  have hlength := hinv.length
  have hinside := hinv.inside
  have hsmall := hinv.small
  have hlen : pq.num_element < pq.slot.length := by omega
  rw [insert_eq junk hjunk pq key value hroom hlen hg, hins, ok_bind]
  rcases HashTable.insertAux_spec hjunk _ pq.mapping key pq.num_element bt m' hinv.clean hins with
    ⟨_, _, j, hj⟩ | ⟨_, hadd⟩
  · rw [hg] at hj
    cases hj
  · have hkey : ∀ k, keyAt junk
        ({ slot := pq.slot.set pq.num_element { key := key, value := value },
           mapping := m', num_element := pq.num_element + 1,
           size_max := pq.size_max } : PriorityQueue V) k =
        if k = pq.num_element then key else keyAt junk pq k := by
      intro k
      unfold keyAt
      rw [cell_set junk pq _ hlen]
      split_ifs <;> rfl
    have hfound' : ∀ k < pq.num_element + 1, ∃ p,
        m'.get (if k = pq.num_element then key else keyAt junk pq k) = .ok (some p) := by
      intro k hk
      by_cases hkn : k = pq.num_element
      · rw [if_pos hkn]
        exact HashTable.get_of_lookup hadd.here
      · rw [if_neg hkn]
        obtain ⟨p, hp⟩ := hinv.found k (by omega)
        obtain ⟨w, hw⟩ := HashTable.lookup_of_get hp
        exact HashTable.get_of_lookup (hadd.kept _ _ hw)
    have hup : UpInv junk
        ({ slot := pq.slot.set pq.num_element { key := key, value := value },
           mapping := m', num_element := pq.num_element + 1,
           size_max := pq.size_max } : PriorityQueue V) pq.num_element := by
      refine ⟨?_, ?_, ?_, ?_, ?_⟩
      · show pq.num_element + 1 ≤ (pq.slot.set _ _).length
        rw [List.length_set]
        omega
      · show pq.num_element + 1 < U32
        unfold U32
        omega
      · intro k hk
        rw [hkey]
        exact hfound' k hk
      · intro j hj
        have hj' : j < pq.num_element + 1 := hj
        constructor
        · intro hv hne
          have hv' : 2 * j + 1 < pq.num_element + 1 := hv
          rw [hkey, hkey, if_neg (by omega), if_neg (by omega)]
          exact (hinv.order j (by omega)).1 (by omega)
        · intro hv hne
          have hv' : 2 * j + 2 < pq.num_element + 1 := hv
          rw [hkey, hkey, if_neg (by omega), if_neg (by omega)]
          exact (hinv.order j (by omega)).2 (by omega)
      · intro j hj
        constructor
        · intro hv
          have hv' : 2 * pq.num_element + 1 < pq.num_element + 1 := hv
          omega
        · intro hv
          have hv' : 2 * pq.num_element + 2 < pq.num_element + 1 := hv
          omega
    obtain ⟨pq3, hrun, hres⟩ := up_spec junk
      ({ slot := pq.slot.set pq.num_element { key := key, value := value },
         mapping := m', num_element := pq.num_element,
         size_max := pq.size_max } : PriorityQueue V) (pq.num_element + 1) pq.num_element
      hup (by omega)
    rw [hrun, ok_bind]
    obtain ⟨⟨hclean3, hcount3⟩, hnum3⟩ := up_keeps
      (fun m => HashTable.Clean m ∧ m.num_element = pq.mapping.num_element + 1)
      (keeps_clean _) hrun ⟨hadd.clean, hadd.count⟩
    have hnum3' : pq3.num_element = pq.num_element := hnum3
    have hu : uadd pq3.num_element 1 = pq.num_element + 1 := by
      rw [hnum3']
      unfold uadd U32
      exact Nat.mod_eq_of_lt (by omega)
    rw [hu]
    refine ⟨{ pq3 with num_element := pq.num_element + 1 }, rfl, ?_⟩
    have hperm := hres.perm
    have hmem : ∀ κ, κ ∈ liveKeys junk { pq3 with num_element := pq.num_element + 1 } ↔
        ∃ k, k < pq.num_element + 1 ∧
          (if k = pq.num_element then key else keyAt junk pq k) = κ := by
      intro κ
      rw [mem_liveKeys_of_perm hperm, mem_liveKeys]
      constructor
      · rintro ⟨k, hk, hkκ⟩
        rw [hkey] at hkκ
        exact ⟨k, hk, hkκ⟩
      · rintro ⟨k, hk, hkκ⟩
        refine ⟨k, hk, ?_⟩
        rw [hkey]
        exact hkκ
    refine ⟨hclean3, ?_, ?_, ?_, hres.order, ?_, ?_⟩
    · have := hres.length
      have h2 : pq3.slot.length = (pq.slot.set pq.num_element
          { key := key, value := value }).length := this
      rw [List.length_set] at h2
      have h3 : pq3.size_max = pq.size_max := hres.size
      show pq3.slot.length = pq3.size_max
      omega
    · have h3 : pq3.size_max = pq.size_max := hres.size
      show pq.num_element + 1 ≤ pq3.size_max
      omega
    · show pq.num_element + 1 ≤ pq3.mapping.num_element
      have := hinv.bound
      omega
    · rw [uniqueInv_iff, liveKeys_eq]
      refine (hperm.map Prod.fst).nodup_iff.mpr ?_
      rw [← liveKeys_eq, ← uniqueInv_iff]
      intro i hi j hj hij
      have hi' : i < pq.num_element + 1 := hi
      have hj' : j < pq.num_element + 1 := hj
      rw [hkey, hkey] at hij
      have habsent : ∀ k < pq.num_element, keyAt junk pq k ≠ key := by
        intro k hk heq
        obtain ⟨p, hp⟩ := hinv.found k hk
        rw [heq, hg] at hp
        cases hp
      by_cases hin : i = pq.num_element
      · by_cases hjn : j = pq.num_element
        · omega
        · rw [if_pos hin, if_neg hjn] at hij
          exact absurd hij.symm (habsent j (by omega))
      · by_cases hjn : j = pq.num_element
        · rw [if_neg hin, if_pos hjn] at hij
          exact absurd hij (habsent i (by omega))
        · rw [if_neg hin, if_neg hjn] at hij
          exact hinv.unique i (by omega) j (by omega) hij
    · intro k hk
      have hk' : k < pq.num_element + 1 := hk
      have hin : keyAt junk { pq3 with num_element := pq.num_element + 1 } k ∈
          liveKeys junk { pq3 with num_element := pq.num_element + 1 } :=
        mem_liveKeys.mpr ⟨k, hk, rfl⟩
      obtain ⟨k', hk2, hkκ⟩ := (hmem _).mp hin
      have hsame := hres.sameGet
        (keyAt junk { pq3 with num_element := pq.num_element + 1 } k)
      have hsame' : pq3.mapping.get
          (keyAt junk { pq3 with num_element := pq.num_element + 1 } k) =
          m'.get (keyAt junk { pq3 with num_element := pq.num_element + 1 } k) := hsame
      show ∃ p, pq3.mapping.get
        (keyAt junk { pq3 with num_element := pq.num_element + 1 } k) = .ok (some p)
      rw [hsame', ← hkκ]
      exact hfound' k' hk2


/-- The call `insert` keeps what plain use keeps. -/
theorem insert_plain (junk : Nat → Slot_queue V) (hjunk : Nat → Nat → Nat × Nat)
    {pq pq' : PriorityQueue V} {key : Nat} {value : V} {b : Bool} (hinv : PlainInv junk pq)
    (h : insert junk hjunk pq key value = .ok (b, pq')) : PlainInv junk pq' := by
  by_cases hroom : pq.num_element = pq.size_max
  · unfold insert at h
    rw [if_pos hroom] at h
    cases h
    exact hinv
  · cases hg : pq.mapping.get key with
    | error e =>
      unfold insert at h
      rw [if_neg hroom, hg] at h
      cases h
    | ok mp =>
      cases mp with
      | some p =>
        unfold insert at h
        rw [if_neg hroom, hg, ok_bind] at h
        cases h
        exact hinv
      | none =>
        cases hins : HashTable.insert hjunk pq.mapping key pq.num_element with
        | error e =>
          have hlength := hinv.length
          have hinside := hinv.inside
          rw [insert_eq junk hjunk pq key value hroom (by omega) hg, hins] at h
          cases h
        | ok r =>
          obtain ⟨pq2, hrun, hinv'⟩ := insert_after_index junk hjunk value hinv hroom hg hins
          rw [hrun] at h
          cases h
          exact hinv'

/-- The positions behind the root hold the tail of the live keys. -/
theorem mem_tail_liveKeys {junk : Nat → Slot_queue V} {pq : PriorityQueue V} {κ : Nat}
    (h : κ ∈ (liveKeys junk pq).tail) :
    ∃ j, 1 ≤ j ∧ j < pq.num_element ∧ keyAt junk pq j = κ := by
  unfold liveKeys at h
  cases hn : pq.num_element with
  | zero =>
    rw [hn] at h
    simp at h
  | succ m =>
    rw [hn, List.range_succ_eq_map, List.map_cons, List.tail_cons, List.map_map] at h
    obtain ⟨a, ha, hκ⟩ := List.mem_map.mp h
    exact ⟨a + 1, by omega, by simpa using ha, hκ⟩

/-- The first comparison of `down(0)` reads outside an array of one or two
cells. -/
theorem down_outside (junk : Nat → Slot_queue V) (pq : PriorityQueue V)
    (h : pq.slot.length ≤ 2) : down junk pq 0 = .error .outOfBounds := by
  have hl : leftOf 0 = 1 := by decide
  have hr : rightOf 0 = 2 := by decide
  unfold down smallerOf
  rw [hl, hr, readCell_outside junk pq (show pq.slot.length ≤ 2 from h)]
  by_cases h1 : 1 < pq.slot.length
  · rw [readCell_ok junk pq h1]
    rfl
  · rw [readCell_outside junk pq (by omega)]
    rfl

/-- The call `deleteMin` on a queue of capacity at least 3 in plain use that is
not empty: it returns true, keeps what plain use keeps, leaves the old entries
without the root, and every key it leaves is above the key it took. -/
theorem deleteMin_plain (junk : Nat → Slot_queue V) {pq : PriorityQueue V}
    (hinv : PlainInv junk pq) (h1 : 1 ≤ pq.num_element) (hroom : 3 ≤ pq.size_max) :
    ∃ pq', deleteMin junk pq = .ok (true, pq') ∧ PlainInv junk pq' ∧
      pq'.size_max = pq.size_max ∧ pq'.num_element = pq.num_element - 1 ∧
      (live junk pq').Perm (live junk pq).tail ∧
      ∀ i < pq'.num_element, keyAt junk pq 0 < keyAt junk pq' i := by
  have hlength := hinv.length
  have hinside := hinv.inside
  have hsmall := hinv.small
  have hlen : pq.num_element ≤ pq.slot.length := by omega
  obtain ⟨pq', hrun, hres⟩ := deleteMin_spec junk pq h1 hlen (by omega) (by omega) hinv.order
    hinv.found
  have hdown : down junk (rootReplaced junk pq) 0 = .ok pq' := by
    have h := hrun
    rw [deleteMin_eq junk pq h1 hlen (by unfold U32; omega)] at h
    cases hd : down junk (rootReplaced junk pq) 0 with
    | error e => rw [hd] at h; cases h
    | ok q =>
      rw [hd] at h
      have h' : (Except.ok (true, q) : Except Fault (Bool × PriorityQueue V)) =
          .ok (true, pq') := h
      injection h' with h'
      injection h' with _ h2
      rw [h2]
  obtain ⟨hclean, hcount⟩ := down_keeps
    (fun m => HashTable.Clean m ∧ m.num_element = pq.mapping.num_element)
    (keeps_clean _) hdown ⟨hinv.clean, rfl⟩
  have hperm : (live junk pq').Perm (live junk pq).tail :=
    hres.perm.trans (live_rootReplaced junk pq (by omega))
  have hn : pq'.num_element = pq.num_element - 1 := hres.count
  have hkeys : ∀ κ, κ ∈ liveKeys junk pq' → κ ∈ (liveKeys junk pq).tail := by
    intro κ hκ
    rw [liveKeys_eq] at hκ
    rw [liveKeys_eq, ← List.map_tail]
    exact ((hperm.map Prod.fst).mem_iff).mp hκ
  have hmin := minCorrect_of_order hinv.order
  refine ⟨pq', hrun, ⟨hclean, ?_, ?_, ?_, hres.order, ?_, ?_⟩, hres.size, hn, hperm, ?_⟩
  · have h2 : pq'.slot.length = (pq.slot.set 0 (cell junk pq (pq.num_element - 1))).length :=
      hres.length
    rw [List.length_set] at h2
    have h3 : pq'.size_max = pq.size_max := hres.size
    omega
  · have h3 : pq'.size_max = pq.size_max := hres.size
    omega
  · have := hinv.bound
    omega
  · rw [uniqueInv_iff, liveKeys_eq]
    refine (hperm.map Prod.fst).nodup_iff.mpr ?_
    rw [List.map_tail, ← liveKeys_eq]
    exact ((uniqueInv_iff junk pq).mp hinv.unique).tail
  · intro k hk
    obtain ⟨j, _, hj, hκ⟩ := mem_tail_liveKeys (hkeys _ (mem_liveKeys.mpr ⟨k, hk, rfl⟩))
    obtain ⟨p, hp⟩ := hinv.found j hj
    have hsame : pq'.mapping.get (keyAt junk pq' k) = pq.mapping.get (keyAt junk pq' k) :=
      hres.sameGet _
    rw [hsame, ← hκ]
    exact ⟨p, hp⟩
  · intro i hi
    obtain ⟨j, hj1, hj, hκ⟩ := mem_tail_liveKeys (hkeys _ (mem_liveKeys.mpr ⟨i, hi, rfl⟩))
    have hle := hmin j hj
    have hne : keyAt junk pq 0 ≠ keyAt junk pq j := by
      intro heq
      have := hinv.unique 0 (by omega) j hj heq
      omega
    rw [← hκ]
    omega

/-- The constructor hands out a queue in the state plain use keeps. -/
theorem plainInv_new {junk : Nat → Slot_queue V} {hjunk : Nat → Nat → Nat × Nat} {maxSize : Nat}
    {pq : PriorityQueue V} (h : new junk hjunk maxSize = .ok pq) : PlainInv junk pq := by
  unfold new at h
  by_cases h0 : maxSize = 0
  · rw [if_pos h0] at h
    cases h
  · rw [if_neg h0] at h
    cases hp : HashTable.nextPrimeLoop U32 (usub (umul 2 maxSize) 1) with
    | error e => rw [hp] at h; cases h
    | ok p =>
      rw [hp, ok_bind] at h
      cases hm : HashTable.new hjunk p with
      | error e => rw [hm] at h; cases h
      | ok m =>
        rw [hm, ok_bind] at h
        cases h
        refine ⟨HashTable.clean_new (HashTable.nextPrimeLoop_lt _ _ _ hp) hm, ?_, ?_, ?_, ?_, ?_, ?_⟩
        · simp
        · exact Nat.zero_le _
        · exact Nat.zero_le _
        · intro i hi
          exact absurd hi (Nat.not_lt_zero _)
        · intro i hi
          exact absurd hi (Nat.not_lt_zero _)
        · intro i hi
          exact absurd hi (Nat.not_lt_zero _)

/-- One call of `insert` or `deleteMin` keeps what plain use keeps. -/
theorem step_plain (junk : Nat → Slot_queue V) (hjunk : Nat → Nat → Nat × Nat)
    {pq : PriorityQueue V} {op : Op V} {r : Bool × PriorityQueue V} (hinv : PlainInv junk pq)
    (hop : op.plain = true) (h : step junk hjunk pq op = .ok r) : PlainInv junk r.2 := by
  obtain ⟨b, pq'⟩ := r
  cases op with
  | insert key value => exact insert_plain junk hjunk hinv h
  | deleteMin =>
    have h' : deleteMin junk pq = .ok (b, pq') := h
    by_cases h0 : pq.num_element = 0
    · unfold deleteMin at h'
      rw [if_pos h0] at h'
      cases h'
      exact hinv
    · by_cases hroom : 3 ≤ pq.size_max
      · obtain ⟨pq2, hrun, hinv', _⟩ := deleteMin_plain junk hinv (by omega) hroom
        rw [hrun] at h'
        cases h'
        exact hinv'
      · exfalso
        have hlength := hinv.length
        have hinside := hinv.inside
        have hsmall := hinv.small
        rw [deleteMin_eq junk pq (by omega) (by omega) (by unfold U32; omega),
          down_outside junk _ (show (rootReplaced junk pq).slot.length ≤ 2 by
            simp only [rootReplaced, List.length_set]; omega)] at h'
        cases h'
  | remove key => cases hop
  | decreaseKey key change => cases hop
  | increaseKey key change => cases hop

/-- A run of `insert` and `deleteMin` calls keeps what plain use keeps. -/
theorem run_plain (junk : Nat → Slot_queue V) (hjunk : Nat → Nat → Nat × Nat) :
    ∀ (ops : List (Op V)) (pq pq' : PriorityQueue V), PlainInv junk pq →
      (∀ op ∈ ops, op.plain = true) → run junk hjunk pq ops = .ok pq' → PlainInv junk pq' := by
  intro ops
  induction ops with
  | nil =>
    intro pq pq' hinv _ h
    cases h
    exact hinv
  | cons op ops ih =>
    intro pq pq' hinv hops h
    unfold run at h
    cases hs : step junk hjunk pq op with
    | error e => rw [hs] at h; cases h
    | ok r =>
      rw [hs, ok_bind] at h
      exact ih r.2 pq' (step_plain junk hjunk hinv (hops op (List.mem_cons_self _ _)) hs)
        (fun o ho => hops o (List.mem_cons_of_mem _ ho)) h

/-- Every state of plain use is in the state plain use keeps. -/
theorem plainInv_of_reachable {junk : Nat → Slot_queue V} {hjunk : Nat → Nat → Nat × Nat}
    {maxSize : Nat} {pq : PriorityQueue V} (h : PlainReachable junk hjunk maxSize pq) :
    PlainInv junk pq := by
  obtain ⟨pq0, ops, hnew, hops, hrun⟩ := h
  exact run_plain junk hjunk ops pq0 pq (plainInv_new hnew) hops hrun

/-- Running two sequences of calls one after the other. -/
theorem run_append (junk : Nat → Slot_queue V) (hjunk : Nat → Nat → Nat × Nat) :
    ∀ (ops ops' : List (Op V)) (pq : PriorityQueue V),
      run junk hjunk pq (ops ++ ops') =
        run junk hjunk pq ops >>= fun p => run junk hjunk p ops' := by
  intro ops
  induction ops with
  | nil =>
    intro ops' pq
    rfl
  | cons op ops ih =>
    intro ops' pq
    show (step junk hjunk pq op >>= fun r => run junk hjunk r.2 (ops ++ ops')) =
      (step junk hjunk pq op >>= fun r => run junk hjunk r.2 ops) >>= fun p =>
        run junk hjunk p ops'
    cases hs : step junk hjunk pq op with
    | error e => rfl
    | ok r => exact ih ops' r.2

/-- Plain use continued by plain use is plain use. -/
theorem plainReachable_run {junk : Nat → Slot_queue V} {hjunk : Nat → Nat → Nat × Nat}
    {maxSize : Nat} {pq pq' : PriorityQueue V} (h : PlainReachable junk hjunk maxSize pq)
    (ops' : List (Op V)) (hops' : ∀ op ∈ ops', op.plain = true)
    (hrun' : run junk hjunk pq ops' = .ok pq') : PlainReachable junk hjunk maxSize pq' := by
  obtain ⟨pq0, ops, hnew, hops, hrun⟩ := h
  refine ⟨pq0, ops ++ ops', hnew, ?_, ?_⟩
  · intro op hop
    rcases List.mem_append.mp hop with h1 | h1
    · exact hops op h1
    · exact hops' op h1
  · rw [run_append, hrun, ok_bind]
    exact hrun'

/-- A run from a fresh queue on zeroed storage by `insert` and `deleteMin`
ends in a state of plain use. -/
theorem plainReachable_of_fromFresh {maxSize : Nat} {ops : List (Op Nat)} {pq : PriorityQueue Nat}
    (hops : ∀ op ∈ ops, op.plain = true) (h : fromFresh maxSize ops = .ok pq) :
    PlainReachable zeroJunk zeroHJunk maxSize pq := by
  unfold fromFresh at h
  cases hnew : new zeroJunk zeroHJunk maxSize with
  | error e => rw [hnew] at h; cases h
  | ok pq0 =>
    rw [hnew] at h
    exact ⟨pq0, ops, hnew, hops, h⟩

/-- With an entry in the queue the first live key is the key at position 0. -/
theorem liveKeys_cons {junk : Nat → Slot_queue V} {pq : PriorityQueue V}
    (h : pq.num_element ≠ 0) :
    liveKeys junk pq = keyAt junk pq 0 :: (liveKeys junk pq).tail := by
  unfold liveKeys
  cases hn : pq.num_element with
  | zero => exact absurd hn h
  | succ m =>
    rw [List.range_succ_eq_map]
    rfl

/-- The client that empties a queue in plain use reads its live keys, each
above the one before. -/
theorem takeMins_plain (junk : Nat → Slot_queue V) (hjunk : Nat → Nat → Nat × Nat) :
    ∀ (n : Nat) (pq : PriorityQueue V), PlainInv junk pq → 3 ≤ pq.size_max →
      pq.num_element = n →
      ∃ ks pq', takeMins junk n pq = .ok (ks, pq') ∧
        run junk hjunk pq (List.replicate n .deleteMin) = .ok pq' ∧
        pq'.num_element = 0 ∧ ks.Sorted (fun a b => a < b) ∧ ks.Perm (liveKeys junk pq) := by
  intro n
  induction n with
  | zero =>
    intro pq _ _ hn
    refine ⟨[], pq, rfl, rfl, hn, List.sorted_nil, ?_⟩
    unfold liveKeys
    rw [hn]
    exact List.Perm.refl _
  | succ n ih =>
    intro pq hinv hroom hn
    have hne : pq.num_element ≠ 0 := by omega
    obtain ⟨pq1, hdel, hinv1, hsize1, hn1, hperm1, hgt⟩ :=
      deleteMin_plain junk hinv (by omega) hroom
    obtain ⟨ks, pq', htake, hrun, hzero, hsorted, hperm⟩ :=
      ih pq1 hinv1 (by omega) (by omega)
    have hmin : getMinKey junk pq = some (keyAt junk pq 0) := by
      unfold getMinKey
      rw [if_neg hne]
      rfl
    refine ⟨keyAt junk pq 0 :: ks, pq', ?_, ?_, hzero, ?_, ?_⟩
    · unfold takeMins
      rw [hmin]
      simp only
      rw [hdel, ok_bind, htake]
      rfl
    · show (step junk hjunk pq .deleteMin >>= fun r =>
        run junk hjunk r.2 (List.replicate n .deleteMin)) = .ok pq'
      have hs : step junk hjunk pq .deleteMin = .ok (true, pq1) := hdel
      rw [hs, ok_bind]
      exact hrun
    · refine List.sorted_cons.mpr ⟨?_, hsorted⟩
      intro b hb
      obtain ⟨i, hi, hib⟩ := mem_liveKeys.mp (hperm.mem_iff.mp hb)
      rw [← hib]
      exact hgt i hi
    · rw [liveKeys_cons hne]
      refine List.Perm.cons _ (hperm.trans ?_)
      rw [liveKeys_eq, liveKeys_eq, ← List.map_tail]
      exact hperm1.map Prod.fst

/-- The call `insert` returns on a queue in plain use whose index has a prime
capacity, when the keys are in the range where no probe wraps around
`2 ^ 32`. -/
theorem insert_returns_plain (junk : Nat → Slot_queue V) (hjunk : Nat → Nat → Nat × Nat)
    {pq : PriorityQueue V} (hinv : PlainInv junk pq) (key : Nat) (value : V)
    (hp : Nat.Prime pq.mapping.size_table)
    (hkeys : ∀ κ ∈ key :: HashTable.occupiedKeys pq.mapping,
      (κ < U32 ∧ pq.mapping.size_table ≤ 8192) ∨ κ + (2 * pq.mapping.size_table) ^ 2 < U32) :
    ∃ r, insert junk hjunk pq key value = .ok r := by
  by_cases hroom : pq.num_element = pq.size_max
  · unfold insert
    rw [if_pos hroom]
    exact ⟨_, rfl⟩
  · have hrange : HashTable.InRange pq.mapping.size_table key := by
      rcases hkeys key (List.mem_cons_self _ _) with ⟨h1, h2⟩ | h
      · exact Or.inr ⟨h1, by omega⟩
      · refine Or.inl ?_
        have hle : (pq.mapping.size_table / 2) * (pq.mapping.size_table / 2) ≤
            (2 * pq.mapping.size_table) ^ 2 := by
          rw [sq]
          exact Nat.mul_le_mul (by omega) (by omega)
        omega
    obtain ⟨r, hr⟩ := HashTable.get_returns hinv.clean hp hrange
    cases r with
    | some p =>
      unfold insert
      rw [if_neg hroom, hr, ok_bind]
      exact ⟨_, rfl⟩
    | none =>
      have hidx : ∃ bt m', HashTable.insert hjunk pq.mapping key pq.num_element =
          .ok (bt, m') := by
        cases hg : HashTable.growNeeded pq.mapping with
        | false =>
          obtain ⟨⟨bt, m'⟩, h⟩ :=
            HashTable.insertAux_returns hjunk 7 hinv.clean hp pq.num_element hrange hg
          exact ⟨bt, m', h⟩
        | true =>
          obtain ⟨t', h, _⟩ :=
            HashTable.insert_grow_total hjunk key pq.num_element hinv.clean hkeys hr hg
          exact ⟨true, t', h⟩
      obtain ⟨bt, m', hins⟩ := hidx
      obtain ⟨pq', hrun, _⟩ := insert_after_index junk hjunk value hinv hroom hr hins
      exact ⟨_, hrun⟩

/-- Plain use of a queue: in every state that calls of `insert` and
`deleteMin` alone bring a freshly constructed queue into, the live keys are
pairwise distinct and the order invariant holds; `getMinKey` returns a live key
that is at most every live key; when the capacity is at least 3, a client that
reads `getMinKey` and calls `deleteMin` until the queue is empty gets every
call answered, reads the live keys, each above the one before, and leaves an
empty queue in a state of plain use; and `insert` returns, in a state of plain
use, when the index has a prime capacity and the keys are in the range where
no probe wraps around `2 ^ 32`. -/
theorem plain_use_in_heap_order (junk : Nat → Slot_queue V) (hjunk : Nat → Nat → Nat × Nat)
    (maxSize : Nat) (pq : PriorityQueue V) (h : PlainReachable junk hjunk maxSize pq) :
    UniqueInv junk pq ∧ OrderInv junk pq ∧
    (pq.num_element ≠ 0 →
      ∃ k, getMinKey junk pq = some k ∧ k ∈ liveKeys junk pq ∧
        ∀ κ ∈ liveKeys junk pq, k ≤ κ) ∧
    (3 ≤ pq.size_max →
      ∃ ks pq', takeMins junk pq.num_element pq = .ok (ks, pq') ∧
        PlainReachable junk hjunk maxSize pq' ∧ pq'.num_element = 0 ∧
        ks.Sorted (fun a b => a < b) ∧ ks.Perm (liveKeys junk pq)) ∧
    (∀ (key : Nat) (value : V), Nat.Prime pq.mapping.size_table →
      (∀ κ ∈ key :: HashTable.occupiedKeys pq.mapping,
        (κ < U32 ∧ pq.mapping.size_table ≤ 8192) ∨
        κ + (2 * pq.mapping.size_table) ^ 2 < U32) →
      ∃ r, insert junk hjunk pq key value = .ok r ∧
        PlainReachable junk hjunk maxSize r.2) := by
  have hinv := plainInv_of_reachable h
  refine ⟨hinv.unique, hinv.order, ?_, ?_, ?_⟩
  · intro hne
    refine ⟨keyAt junk pq 0, ?_, mem_liveKeys.mpr ⟨0, by omega, rfl⟩, ?_⟩
    · unfold getMinKey
      rw [if_neg hne]
      rfl
    · intro κ hκ
      obtain ⟨i, hi, hiκ⟩ := mem_liveKeys.mp hκ
      rw [← hiκ]
      exact minCorrect_of_order hinv.order i hi
  · intro hroom
    obtain ⟨ks, pq', htake, hrun, hzero, hsorted, hperm⟩ :=
      takeMins_plain junk hjunk pq.num_element pq hinv hroom rfl
    refine ⟨ks, pq', htake, plainReachable_run h _ ?_ hrun, hzero, hsorted, hperm⟩
    intro op hop
    rw [List.eq_of_mem_replicate hop]
    rfl
  · intro key value hp hkeys
    obtain ⟨r, hr⟩ := insert_returns_plain junk hjunk hinv key value hp hkeys
    refine ⟨r, hr, plainReachable_run h [.insert key value] ?_ ?_⟩
    · intro op hop
      rw [List.mem_singleton.mp hop]
      rfl
    · show (step junk hjunk pq (.insert key value) >>= fun r => run junk hjunk r.2 []) = .ok r.2
      have hs : step junk hjunk pq (.insert key value) = .ok r := hr
      rw [hs]
      rfl

/-- Plain use at the queue left by `insert(5)`, `insert(3)`, `insert(8)`,
`deleteMin()`, `insert(1)` on a fresh queue of capacity 20, which holds the
keys 1, 8, 5 at positions 0, 1, 2 and has an index of 41 buckets, and at the
call `insert(2, 20)` on it. -/
theorem plain_use_in_heap_order_witness :
    (PlainReachable zeroJunk zeroHJunk 20 plainDemo ∧ plainDemo.num_element ≠ 0 ∧
      3 ≤ plainDemo.size_max ∧ Nat.Prime plainDemo.mapping.size_table ∧
      ∀ κ ∈ 2 :: HashTable.occupiedKeys plainDemo.mapping,
        (κ < U32 ∧ plainDemo.mapping.size_table ≤ 8192) ∨
        κ + (2 * plainDemo.mapping.size_table) ^ 2 < U32) ∧
    (UniqueInv zeroJunk plainDemo ∧ OrderInv zeroJunk plainDemo) ∧
    (∃ k, getMinKey zeroJunk plainDemo = some k ∧ k ∈ liveKeys zeroJunk plainDemo ∧
      ∀ κ ∈ liveKeys zeroJunk plainDemo, k ≤ κ) ∧
    (∃ ks pq', takeMins zeroJunk plainDemo.num_element plainDemo = .ok (ks, pq') ∧
      PlainReachable zeroJunk zeroHJunk 20 pq' ∧ pq'.num_element = 0 ∧
      ks.Sorted (fun a b => a < b) ∧ ks.Perm (liveKeys zeroJunk plainDemo)) ∧
    (∃ r, insert zeroJunk zeroHJunk plainDemo 2 20 = .ok r ∧
      PlainReachable zeroJunk zeroHJunk 20 r.2) :=
  have hreach : PlainReachable zeroJunk zeroHJunk 20 plainDemo :=
    @plainReachable_of_fromFresh 20 plainDemoOps plainDemo (by decide) (by decide)
  have hprime : Nat.Prime plainDemo.mapping.size_table := by
    rw [show plainDemo.mapping.size_table = 41 by decide]
    norm_num
  ⟨⟨hreach, by decide, by decide, hprime, by decide⟩,
    ⟨(plain_use_in_heap_order zeroJunk zeroHJunk 20 plainDemo hreach).1,
      (plain_use_in_heap_order zeroJunk zeroHJunk 20 plainDemo hreach).2.1⟩,
    (plain_use_in_heap_order zeroJunk zeroHJunk 20 plainDemo hreach).2.2.1 (by decide),
    (plain_use_in_heap_order zeroJunk zeroHJunk 20 plainDemo hreach).2.2.2.1 (by decide),
    (plain_use_in_heap_order zeroJunk zeroHJunk 20 plainDemo hreach).2.2.2.2 2 20 hprime
      (by decide)⟩


/-! ### The counter and the capacity -/

theorem setCell_eq_ok {pq pq' : PriorityQueue V} {i : Nat} {c : Slot_queue V}
    (h : setCell pq i c = .ok pq') : i < pq.slot.length ∧ pq' = { pq with slot := pq.slot.set i c } := by
  unfold setCell at h
  by_cases hi : i < pq.slot.length
  · rw [if_pos hi] at h
    injection h with h
    exact ⟨hi, h.symm⟩
  · rw [if_neg hi] at h
    cases h

theorem shape_setCell {pq pq' : PriorityQueue V} {i : Nat} {c : Slot_queue V}
    (h : setCell pq i c = .ok pq') :
    Shape pq' pq.num_element pq.size_max pq.slot.length ∧ pq'.mapping = pq.mapping := by
  obtain ⟨_, rfl⟩ := setCell_eq_ok h
  exact ⟨⟨rfl, rfl, by simp⟩, rfl⟩

theorem shape_swapped (junk : Nat → Slot_queue V) (n sz len : Nat) (pq : PriorityQueue V)
    (i j pa pb : Nat) (h : Shape pq n sz len) : Shape (swapped junk pq i j pa pb) n sz len := by
  obtain ⟨h1, h2, h3⟩ := h
  refine ⟨h1, h2, ?_⟩
  simp only [swapped, List.length_set]
  exact h3

theorem shape_up {junk : Nat → Slot_queue V} {pq pq' : PriorityQueue V} {i : Nat}
    (h : up junk pq i = .ok pq') : Shape pq' pq.num_element pq.size_max pq.slot.length :=
  up_holds (fun q => Shape q pq.num_element pq.size_max pq.slot.length)
    (shape_swapped junk _ _ _) h ⟨rfl, rfl, rfl⟩

theorem shape_down {junk : Nat → Slot_queue V} {pq pq' : PriorityQueue V} {i : Nat}
    (h : down junk pq i = .ok pq') : Shape pq' pq.num_element pq.size_max pq.slot.length :=
  down_holds (fun q => Shape q pq.num_element pq.size_max pq.slot.length)
    (shape_swapped junk _ _ _) h ⟨rfl, rfl, rfl⟩

theorem uadd_one_le_succ (n : Nat) : uadd n 1 ≤ n + 1 := by
  unfold uadd
  exact Nat.mod_le _ _

theorem insert_count (junk : Nat → Slot_queue V) (hjunk : Nat → Nat → Nat × Nat)
    {pq : PriorityQueue V} {key : Nat} {value : V} {r : Bool × PriorityQueue V}
    (hinv : CountInv pq) (h : insert junk hjunk pq key value = .ok r) : CountInv r.2 := by
  unfold insert at h
  by_cases hroom : pq.num_element = pq.size_max
  · rw [if_pos hroom] at h
    cases h
    exact hinv
  · rw [if_neg hroom] at h
    obtain ⟨va, _, h⟩ := bind_eq_ok h
    cases va with
    | some p =>
      cases h
      exact hinv
    | none =>
      simp only at h
      obtain ⟨pq1, h1, h⟩ := bind_eq_ok h
      obtain ⟨⟨hn1, hs1, hl1⟩, _⟩ := shape_setCell h1
      obtain ⟨r1, _, h⟩ := bind_eq_ok h
      obtain ⟨pq3, hup, h⟩ := bind_eq_ok h
      obtain ⟨hn3, hs3, hl3⟩ := shape_up hup
      cases h
      obtain ⟨hle, hlen⟩ := hinv
      have hu := uadd_one_le_succ pq3.num_element
      have hn3' : pq3.num_element = pq1.num_element := hn3
      have hs3' : pq3.size_max = pq1.size_max := hs3
      have hl3' : pq3.slot.length = pq1.slot.length := hl3
      refine ⟨?_, ?_⟩
      · show uadd pq3.num_element 1 ≤ pq3.size_max
        omega
      · show pq3.slot.length = pq3.size_max
        omega

theorem deleteMin_count (junk : Nat → Slot_queue V) {pq : PriorityQueue V}
    {r : Bool × PriorityQueue V} (hinv : CountInv pq) (h : deleteMin junk pq = .ok r) :
    CountInv r.2 := by
  unfold deleteMin at h
  by_cases h0 : pq.num_element = 0
  · rw [if_pos h0] at h
    cases h
    exact hinv
  · rw [if_neg h0] at h
    obtain ⟨last, hlast, h⟩ := bind_eq_ok h
    obtain ⟨hread, _⟩ := readCell_eq_ok hlast
    obtain ⟨pq1, h1, h⟩ := bind_eq_ok h
    obtain ⟨⟨hn1, hs1, hl1⟩, _⟩ := shape_setCell h1
    obtain ⟨last1, _, h⟩ := bind_eq_ok h
    obtain ⟨pq2, h2, h⟩ := bind_eq_ok h
    obtain ⟨⟨hn2, hs2, hl2⟩, _⟩ := shape_setCell h2
    obtain ⟨pq4, hdown, h⟩ := bind_eq_ok h
    obtain ⟨hn4, hs4, hl4⟩ := shape_down hdown
    cases h
    obtain ⟨hle, hlen⟩ := hinv
    have hn4' : pq4.num_element = usub pq2.num_element 1 := hn4
    have hs4' : pq4.size_max = pq2.size_max := hs4
    have hl4' : pq4.slot.length = pq2.slot.length := hl4
    rw [hn2, hn1] at hn4'
    refine ⟨?_, ?_⟩
    · show pq4.num_element ≤ pq4.size_max
      omega
    · show pq4.slot.length = pq4.size_max
      omega

theorem remove_count (junk : Nat → Slot_queue V) {pq : PriorityQueue V} {key : Nat}
    {r : Bool × PriorityQueue V} (hinv : CountInv pq) (h : remove junk pq key = .ok r) :
    CountInv r.2 := by
  unfold remove at h
  obtain ⟨mp, _, h⟩ := bind_eq_ok h
  cases mp with
  | none =>
    cases h
    exact hinv
  | some p =>
    simp only at h
    obtain ⟨pos, _, h⟩ := bind_eq_ok h
    obtain ⟨last, hlast, h⟩ := bind_eq_ok h
    obtain ⟨hread, _⟩ := readCell_eq_ok hlast
    obtain ⟨pq1, h1, h⟩ := bind_eq_ok h
    obtain ⟨⟨hn1, hs1, hl1⟩, _⟩ := shape_setCell h1
    obtain ⟨pos1, _, h⟩ := bind_eq_ok h
    obtain ⟨last1, _, h⟩ := bind_eq_ok h
    obtain ⟨pq2, h2, h⟩ := bind_eq_ok h
    obtain ⟨⟨hn2, hs2, hl2⟩, _⟩ := shape_setCell h2
    obtain ⟨r1, _, h⟩ := bind_eq_ok h
    obtain ⟨pos2, _, h⟩ := bind_eq_ok h
    obtain ⟨pq5, hup, h⟩ := bind_eq_ok h
    obtain ⟨hn5, hs5, hl5⟩ := shape_up hup
    obtain ⟨pos3, _, h⟩ := bind_eq_ok h
    obtain ⟨pq6, hdown, h⟩ := bind_eq_ok h
    obtain ⟨hn6, hs6, hl6⟩ := shape_down hdown
    cases h
    obtain ⟨hle, hlen⟩ := hinv
    have hn5' : pq5.num_element = usub pq2.num_element 1 := hn5
    have hs5' : pq5.size_max = pq2.size_max := hs5
    have hl5' : pq5.slot.length = pq2.slot.length := hl5
    rw [hn2, hn1] at hn5'
    refine ⟨?_, ?_⟩
    · show pq6.num_element ≤ pq6.size_max
      omega
    · show pq6.slot.length = pq6.size_max
      omega

theorem decreaseKey_count (junk : Nat → Slot_queue V) (hjunk : Nat → Nat → Nat × Nat)
    {pq : PriorityQueue V} {key change : Nat} {r : Bool × PriorityQueue V} (hinv : CountInv pq)
    (h : decreaseKey junk hjunk pq key change = .ok r) : CountInv r.2 := by
  unfold decreaseKey at h
  obtain ⟨mp1, _, h⟩ := bind_eq_ok h
  cases mp1 with
  | none =>
    cases h
    exact hinv
  | some p1 =>
    simp only at h
    split at h
    · cases h
      exact hinv
    · obtain ⟨mp2, _, h⟩ := bind_eq_ok h
      cases mp2 with
      | some p2 =>
        cases h
        exact hinv
      | none =>
        simp only at h
        obtain ⟨r1, _, h⟩ := bind_eq_ok h
        split at h
        · obtain ⟨y, hy, _⟩ := bind_eq_ok h
          cases hy
        obtain ⟨pos, _, h⟩ := bind_eq_ok h
        obtain ⟨pq2, h2, h⟩ := bind_eq_ok h
        obtain ⟨⟨hn2, hs2, hl2⟩, _⟩ := shape_setCell h2
        obtain ⟨pos2, _, h⟩ := bind_eq_ok h
        obtain ⟨pq3, hup, h⟩ := bind_eq_ok h
        obtain ⟨hn3, hs3, hl3⟩ := shape_up hup
        obtain ⟨r2, _, h⟩ := bind_eq_ok h
        cases h
        obtain ⟨hle, hlen⟩ := hinv
        have hn2' : pq2.num_element = pq.num_element := hn2
        have hs2' : pq2.size_max = pq.size_max := hs2
        have hl2' : pq2.slot.length = pq.slot.length := hl2
        refine ⟨?_, ?_⟩
        · show pq3.num_element ≤ pq3.size_max
          omega
        · show pq3.slot.length = pq3.size_max
          omega

theorem increaseKey_count (junk : Nat → Slot_queue V) (hjunk : Nat → Nat → Nat × Nat)
    {pq : PriorityQueue V} {key change : Nat} {r : Bool × PriorityQueue V} (hinv : CountInv pq)
    (h : increaseKey junk hjunk pq key change = .ok r) : CountInv r.2 := by
  unfold increaseKey at h
  obtain ⟨mp1, _, h⟩ := bind_eq_ok h
  cases mp1 with
  | none =>
    cases h
    exact hinv
  | some p1 =>
    simp only at h
    split at h
    · cases h
      exact hinv
    · obtain ⟨mp2, _, h⟩ := bind_eq_ok h
      cases mp2 with
      | some p2 =>
        cases h
        exact hinv
      | none =>
        simp only at h
        obtain ⟨r1, _, h⟩ := bind_eq_ok h
        split at h
        · obtain ⟨y, hy, _⟩ := bind_eq_ok h
          cases hy
        obtain ⟨pos, _, h⟩ := bind_eq_ok h
        obtain ⟨pq2, h2, h⟩ := bind_eq_ok h
        obtain ⟨⟨hn2, hs2, hl2⟩, _⟩ := shape_setCell h2
        obtain ⟨pos2, _, h⟩ := bind_eq_ok h
        obtain ⟨pq3, hdown, h⟩ := bind_eq_ok h
        obtain ⟨hn3, hs3, hl3⟩ := shape_down hdown
        obtain ⟨r2, _, h⟩ := bind_eq_ok h
        cases h
        obtain ⟨hle, hlen⟩ := hinv
        have hn2' : pq2.num_element = pq.num_element := hn2
        have hs2' : pq2.size_max = pq.size_max := hs2
        have hl2' : pq2.slot.length = pq.slot.length := hl2
        refine ⟨?_, ?_⟩
        · show pq3.num_element ≤ pq3.size_max
          omega
        · show pq3.slot.length = pq3.size_max
          omega

/-- Every call keeps the counter within the capacity. -/
theorem step_count (junk : Nat → Slot_queue V) (hjunk : Nat → Nat → Nat × Nat)
    {pq : PriorityQueue V} {op : Op V} {r : Bool × PriorityQueue V} (hinv : CountInv pq)
    (h : step junk hjunk pq op = .ok r) : CountInv r.2 := by
  cases op with
  | insert key value => exact insert_count junk hjunk hinv h
  | deleteMin => exact deleteMin_count junk hinv h
  | remove key => exact remove_count junk hinv h
  | decreaseKey key change => exact decreaseKey_count junk hjunk hinv h
  | increaseKey key change => exact increaseKey_count junk hjunk hinv h

theorem run_count (junk : Nat → Slot_queue V) (hjunk : Nat → Nat → Nat × Nat) :
    ∀ (ops : List (Op V)) (pq pq' : PriorityQueue V), CountInv pq →
      run junk hjunk pq ops = .ok pq' → CountInv pq' := by
  intro ops
  induction ops with
  | nil =>
    intro pq pq' hinv h
    cases h
    exact hinv
  | cons op ops ih =>
    intro pq pq' hinv h
    unfold run at h
    obtain ⟨r, hs, h⟩ := bind_eq_ok h
    exact ih r.2 pq' (step_count junk hjunk hinv hs) h

theorem countInv_new {junk : Nat → Slot_queue V} {hjunk : Nat → Nat → Nat × Nat} {maxSize : Nat}
    {pq : PriorityQueue V} (h : new junk hjunk maxSize = .ok pq) : CountInv pq := by
  unfold new at h
  by_cases h0 : maxSize = 0
  · rw [if_pos h0] at h
    cases h
  · rw [if_neg h0] at h
    obtain ⟨p, _, h⟩ := bind_eq_ok h
    obtain ⟨m, _, h⟩ := bind_eq_ok h
    cases h
    exact ⟨Nat.zero_le _, by simp⟩

/-- A run from a fresh queue on zeroed storage ends in a reachable state. -/
theorem reachable_of_fromFresh {maxSize : Nat} {ops : List (Op Nat)} {pq : PriorityQueue Nat}
    (h : fromFresh maxSize ops = .ok pq) : Reachable zeroJunk zeroHJunk maxSize pq := by
  unfold fromFresh at h
  obtain ⟨pq0, hnew, h⟩ := bind_eq_ok h
  exact ⟨pq0, ops, hnew, h⟩

/-- C4 (count accuracy): in every state that calls of `insert`, `deleteMin`,
`remove`, `decreaseKey` and `increaseKey` bring a freshly constructed queue
into, `numElements()` is at most `maxSize()`, whatever the capacity and
whatever the storage held before it was written. -/
theorem count_within_capacity (junk : Nat → Slot_queue V) (hjunk : Nat → Nat → Nat × Nat)
    (capacity : Nat) (pq : PriorityQueue V) (h : Reachable junk hjunk capacity pq) :
    numElements pq ≤ maxSize pq := by
  obtain ⟨pq0, ops, hnew, hrun⟩ := h
  exact (run_count junk hjunk ops pq0 pq (countInv_new hnew) hrun).1

/-- C4, at the queue of capacity 20 after `insert(4)`, `insert(2)`,
`insert(6)`, `remove(2)`, `decreaseKey(6, 1)`, `increaseKey(4, 3)`,
`deleteMin()`. -/
theorem count_within_capacity_witness :
    Reachable zeroJunk zeroHJunk 20 countDemo ∧ numElements countDemo ≤ maxSize countDemo :=
  ⟨@reachable_of_fromFresh 20 countDemoOps countDemo (by decide),
    count_within_capacity zeroJunk zeroHJunk 20 countDemo
      (@reachable_of_fromFresh 20 countDemoOps countDemo (by decide))⟩

/-- The call `remove` of a key that `deleteMin` left in the index of a queue
that is now empty reads `slot[num_element - 1]` with the counter at 0, outside
the array, before it lowers the counter. -/
theorem remove_on_empty_reads_outside :
    (fromFresh 20 [.insert 1 7, .deleteMin]).map
      (fun pq => (pq.num_element, usub pq.num_element 1, pq.slot.length,
        pq.mapping.lookup 1)) = .ok (0, 4294967295, 20, .ok (some 0)) ∧
    (fromFresh 20 [.insert 1 7, .deleteMin]).map (fun pq => remove zeroJunk pq 1)
      = .ok (.error .outOfBounds) := by
  refine ⟨by decide, by decide⟩

/-! ### Plain use of a queue of capacity 1 or 2 -/

/-- C22 (plain priority-queue use is correct): on a queue of capacity 2 the
calls `insert(2, 20)`, `insert(1, 10)` leave the live keys 1, 2, distinct and
in heap order, and `getMinKey` yields 1; the `deleteMin` that is to remove key
1 does not return: `down(0)` starts by comparing `slot[1].key` with
`slot[2].key`, and the array has two cells.  So the client that reads
`getMinKey` and calls `deleteMin` until the queue is empty gets no key out of
it.  The same holds at capacity 1 after `insert(2, 20)`.  At capacity 3 the
client reads 1, 2. -/
theorem plain_use_reads_outside_small_array :
    (∀ op ∈ smallDemoOps, op.plain = true) ∧
    (fromFresh 2 smallDemoOps).map
      (fun pq => (liveKeys zeroJunk pq, decide (UniqueInv zeroJunk pq ∧ OrderInv zeroJunk pq),
        getMinKey zeroJunk pq)) = .ok ([1, 2], true, some 1) ∧
    (fromFresh 2 smallDemoOps).map (fun pq => (pq.slot.length, readCell zeroJunk pq 2))
      = .ok (2, .error .outOfBounds) ∧
    (fromFresh 2 smallDemoOps).map (fun pq => deleteMin zeroJunk pq)
      = .ok (.error .outOfBounds) ∧
    (fromFresh 2 smallDemoOps).map (fun pq => takeMins zeroJunk 2 pq)
      = .ok (.error .outOfBounds) ∧
    (fromFresh 1 [.insert 2 20]).map
      (fun pq => (liveKeys zeroJunk pq, getMinKey zeroJunk pq, pq.slot.length))
      = .ok ([2], some 2, 1) ∧
    (fromFresh 1 [.insert 2 20]).map (fun pq => deleteMin zeroJunk pq)
      = .ok (.error .outOfBounds) ∧
    (fromFresh 3 smallDemoOps).map (fun pq => (takeMins zeroJunk 2 pq).map fun r => r.1)
      = .ok (.ok [1, 2]) := by
  refine ⟨by decide, by decide, by decide, by decide, by decide, by decide, by decide, by decide⟩

end PriorityQueue

end DSP
